import Mathlib

/-!
# SingleLinkedList (single-linked-list.h): a shallow embedding

The C++ class template `SingleLinkedList<Type>` owns a sentinel node `head_`
and a chain of heap nodes linked by raw `Node*` pointers.  The embedding keeps
the pointer structure explicit:

* the heap is a fixed-size array of cells, a cell being free (`none`) or
  holding a `Node` (value and `next_node`);
* every `SingleLinkedList` object alive in the program is an entry of
  `State.lists` (the fields `head_.next_node` and `size_`); automatic objects
  (`tmp` in `Copy`, `cur` in `operator=`) are pushed at the end and popped when
  their scope ends, after their destructor has run;
* `size_t` arithmetic is taken modulo `2 ^ 64`;
* `new` fails (std::bad_alloc) when no cell is free; a failed `assert`, a
  read through a null or dangling pointer and a double `delete` are `ub`.

The element type is a parameter `T`; its `operator==` and `operator<` are
parameters `eq lt : T → T → Bool`, since the template accepts any type.
-/

namespace SingleLinkedList

/-- Modulus of `size_t`. -/
def SIZE_MOD : Nat := 2 ^ 64

/-- One more than `PTRDIFF_MAX`, the largest value `std::distance` can return. -/
def PTRDIFF_LIM : Nat := 2 ^ 63

/-- The `struct Node`: a value and the raw pointer `next_node`.  Every value the
source ever stores in a `next_node` field is `nullptr`, the result of `new`, or
a value read from another `next_node` field, so the field holds either null
(`none`) or the address of a heap cell. -/
structure Node (T : Type) where
  value : T
  next_node : Option Nat
deriving DecidableEq, Repr

/-- The data members of a `SingleLinkedList` object: `head_.next_node` and
`size_`.  The member `head_.value` is never read or written by the class. -/
structure ListObj where
  head_next : Option Nat
  size_ : Nat
deriving DecidableEq, Repr

/-- Program state: the live list objects (by index) and the heap cells (by address). -/
structure State (T : Type) where
  lists : List ListObj
  heap : List (Option (Node T))
deriving DecidableEq, Repr

/-- A non-null `Node*`: the sentinel `&head_` of list object `l`, or heap cell `a`. -/
inductive NodeRef where
  | head (l : Nat)
  | cell (a : Nat)
deriving DecidableEq, Repr

/-- Embeds `BasicIterator`: the single member `node_` (`none` is `nullptr`). -/
structure BasicIterator where
  node_ : Option NodeRef
deriving DecidableEq, Repr

/-- Outcome of a read-only algorithm. -/
inductive Val (α : Type) where
  | ok (r : α)
  | ub
  | timeout
deriving DecidableEq, Repr

/-- Outcome of a call that may change the state. -/
inductive Res (σ α : Type) where
  | ok (s : σ) (r : α)
  | bad_alloc (s : σ)
  | ub
  | timeout
deriving DecidableEq, Repr

variable {T : Type}

/-- Conversion of a `next_node` value to a `Node*` held by an iterator. -/
def toRef (p : Option Nat) : Option NodeRef := p.map NodeRef.cell

/-- The allocator: lowest free cell, if any. -/
def firstFree : List (Option (Node T)) → Option Nat
  | [] => none
  | none :: _ => some 0
  | some _ :: h => (firstFree h).map (· + 1)

/-- Reading `r->next_node`. -/
def State.nextOf (s : State T) : NodeRef → Option (Option Nat)
  | .head l => s.lists[l]?.map (·.head_next)
  | .cell a =>
    match s.heap[a]? with
    | some (some n) => some n.next_node
    | _ => none

/-- Writing `r->next_node = p`. -/
def State.setNext (s : State T) (r : NodeRef) (p : Option Nat) : Option (State T) :=
  match r with
  | .head l =>
    match s.lists[l]? with
    | some L => some { s with lists := s.lists.set l { L with head_next := p } }
    | none => none
  | .cell a =>
    match s.heap[a]? with
    | some (some n) => some { s with heap := s.heap.set a (some { n with next_node := p }) }
    | _ => none

/-- Writing `size_` of list object `l`. -/
def State.setSize (s : State T) (l : Nat) (n : Nat) : Option (State T) :=
  match s.lists[l]? with
  | some L => some { s with lists := s.lists.set l { L with size_ := n } }
  | none => none

/-- Embeds `BasicIterator::operator*`.  Only heap nodes carry an element:
dereferencing a null iterator fails the assertion.  On the sentinel the source
would hand out a reference to `head_.value`, a member the class never sets and
the embedding does not carry; the embedding is stricter there and gives no
result (the specification makes this dereference a precondition violation). -/
def deref (s : State T) (it : BasicIterator) : Option T :=
  match it.node_ with
  | some (.cell a) =>
    match s.heap[a]? with
    | some (some n) => some n.value
    | _ => none
  | _ => none

/-- Embeds `BasicIterator::operator++`. -/
def incr (s : State T) (it : BasicIterator) : Option BasicIterator :=
  match it.node_ with
  | none => none
  | some r => (s.nextOf r).map (fun p => ⟨toRef p⟩)

/-- Embeds `begin()` / `cbegin()`. -/
def begin (s : State T) (l : Nat) : Option BasicIterator :=
  s.lists[l]?.map (fun L => ⟨toRef L.head_next⟩)

/-- Embeds `end()` / `cend()`. -/
def end_ : BasicIterator := ⟨none⟩

/-- Embeds `before_begin()` / `cbefore_begin()`. -/
def before_begin (l : Nat) : BasicIterator := ⟨some (.head l)⟩

/-- Embeds `GetSize()`. -/
def GetSize (s : State T) (l : Nat) : Option Nat := s.lists[l]?.map (·.size_)

/-- Embeds `IsEmpty()`. -/
def IsEmpty (s : State T) (l : Nat) : Option Bool := s.lists[l]?.map (fun L => L.size_ == 0)

/-- Embeds `SingleLinkedList()`: a new object with `size_ = 0` and a null sentinel link.
Returns the new state; the object is the last entry of `lists`. -/
def ctor (s : State T) : State T :=
  { s with lists := s.lists ++ [⟨none, 0⟩] }

/-- End of lifetime of the most recent object, after its destructor body. -/
def pop (s : State T) : State T :=
  { s with lists := s.lists.dropLast }

/-- Member `swap`: two `std::swap` calls. -/
def swap (s : State T) (l o : Nat) : Res (State T) Unit :=
  match s.lists[l]?, s.lists[o]? with
  | some L, some O =>
    .ok { s with lists := (s.lists.set l ⟨O.head_next, O.size_⟩).set o ⟨L.head_next, L.size_⟩ } ()
  | _, _ => .ub

/-- Embeds `PushFront`. -/
def PushFront (s : State T) (l : Nat) (value : T) : Res (State T) Unit :=
  match s.lists[l]? with
  | none => .ub
  | some L =>
    match firstFree s.heap with
    | none => .bad_alloc s
    | some a =>
      .ok { lists := s.lists.set l ⟨some a, (L.size_ + 1) % SIZE_MOD⟩
            heap := s.heap.set a (some ⟨value, L.head_next⟩) } ()

/-- The `while` loop of `Clear`. -/
def Clear.loop : Nat → State T → Option Nat → Res (State T) Unit
  | _, s, none => .ok s ()
  | 0, _, some _ => .timeout
  | fuel + 1, s, some cur =>
    match s.heap[cur]? with
    | some (some n) => Clear.loop fuel { s with heap := s.heap.set cur none } n.next_node
    | _ => .ub

/-- Embeds `Clear`.  Every iteration frees a live cell, so the loop makes at most
`heap.length` iterations before its last test. -/
def Clear (s : State T) (l : Nat) : Res (State T) Unit :=
  match s.lists[l]? with
  | none => .ub
  | some L =>
    match Clear.loop (s.heap.length + 1) s L.head_next with
    | .ok s1 _ => .ok { s1 with lists := s1.lists.set l ⟨none, 0⟩ } ()
    | r => r

/-- Embeds `~SingleLinkedList()` of the most recent object, followed by the end of its storage. -/
def destroy (s : State T) : Res (State T) Unit :=
  match Clear s (s.lists.length - 1) with
  | .ok s1 _ => .ok (pop s1) ()
  | r => r

/-- Embeds `InsertAfter`. -/
def InsertAfter (s : State T) (l : Nat) (pos : BasicIterator) (value : T) :
    Res (State T) BasicIterator :=
  match s.lists[l]? with
  | none => .ub
  | some _ =>
    match pos.node_ with
    | none => .ub
    | some r =>
      match firstFree s.heap with
      | none => .bad_alloc s
      | some a =>
        match s.nextOf r with
        | none => .ub
        | some nx =>
          let s1 : State T := { s with heap := s.heap.set a (some ⟨value, nx⟩) }
          match s1.setNext r (some a) with
          | none => .ub
          | some s2 =>
            match s2.lists[l]? with
            | none => .ub
            | some L =>
              match s2.setSize l ((L.size_ + 1) % SIZE_MOD) with
              | none => .ub
              | some s3 => .ok s3 ⟨some (.cell a)⟩

/-- Embeds `PopFront`. -/
def PopFront (s : State T) (l : Nat) : Res (State T) Unit :=
  match s.lists[l]? with
  | none => .ub
  | some L =>
    if L.size_ ≠ 0 then
      match L.head_next with
      | none => .ub
      | some cur =>
        match s.heap[cur]? with
        | some (some n) =>
          .ok { lists := s.lists.set l ⟨n.next_node, (L.size_ + SIZE_MOD - 1) % SIZE_MOD⟩
                heap := s.heap.set cur none } ()
        | _ => .ub
    else .ok s ()

/-- Embeds `EraseAfter`, with its three assertions. -/
def EraseAfter (s : State T) (l : Nat) (pos : BasicIterator) : Res (State T) BasicIterator :=
  match s.lists[l]? with
  | none => .ub
  | some _ =>
    match pos.node_ with
    | none => .ub
    | some r =>
      match s.nextOf r with
      | none => .ub
      | some none => .ub
      | some (some node_to_delete) =>
        match s.heap[node_to_delete]? with
        | some (some n) =>
          match s.setNext r n.next_node with
          | none => .ub
          | some s1 =>
            match s1.heap[node_to_delete]? with
            | some (some _) =>
              let s2 : State T := { s1 with heap := s1.heap.set node_to_delete none }
              match s2.lists[l]? with
              | none => .ub
              | some L =>
                if 0 < L.size_ then
                  match s2.setSize l ((L.size_ + SIZE_MOD - 1) % SIZE_MOD) with
                  | none => .ub
                  | some s3 =>
                    match s3.nextOf r with
                    | none => .ub
                    | some p => .ok s3 ⟨toRef p⟩
                else .ub
            | _ => .ub
        | _ => .ub

/-- The operations `Copy` needs from its template parameter `InputIt`. -/
structure InputIt (T It : Type) where
  ne : It → It → Bool
  rd : State T → It → Option T
  inc : State T → It → Option It

/-- The instantiation `InputIt = ConstIterator` (the copy constructor). -/
def constIt : InputIt T BasicIterator where
  ne := fun a b => a.node_ != b.node_
  rd := deref
  inc := incr

/-- The instantiation `InputIt = const Type*` (the initializer-list constructor): a pointer into
the array is the list of the values from it to the end of the array. -/
def ptrIt : InputIt T (List T) where
  ne := fun a b => a.length != b.length
  rd := fun _ a => a.head?
  inc := fun _ a => some a.tail

/-- The `while` loop of `Copy`. -/
def Copy.loop {It : Type} (io : InputIt T It) :
    Nat → State T → NodeRef → It → It → Res (State T) Unit
  | 0, s, _, first, last => if io.ne first last then .timeout else .ok s ()
  | fuel + 1, s, current, first, last =>
    if io.ne first last then
      match firstFree s.heap with
      | none => .bad_alloc s
      | some new_node =>
        match io.rd s first with
        | none => .ub
        | some v =>
          let s1 : State T := { s with heap := s.heap.set new_node (some ⟨v, none⟩) }
          match s1.setNext current (some new_node) with
          | none => .ub
          | some s2 =>
            match io.inc s2 first with
            | none => .ub
            | some first1 => Copy.loop io fuel s2 (.cell new_node) first1 last
    else .ok s ()

/-- Embeds `std::distance` on forward iterators. -/
def distance (s : State T) : Nat → BasicIterator → BasicIterator → Val Nat
  | 0, first, last => if first.node_ ≠ last.node_ then .timeout else .ok 0
  | fuel + 1, first, last =>
    if first.node_ ≠ last.node_ then
      match incr s first with
      | none => .ub
      | some first1 =>
        match distance s fuel first1 last with
        | .ok n => .ok (n + 1)
        | r => r
    else .ok 0

/-- Embeds `Copy`.  `tmp` is a new automatic object; when `new` throws, the stack is
unwound (`~tmp`) before the exception leaves.  Every iteration of the loop
takes a free cell, so it makes at most `heap.length` iterations before its
last test. -/
def Copy {It : Type} (io : InputIt T It) (s : State T) (this : Nat) (first last : It) :
    Res (State T) Unit :=
  let tmp := s.lists.length
  let s0 := ctor s
  match Copy.loop io (s0.heap.length + 1) s0 (.head tmp) first last with
  | .ok s1 _ =>
    match begin s1 tmp with
    | none => .ub
    | some b =>
      match distance s1 (s1.heap.length + 1) b end_ with
      | .ok d =>
        if d < PTRDIFF_LIM then
          match s1.setSize tmp (d % SIZE_MOD) with
          | none => .ub
          | some s2 =>
            match swap s2 this tmp with
            | .ok s3 _ => destroy s3
            | r => r
        else .ub
      | .ub => .ub
      | .timeout => .timeout
  | .bad_alloc s1 =>
    match destroy s1 with
    | .ok s2 _ => .bad_alloc s2
    | r => r
  | r => r

/-- Embeds `SingleLinkedList(std::initializer_list<Type> values)`.  The new object is
the last entry of `lists`; when `Copy` throws, the object never comes to life. -/
def ctor_init (s : State T) (values : List T) : Res (State T) Unit :=
  let this := s.lists.length
  match Copy ptrIt (ctor s) this values [] with
  | .bad_alloc s1 => .bad_alloc (pop s1)
  | r => r

/-- Embeds `SingleLinkedList(const SingleLinkedList& other)`. -/
def ctor_copy (s : State T) (other : Nat) : Res (State T) Unit :=
  let this := s.lists.length
  let s0 := ctor s
  match begin s0 other with
  | none => .ub
  | some first =>
    match Copy constIt s0 this first end_ with
    | .bad_alloc s1 => .bad_alloc (pop s1)
    | r => r

/-- The copy assignment `operator=`; `cur` is a new automatic object. -/
def assign (s : State T) (this rhs : Nat) : Res (State T) Unit :=
  if this ≠ rhs then
    let cur := s.lists.length
    match ctor_copy s rhs with
    | .ok s1 _ =>
      match swap s1 this cur with
      | .ok s2 _ => destroy s2
      | r => r
    | r => r
  else .ok s ()

/-- The free function `swap(lhs, rhs)`. -/
def free_swap (s : State T) (lhs rhs : Nat) : Res (State T) Unit :=
  swap s lhs rhs

/-- Embeds `std::equal(first1, last1, first2)`. -/
def equal (eq : T → T → Bool) (s : State T) :
    Nat → BasicIterator → BasicIterator → BasicIterator → Val Bool
  | 0, first1, last1, _ => if first1.node_ ≠ last1.node_ then .timeout else .ok true
  | fuel + 1, first1, last1, first2 =>
    if first1.node_ ≠ last1.node_ then
      match deref s first1, deref s first2 with
      | some a, some b =>
        if !(eq a b) then .ok false
        else
          match incr s first1, incr s first2 with
          | some i1, some i2 => equal eq s fuel i1 last1 i2
          | _, _ => .ub
      | _, _ => .ub
    else .ok true

/-- Embeds `std::lexicographical_compare(first1, last1, first2, last2)`. -/
def lexicographical_compare (lt : T → T → Bool) (s : State T) :
    Nat → BasicIterator → BasicIterator → BasicIterator → BasicIterator → Val Bool
  | 0, first1, last1, first2, last2 =>
    if first1.node_ ≠ last1.node_ ∧ first2.node_ ≠ last2.node_ then .timeout
    else .ok (first1.node_ == last1.node_ && first2.node_ != last2.node_)
  | fuel + 1, first1, last1, first2, last2 =>
    if first1.node_ ≠ last1.node_ ∧ first2.node_ ≠ last2.node_ then
      match deref s first1, deref s first2 with
      | some a, some b =>
        if lt a b then .ok true
        else if lt b a then .ok false
        else
          match incr s first1, incr s first2 with
          | some i1, some i2 => lexicographical_compare lt s fuel i1 last1 i2 last2
          | _, _ => .ub
      | _, _ => .ub
    else .ok (first1.node_ == last1.node_ && first2.node_ != last2.node_)

/-- Embeds `operator==` on lists. -/
def op_eq (eq : T → T → Bool) (s : State T) (lhs rhs : Nat) : Val Bool :=
  if lhs = rhs then .ok true
  else
    match s.lists[lhs]?, s.lists[rhs]? with
    | some L, some R =>
      if L.size_ ≠ R.size_ then .ok false
      else equal eq s (s.heap.length + 1) ⟨toRef L.head_next⟩ end_ ⟨toRef R.head_next⟩
    | _, _ => .ub

/-- Embeds `operator!=` on lists. -/
def op_ne (eq : T → T → Bool) (s : State T) (lhs rhs : Nat) : Val Bool :=
  match op_eq eq s lhs rhs with
  | .ok b => .ok (!b)
  | r => r

/-- Embeds `operator<` on lists. -/
def op_lt (lt : T → T → Bool) (s : State T) (lhs rhs : Nat) : Val Bool :=
  match s.lists[lhs]?, s.lists[rhs]? with
  | some L, some R =>
    lexicographical_compare lt s (s.heap.length + 1) ⟨toRef L.head_next⟩ end_
      ⟨toRef R.head_next⟩ end_
  | _, _ => .ub

/-- Embeds `operator<=` on lists. -/
def op_le (lt : T → T → Bool) (s : State T) (lhs rhs : Nat) : Val Bool :=
  match op_lt lt s rhs lhs with
  | .ok b => .ok (!b)
  | r => r

/-- Embeds `operator>` on lists. -/
def op_gt (lt : T → T → Bool) (s : State T) (lhs rhs : Nat) : Val Bool :=
  op_lt lt s rhs lhs

/-- Embeds `operator>=` on lists. -/
def op_ge (lt : T → T → Bool) (s : State T) (lhs rhs : Nat) : Val Bool :=
  match op_lt lt s lhs rhs with
  | .ok b => .ok (!b)
  | r => r

/-- The initial program state: no list object, `cap` free cells. -/
def State.init (T : Type) (cap : Nat) : State T :=
  { lists := [], heap := List.replicate cap none }

/-- The addresses and values met by following `next_node` from `p` to null. -/
def chainOf (h : List (Option (Node T))) : Nat → Option Nat → Option (List (Nat × T))
  | _, none => some []
  | 0, some _ => none
  | fuel + 1, some a =>
    match h[a]? with
    | some (some n) => (chainOf h fuel n.next_node).map (fun c => (a, n.value) :: c)
    | _ => none

/-- The real nodes of list `l`, in traversal order from the sentinel. -/
def nodes (s : State T) (l : Nat) : Option (List (Nat × T)) :=
  match s.lists[l]? with
  | some L => chainOf s.heap (s.heap.length + 1) L.head_next
  | none => none

/-- The traversal sequence of list `l`. -/
def toList (s : State T) (l : Nat) : Option (List T) :=
  (nodes s l).map (fun c => c.map Prod.snd)

/-! ## Specification vocabulary -/

/-- The predicate `IsSeg h p c q`: following `next_node` from pointer `p` visits
exactly the cells of `c` (address and value, in order) and arrives at pointer
`q`. -/
def IsSeg (h : List (Option (Node T))) : Option Nat → List (Nat × T) → Option Nat → Prop
  | p, [], q => p = q
  | p, x :: c, q => p = some x.1 ∧ ∃ nx, h[x.1]? = some (some ⟨x.2, nx⟩) ∧ IsSeg h nx c q

/-- The addresses of a chain. -/
def addrs (c : List (Nat × T)) : List Nat := c.map Prod.fst

/-- The values of a chain. -/
def vals (c : List (Nat × T)) : List T := c.map Prod.snd

/-- The shape invariant: `cs l` is the chain of real nodes of list object `l`;
it ends in null, no cell occurs twice in a chain or in two chains, and the heap
fits the address space. -/
structure Shape (s : State T) (cs : Nat → List (Nat × T)) : Prop where
  cap : s.heap.length < PTRDIFF_LIM
  chain : ∀ l L, s.lists[l]? = some L → IsSeg s.heap L.head_next (cs l) none
  nodup : ∀ l, (addrs (cs l)).Nodup
  disj : ∀ i j a, a ∈ addrs (cs i) → a ∈ addrs (cs j) → i = j
  out : ∀ l, s.lists.length ≤ l → cs l = []

/-- The representation invariant: the shape invariant, and every `size_` is
the length of its chain. -/
structure Inv (s : State T) (cs : Nat → List (Nat × T)) : Prop where
  shape : Shape s cs
  size : ∀ l L, s.lists[l]? = some L → L.size_ = (cs l).length

/-- Well-formed states: the representation invariant holds for some assignment
of chains to the list objects.  Every reachable state is well-formed
(`reachable_wf`). -/
def WF (s : State T) : Prop := ∃ cs, Inv s cs

/-- The position `pos` references a live node of list `l`: its sentinel or one
of its real nodes. -/
def Owns (s : State T) (l : Nat) (pos : BasicIterator) : Prop :=
  match pos.node_ with
  | some (.head k) => k = l
  | some (.cell a) =>
    match nodes s l with
    | some c => a ∈ addrs c
    | none => False
  | none => False

instance (s : State T) (l : Nat) (pos : BasicIterator) : Decidable (Owns s l pos) := by
  unfold Owns
  split
  · infer_instance
  · split <;> infer_instance
  · infer_instance

/-- The node referenced by `pos` has a successor. -/
def HasSucc (s : State T) (pos : BasicIterator) : Prop :=
  match pos.node_ with
  | some r =>
    match s.nextOf r with
    | some (some _) => True
    | _ => False
  | none => False

instance (s : State T) (pos : BasicIterator) : Decidable (HasSucc s pos) := by
  unfold HasSucc
  split
  · split <;> infer_instance
  · infer_instance

/-- The public operations that create or change list objects. -/
inductive Op (T : Type) where
  | ctor
  | ctor_init (values : List T)
  | ctor_copy (other : Nat)
  | PushFront (l : Nat) (value : T)
  | PopFront (l : Nat)
  | InsertAfter (l : Nat) (pos : BasicIterator) (value : T)
  | EraseAfter (l : Nat) (pos : BasicIterator)
  | Clear (l : Nat)
  | assign (l rhs : Nat)
  | swap (l other : Nat)

/-- The caller's obligations: the objects named exist, a position belongs to
the list it is passed to, and the position given to `EraseAfter` has a
successor. -/
def Op.pre (s : State T) : Op T → Prop
  | .ctor => True
  | .ctor_init _ => True
  | .ctor_copy other => other < s.lists.length
  | .PushFront l _ => l < s.lists.length
  | .PopFront l => l < s.lists.length
  | .InsertAfter l pos _ => l < s.lists.length ∧ Owns s l pos
  | .EraseAfter l pos => l < s.lists.length ∧ Owns s l pos ∧ HasSucc s pos
  | .Clear l => l < s.lists.length
  | .assign l rhs => l < s.lists.length ∧ rhs < s.lists.length
  | .swap l other => l < s.lists.length ∧ other < s.lists.length

instance (s : State T) (op : Op T) : Decidable (op.pre s) := by
  cases op <;> unfold Op.pre <;> infer_instance

/-- Forgetting the value a call returns. -/
def Res.void {σ α : Type} : Res σ α → Res σ Unit
  | .ok s _ => .ok s ()
  | .bad_alloc s => .bad_alloc s
  | .ub => .ub
  | .timeout => .timeout

/-- Running one operation. -/
def Op.run (s : State T) : Op T → Res (State T) Unit
  | .ctor => .ok (SingleLinkedList.ctor s) ()
  | .ctor_init values => SingleLinkedList.ctor_init s values
  | .ctor_copy other => SingleLinkedList.ctor_copy s other
  | .PushFront l value => SingleLinkedList.PushFront s l value
  | .PopFront l => SingleLinkedList.PopFront s l
  | .InsertAfter l pos value => (SingleLinkedList.InsertAfter s l pos value).void
  | .EraseAfter l pos => (SingleLinkedList.EraseAfter s l pos).void
  | .Clear l => SingleLinkedList.Clear s l
  | .assign l rhs => SingleLinkedList.assign s l rhs
  | .swap l other => SingleLinkedList.swap s l other

/-- The state a call leaves behind, when it returns or throws. -/
def Res.state? {σ α : Type} : Res σ α → Option σ
  | .ok s _ => some s
  | .bad_alloc s => some s
  | _ => none

/-- States reachable from a program start by public operations called within
their preconditions (a call that throws std::bad_alloc counts as a step). -/
inductive Reachable : State T → Prop where
  | init (cap : Nat) (hcap : cap < PTRDIFF_LIM) : Reachable (State.init T cap)
  | step {s s1 : State T} (op : Op T) (hs : Reachable s) (hpre : op.pre s)
      (hrun : (op.run s).state? = some s1) : Reachable s1

/-- The node `r` closes the prefix `pre` of the chain of list `l`: it is the
sentinel when `pre` is empty, and the last cell of `pre` otherwise. -/
def SplitAt (l : Nat) (r : NodeRef) (pre : List (Nat × T)) : Prop :=
  (r = .head l ∧ pre = []) ∨ ∃ pre0 x, pre = pre0 ++ [x] ∧ r = .cell x.1

/-- The position after `k` real nodes of the chain `c` of list `l`:
`before_begin()` for `k = 0`, the `k`-th node otherwise. -/
def posAt (c : List (Nat × T)) (l : Nat) : Nat → BasicIterator
  | 0 => before_begin l
  | k + 1 => ⟨(addrs c)[k]?.map NodeRef.cell⟩

/-- The number of free cells. -/
def countFree : List (Option (Node T)) → Nat
  | [] => 0
  | none :: h => countFree h + 1
  | some _ :: h => countFree h

/-- What `Copy.loop` relies on in its input range: `D h it vs` says that, in
heap `h`, the range from `it` to `last` yields the values `vs`; reading it
depends on the cells `F` only. -/
structure Reads {It : Type} (io : InputIt T It) (last : It) (F : List Nat)
    (D : List (Option (Node T)) → It → List T → Prop) : Prop where
  done : ∀ h it, D h it [] → io.ne it last = false
  more : ∀ h it v vs, D h it (v :: vs) → io.ne it last = true ∧
    ∀ ls, io.rd ⟨ls, h⟩ it = some v ∧ ∃ it1, io.inc ⟨ls, h⟩ it = some it1 ∧ D h it1 vs
  frame : ∀ h h1 it vs, D h it vs → (∀ a ∈ F, h1[a]? = h[a]?) → D h1 it vs

/-- Reading a `ConstIterator` range that ends at `end()`: the iterator stands
at the head of a null-terminated chain with values `vs`, made of cells of `F`. -/
def iterReads (F : List Nat) (h : List (Option (Node T))) (it : BasicIterator)
    (vs : List T) : Prop :=
  ∃ p ch, it.node_ = toRef p ∧ IsSeg h p ch none ∧ vals ch = vs ∧ ∀ a ∈ addrs ch, a ∈ F

/-- Reading a pointer range that ends at the end of the array. -/
def ptrReads (_ : List (Option (Node T))) (it : List T) (vs : List T) : Prop :=
  it = vs

/-- A concrete program state over `Nat`: a heap of eight cells and the three
lists `[1, 2, 3]`, `[1, 2, 4]` and `[1, 2]`, built by the initializer-list
constructor. -/
def demo : State Nat :=
  { lists := [⟨some 0, 3⟩, ⟨some 3, 3⟩, ⟨some 6, 2⟩]
    heap := [some ⟨1, some 1⟩, some ⟨2, some 2⟩, some ⟨3, none⟩,
             some ⟨1, some 4⟩, some ⟨2, some 5⟩, some ⟨4, none⟩,
             some ⟨1, some 7⟩, some ⟨2, none⟩] }

/-- A concrete program state over `Nat`: a heap of six cells, two of them free,
and the two lists `[1, 2, 3]` and `[7]`. -/
def demo2 : State Nat :=
  { lists := [⟨some 0, 3⟩, ⟨some 3, 1⟩]
    heap := [some ⟨1, some 1⟩, some ⟨2, some 2⟩, some ⟨3, none⟩, some ⟨7, none⟩, none, none] }

/-- All corresponding elements of two sequences are `==`. -/
def pairwiseEq (eq : T → T → Bool) : List T → List T → Bool
  | x :: xs, y :: ys => eq x y && pairwiseEq eq xs ys
  | _, _ => true

/-- The lexicographic rule on two sequences, in terms of `<` alone. -/
def lexLt (lt : T → T → Bool) : List T → List T → Bool
  | [], [] => false
  | [], _ :: _ => true
  | _ :: _, [] => false
  | x :: xs, y :: ys => if lt x y then true else if lt y x then false else lexLt lt xs ys

/-- The `==` of an element type with a value that is not equal to itself, as
NaN is for `double`: `none` stands for that value. -/
def nanEq : Option Nat → Option Nat → Bool
  | some x, some y => x == y
  | _, _ => false

/-- The `<` of that element type: the special value is unordered. -/
def nanLt : Option Nat → Option Nat → Bool
  | some x, some y => decide (x < y)
  | _, _ => false

/-- A concrete state over that element type: two lists, each holding the one
special value. -/
def demoNan : State (Option Nat) :=
  { lists := [⟨some 0, 1⟩, ⟨some 1, 1⟩]
    heap := [some ⟨none, none⟩, some ⟨none, none⟩] }

/-- The statement of claim C2 for the lists `l1` and `l2` of state `s`:
`operator==` returns, and returns true exactly when the sizes are equal and
the elements at every index below the size are `==`. -/
def EqClaim (eq : T → T → Bool) (s : State T) (l1 l2 : Nat) : Prop :=
  ∃ xs ys n1 n2 b, toList s l1 = some xs ∧ toList s l2 = some ys ∧
    GetSize s l1 = some n1 ∧ GetSize s l2 = some n2 ∧ op_eq eq s l1 l2 = .ok b ∧
    (b = true ↔ n1 = n2 ∧
      ∀ i, i < n1 → ∀ x y, xs[i]? = some x → ys[i]? = some y → eq x y = true)

/-- Exactly one of three truth values is true. -/
def ExactlyOne (a b c : Bool) : Prop :=
  (a = true ∧ b = false ∧ c = false) ∨ (a = false ∧ b = true ∧ c = false) ∨
    (a = false ∧ b = false ∧ c = true)

/-- The statement of claim C4 for the lists `l1` and `l2` of state `s`: the
three comparisons `l1 < l2`, `l1 == l2` and `l2 < l1` return, and exactly one
of them returns true. -/
def Trichotomy (eq lt : T → T → Bool) (s : State T) (l1 l2 : Nat) : Prop :=
  ∃ a b c, op_lt lt s l1 l2 = .ok a ∧ op_eq eq s l1 l2 = .ok b ∧ op_lt lt s l2 l1 = .ok c ∧
    ExactlyOne a b c

/-- The sequences `xs` and `ys` do not differ below index `i`: at every index
below `i` neither element is less than the other. -/
def EquivUpTo (lt : T → T → Bool) (xs ys : List T) (i : Nat) : Prop :=
  ∀ j, j < i → ∀ c d, xs[j]? = some c → ys[j]? = some d → lt c d = false ∧ lt d c = false

/-- The operation changes list `l` only: one of PushFront, PopFront,
InsertAfter, EraseAfter and Clear, called on `l`. -/
def Op.mutates (l : Nat) : Op T → Prop
  | .PushFront k _ => k = l
  | .PopFront k => k = l
  | .InsertAfter k _ _ => k = l
  | .EraseAfter k _ => k = l
  | .Clear k => k = l
  | _ => False

instance (l : Nat) (op : Op T) : Decidable (op.mutates l) := by
  cases op <;> unfold Op.mutates <;> infer_instance

/-- The relation `Mutated l s s1`: the state `s1` comes from `s` by a sequence of calls of
PushFront, PopFront, InsertAfter, EraseAfter and Clear on list `l`, each within
its precondition. -/
inductive Mutated (l : Nat) : State T → State T → Prop where
  | refl (s : State T) : Mutated l s s
  | step {s s1 s2 : State T} (op : Op T) (hon : op.mutates l) (hpre : op.pre s)
      (hrun : (op.run s).state? = some s1) (hrest : Mutated l s1 s2) : Mutated l s s2

/-- The state `demo2` after copy-constructing a third list from list 1. -/
def demo2Copy : State Nat :=
  { lists := [⟨some 0, 3⟩, ⟨some 3, 1⟩, ⟨some 4, 1⟩]
    heap := [some ⟨1, some 1⟩, some ⟨2, some 2⟩, some ⟨3, none⟩, some ⟨7, none⟩,
             some ⟨7, none⟩, none] }

/-- The state `demo2Copy` after PushFront(9) and Clear() on the third list. -/
def demo2Mut : State Nat :=
  { lists := [⟨some 0, 3⟩, ⟨some 3, 1⟩, ⟨none, 0⟩]
    heap := [some ⟨1, some 1⟩, some ⟨2, some 2⟩, some ⟨3, none⟩, some ⟨7, none⟩, none, none] }

/-- The number of cells in use. -/
def countLive : List (Option (Node T)) → Nat
  | [] => 0
  | none :: h => countLive h
  | some _ :: h => countLive h + 1

/-- The statement of claim C15 for list `l` of state `s`: EraseAfter at
`before_begin()` completes and leaves the list empty with size 0, as PopFront
does. -/
def EraseNoOp (s : State T) (l : Nat) : Prop :=
  (∃ s1, PopFront s l = .ok s1 () ∧ toList s1 l = some [] ∧ GetSize s1 l = some 0) ∧
  ∃ s1 it, EraseAfter s l (before_begin l) = .ok s1 it ∧ toList s1 l = some [] ∧
    GetSize s1 l = some 0

/-- The number of nodes the loop of `Copy` has linked into the temporary chain
when it stops: the number of elements it has copied. -/
def Copy.built {It : Type} (io : InputIt T It) : Nat → State T → NodeRef → It → It → Nat
  | 0, _, _, _, _ => 0
  | fuel + 1, s, current, first, last =>
    if io.ne first last then
      match firstFree s.heap with
      | none => 0
      | some new_node =>
        match io.rd s first with
        | none => 0
        | some v =>
          let s1 : State T := { s with heap := s.heap.set new_node (some ⟨v, none⟩) }
          match s1.setNext current (some new_node) with
          | none => 0
          | some s2 =>
            match io.inc s2 first with
            | none => 1
            | some first1 => Copy.built io fuel s2 (.cell new_node) first1 last + 1
    else 0

/-- The statement of claim C18 for the lists `l1` and `l2` of state `s`: the six
comparisons return, `l1 <= l2` holds iff `l1 < l2` or `l1 == l2`, `l1 > l2`
holds iff `l2 < l1`, and `l1 >= l2` holds iff `l1 > l2` or `l1 == l2`. -/
def DerivedClaim (eq lt : T → T → Bool) (s : State T) (l1 l2 : Nat) : Prop :=
  ∃ lt12 lt21 e le gt ge, op_lt lt s l1 l2 = .ok lt12 ∧ op_lt lt s l2 l1 = .ok lt21 ∧
    op_eq eq s l1 l2 = .ok e ∧ op_le lt s l1 l2 = .ok le ∧ op_gt lt s l1 l2 = .ok gt ∧
    op_ge lt s l1 l2 = .ok ge ∧
    (le = true ↔ lt12 = true ∨ e = true) ∧ (gt = true ↔ lt21 = true) ∧
    (ge = true ↔ gt = true ∨ e = true)

/-- The statement of claim C20 for the lists `l1`, `l2` and `l3` of state `s`:
`l1 < l1` is false, and `l1 < l2` and `l2 < l3` give `l1 < l3`. -/
def LtStrict (lt : T → T → Bool) (s : State T) (l1 l2 l3 : Nat) : Prop :=
  op_lt lt s l1 l1 = .ok false ∧
  (op_lt lt s l1 l2 = .ok true → op_lt lt s l2 l3 = .ok true → op_lt lt s l1 l3 = .ok true)

/-- A concrete state over the element type with the unordered value: the three
lists `[2]`, `[NaN, NaN]` and `[1, 1, 1]`. -/
def demoNan3 : State (Option Nat) :=
  { lists := [⟨some 0, 1⟩, ⟨some 1, 2⟩, ⟨some 3, 3⟩]
    heap := [some ⟨some 2, none⟩, some ⟨none, some 2⟩, some ⟨none, none⟩,
             some ⟨some 1, some 4⟩, some ⟨some 1, some 5⟩, some ⟨some 1, none⟩] }

/-- The statement of claim C3 for the lists `l1` and `l2` of state `s`:
`operator<` returns, and returns true exactly when the sequence of `l1` is a
proper prefix of that of `l2`, or at the first index where the two sequences
differ the element of `l1` is less than the element of `l2`. -/
def LexClaim (lt : T → T → Bool) (s : State T) (l1 l2 : Nat) : Prop :=
  ∃ xs ys r, toList s l1 = some xs ∧ toList s l2 = some ys ∧ op_lt lt s l1 l2 = .ok r ∧
    (r = true ↔ (xs <+: ys ∧ xs ≠ ys) ∨
      ∃ (i : Nat) (a b : T), xs[i]? = some a ∧ ys[i]? = some b ∧ a ≠ b ∧ lt a b = true ∧
        ∀ j : Nat, j < i → xs[j]? = ys[j]?)

/-! ## Heap and chain lemmas -/

theorem firstFree_spec (h : List (Option (Node T))) (a : Nat) (hf : firstFree h = some a) :
    h[a]? = some none := by
  induction h generalizing a with
  | nil => simp [firstFree] at hf
  | cons x h ih =>
    cases x with
    | none => simp [firstFree] at hf; subst hf; simp
    | some n =>
      simp only [firstFree, Option.map_eq_some'] at hf
      obtain ⟨b, hb, rfl⟩ := hf
      simpa using ih b hb

theorem firstFree_lt (h : List (Option (Node T))) (a : Nat) (hf : firstFree h = some a) :
    a < h.length := by
  have := firstFree_spec h a hf
  exact (List.getElem?_eq_some.mp this).1

theorem isSeg_live {h : List (Option (Node T))} {p q : Option Nat} {c : List (Nat × T)}
    (hc : IsSeg h p c q) {a : Nat} (ha : a ∈ addrs c) : ∃ n, h[a]? = some (some n) := by
  induction c generalizing p with
  | nil => simp [addrs] at ha
  | cons x c ih =>
    obtain ⟨_, nx, hx, hrest⟩ := hc
    simp only [addrs, List.map_cons, List.mem_cons] at ha
    rcases ha with rfl | ha
    · exact ⟨_, hx⟩
    · exact ih hrest ha

theorem isSeg_frame {h h1 : List (Option (Node T))} {p q : Option Nat} {c : List (Nat × T)}
    (hc : IsSeg h p c q) (hsame : ∀ a ∈ addrs c, h1[a]? = h[a]?) : IsSeg h1 p c q := by
  induction c generalizing p with
  | nil => exact hc
  | cons x c ih =>
    obtain ⟨hp, nx, hx, hrest⟩ := hc
    refine ⟨hp, nx, ?_, ih hrest ?_⟩
    · rw [hsame x.1 (by simp [addrs])]; exact hx
    · intro a ha
      exact hsame a (by simp only [addrs, List.map_cons, List.mem_cons]; exact Or.inr ha)

theorem isSeg_set {h : List (Option (Node T))} {p q : Option Nat} {c : List (Nat × T)}
    (hc : IsSeg h p c q) {a : Nat} (ha : a ∉ addrs c) (x : Option (Node T)) :
    IsSeg (h.set a x) p c q := by
  apply isSeg_frame hc
  intro b hb
  have : a ≠ b := fun e => ha (e ▸ hb)
  simp [List.getElem?_set, this]

theorem isSeg_append {h : List (Option (Node T))} {p q : Option Nat} {c1 c2 : List (Nat × T)} :
    IsSeg h p (c1 ++ c2) q ↔ ∃ m, IsSeg h p c1 m ∧ IsSeg h m c2 q := by
  induction c1 generalizing p with
  | nil => simp [IsSeg]
  | cons x c ih =>
    show (p = some x.1 ∧ ∃ nx, h[x.1]? = some (some ⟨x.2, nx⟩) ∧ IsSeg h nx (c ++ c2) q) ↔
      ∃ m, (p = some x.1 ∧ ∃ nx, h[x.1]? = some (some ⟨x.2, nx⟩) ∧ IsSeg h nx c m) ∧
        IsSeg h m c2 q
    constructor
    · rintro ⟨hp, nx, hx, hr⟩
      obtain ⟨m, h1, h2⟩ := ih.mp hr
      exact ⟨m, ⟨hp, nx, hx, h1⟩, h2⟩
    · rintro ⟨m, ⟨hp, nx, hx, h1⟩, h2⟩
      exact ⟨hp, nx, hx, ih.mpr ⟨m, h1, h2⟩⟩

theorem isSeg_length_le {h : List (Option (Node T))} {p q : Option Nat} {c : List (Nat × T)}
    (hc : IsSeg h p c q) (hn : (addrs c).Nodup) : c.length ≤ h.length := by
  have hsub : (addrs c).toFinset ⊆ Finset.range h.length := by
    intro a ha
    rw [List.mem_toFinset] at ha
    obtain ⟨n, hn1⟩ := isSeg_live hc ha
    rw [Finset.mem_range]
    exact (List.getElem?_eq_some.mp hn1).1
  have h1 := Finset.card_le_card hsub
  rw [List.toFinset_card_of_nodup hn, Finset.card_range] at h1
  simpa [addrs] using h1

theorem chainOf_of_isSeg {h : List (Option (Node T))} {p : Option Nat} {c : List (Nat × T)}
    (hc : IsSeg h p c none) (fuel : Nat) (hf : c.length ≤ fuel) : chainOf h fuel p = some c := by
  induction c generalizing p fuel with
  | nil =>
    have : p = none := hc
    subst this
    cases fuel <;> rfl
  | cons x c ih =>
    obtain ⟨hp, nx, hx, hrest⟩ := hc
    subst hp
    cases fuel with
    | zero => simp at hf
    | succ f =>
      simp only [chainOf, hx]
      rw [ih hrest f (by simpa using hf)]
      rfl

theorem Shape.fresh {s : State T} {cs : Nat → List (Nat × T)} (hS : Shape s cs) {a : Nat}
    (ha : s.heap[a]? = some none) (l : Nat) : a ∉ addrs (cs l) := by
  intro hmem
  by_cases hl : l < s.lists.length
  · have hL : s.lists[l]? = some s.lists[l] := List.getElem?_eq_getElem hl
    obtain ⟨n, hn⟩ := isSeg_live (hS.chain l _ hL) hmem
    rw [ha] at hn
    simp at hn
  · rw [hS.out l (by omega)] at hmem
    simp [addrs] at hmem

theorem Shape.length_le {s : State T} {cs : Nat → List (Nat × T)} (hS : Shape s cs) (l : Nat) :
    (cs l).length ≤ s.heap.length := by
  by_cases hl : l < s.lists.length
  · have hL : s.lists[l]? = some s.lists[l] := List.getElem?_eq_getElem hl
    exact isSeg_length_le (hS.chain l _ hL) (hS.nodup l)
  · rw [hS.out l (by omega)]
    simp

theorem Shape.nodes_eq {s : State T} {cs : Nat → List (Nat × T)} (hS : Shape s cs) {l : Nat}
    (hl : l < s.lists.length) : nodes s l = some (cs l) := by
  have hL : s.lists[l]? = some s.lists[l] := List.getElem?_eq_getElem hl
  simp only [nodes, hL]
  exact chainOf_of_isSeg (hS.chain l _ hL) _ (by have := hS.length_le l; omega)

theorem Shape.toList_eq {s : State T} {cs : Nat → List (Nat × T)} (hS : Shape s cs) {l : Nat}
    (hl : l < s.lists.length) : toList s l = some (vals (cs l)) := by
  simp [toList, hS.nodes_eq hl, vals]

/-- Changing one list: the new chain is made of cells of the old chain and of
cells that were free, and the heap changed only at such cells. -/
theorem Shape.updateShape {s s1 : State T} {cs : Nat → List (Nat × T)} (hS : Shape s cs) (l : Nat)
    (c1 : List (Nat × T))
    (hlen : s1.heap.length = s.heap.length)
    (hlists : s1.lists.length = s.lists.length)
    (hl : l < s.lists.length)
    (hother : ∀ k L1, k ≠ l → s1.lists[k]? = some L1 →
      ∃ L, s.lists[k]? = some L ∧ L1.head_next = L.head_next)
    (hframe : ∀ a, s1.heap[a]? ≠ s.heap[a]? → a ∈ addrs (cs l) ∨ s.heap[a]? = some none)
    (hrep : ∀ L1, s1.lists[l]? = some L1 → IsSeg s1.heap L1.head_next c1 none)
    (hnodup : (addrs c1).Nodup)
    (hnew : ∀ a ∈ addrs c1, a ∈ addrs (cs l) ∨ s.heap[a]? = some none) :
    Shape s1 (Function.update cs l c1) := by
  refine ⟨by rw [hlen]; exact hS.cap, ?_, ?_, ?_, ?_⟩
  · intro k L1 hk
    by_cases hkl : k = l
    · subst hkl
      simpa using hrep L1 hk
    · obtain ⟨L, hL, hhead⟩ := hother k L1 hkl hk
      rw [Function.update_noteq hkl, hhead]
      apply isSeg_frame (hS.chain k L hL)
      intro a ha
      by_contra hne
      rcases hframe a hne with h1 | h1
      · exact hkl (hS.disj k l a ha h1)
      · exact hS.fresh h1 k ha
  · intro k
    by_cases hkl : k = l
    · subst hkl; simpa using hnodup
    · rw [Function.update_noteq hkl]; exact hS.nodup k
  · intro i j a hi hj
    by_cases hil : i = l <;> by_cases hjl : j = l
    · rw [hil, hjl]
    · subst hil
      rw [Function.update_same] at hi
      rw [Function.update_noteq hjl] at hj
      rcases hnew a hi with h1 | h1
      · exact hS.disj _ _ a h1 hj
      · exact absurd hj (hS.fresh h1 j)
    · subst hjl
      rw [Function.update_same] at hj
      rw [Function.update_noteq hil] at hi
      rcases hnew a hj with h1 | h1
      · exact hS.disj _ _ a hi h1
      · exact absurd hi (hS.fresh h1 i)
    · rw [Function.update_noteq hil] at hi
      rw [Function.update_noteq hjl] at hj
      exact hS.disj i j a hi hj
  · intro k hk
    have hkl : k ≠ l := by omega
    rw [Function.update_noteq hkl]
    exact hS.out k (by omega)

theorem lim_lt_mod {n : Nat} (h : n < PTRDIFF_LIM) : n + 1 < SIZE_MOD := by
  unfold PTRDIFF_LIM at h
  unfold SIZE_MOD
  omega

theorem size_inc {n : Nat} (h : n < PTRDIFF_LIM) : (n + 1) % SIZE_MOD = n + 1 :=
  Nat.mod_eq_of_lt (lim_lt_mod h)

theorem size_dec {n : Nat} (h : n < PTRDIFF_LIM) : (n + 1 + SIZE_MOD - 1) % SIZE_MOD = n := by
  have h1 : n + 1 + SIZE_MOD - 1 = n + SIZE_MOD := by omega
  rw [h1, Nat.add_mod_right]
  exact Nat.mod_eq_of_lt (by have := lim_lt_mod h; omega)

theorem Inv.length_lt {s : State T} {cs : Nat → List (Nat × T)} (hI : Inv s cs) (l : Nat) :
    (cs l).length < PTRDIFF_LIM :=
  lt_of_le_of_lt (hI.shape.length_le l) hI.shape.cap

/-- The single-list update lemma, with sizes. -/
theorem Inv.updateInv {s s1 : State T} {cs : Nat → List (Nat × T)} (hI : Inv s cs) (l : Nat)
    (c1 : List (Nat × T))
    (hlen : s1.heap.length = s.heap.length)
    (hlists : s1.lists.length = s.lists.length)
    (hl : l < s.lists.length)
    (hother : ∀ k, k ≠ l → s1.lists[k]? = s.lists[k]?)
    (hframe : ∀ a, s1.heap[a]? ≠ s.heap[a]? → a ∈ addrs (cs l) ∨ s.heap[a]? = some none)
    (hrep : ∀ L1, s1.lists[l]? = some L1 →
      IsSeg s1.heap L1.head_next c1 none ∧ L1.size_ = c1.length)
    (hnodup : (addrs c1).Nodup)
    (hnew : ∀ a ∈ addrs c1, a ∈ addrs (cs l) ∨ s.heap[a]? = some none) :
    Inv s1 (Function.update cs l c1) := by
  refine ⟨hI.shape.updateShape l c1 hlen hlists hl ?_ hframe (fun L1 h => (hrep L1 h).1) hnodup hnew, ?_⟩
  · intro k L1 hk h1
    rw [hother k hk] at h1
    exact ⟨L1, h1, rfl⟩
  · intro k L1 h1
    by_cases hkl : k = l
    · subst hkl
      simpa using (hrep L1 h1).2
    · rw [hother k hkl] at h1
      rw [Function.update_noteq hkl]
      exact hI.size k L1 h1

theorem PushFront_spec {s : State T} {cs : Nat → List (Nat × T)} (hI : Inv s cs) {l : Nat}
    (hl : l < s.lists.length) (v : T) {a : Nat} (ha : firstFree s.heap = some a) :
    ∃ s1, PushFront s l v = .ok s1 () ∧ Inv s1 (Function.update cs l ((a, v) :: cs l)) ∧
      s1.lists.length = s.lists.length ∧ s1.heap.length = s.heap.length := by
  have hL : s.lists[l]? = some s.lists[l] := List.getElem?_eq_getElem hl
  have hfree := firstFree_spec _ _ ha
  have halt := firstFree_lt _ _ ha
  have hnot := hI.shape.fresh hfree l
  refine ⟨⟨s.lists.set l ⟨some a, (s.lists[l].size_ + 1) % SIZE_MOD⟩,
      s.heap.set a (some ⟨v, s.lists[l].head_next⟩)⟩,
    by simp only [PushFront, hL, ha], ?_, by simp, by simp⟩
  apply hI.updateInv l _ (by simp) (by simp) hl
  · intro k hk
    simp [List.getElem?_set, Ne.symm hk]
  · intro b hb
    right
    by_cases hab : a = b
    · subst hab; exact hfree
    · exact absurd (by simp [List.getElem?_set, hab]) hb
  · intro L1 h1
    simp only [List.getElem?_set_self hl, Option.some.injEq] at h1
    subst h1
    refine ⟨⟨rfl, s.lists[l].head_next, by simp [List.getElem?_set_self halt], ?_⟩, ?_⟩
    · exact isSeg_set (hI.shape.chain l _ hL) hnot _
    · simp only [List.length_cons]
      rw [hI.size l _ hL]
      exact size_inc (hI.length_lt l)
  · simp only [addrs, List.map_cons, List.nodup_cons]
    exact ⟨hnot, hI.shape.nodup l⟩
  · intro b hb
    simp only [addrs, List.map_cons, List.mem_cons] at hb
    rcases hb with rfl | hb
    · exact Or.inr hfree
    · exact Or.inl hb

theorem PopFront_spec {s : State T} {cs : Nat → List (Nat × T)} (hI : Inv s cs) {l : Nat}
    (hl : l < s.lists.length) :
    ∃ s1, PopFront s l = .ok s1 () ∧ Inv s1 (Function.update cs l (cs l).tail) ∧
      s1.lists.length = s.lists.length ∧ s1.heap.length = s.heap.length := by
  have hL : s.lists[l]? = some s.lists[l] := List.getElem?_eq_getElem hl
  have hch := hI.shape.chain l _ hL
  have hsz := hI.size l _ hL
  have hnd := hI.shape.nodup l
  cases hc : cs l with
  | nil =>
    rw [hc] at hsz
    refine ⟨s, by simp [PopFront, hL, hsz], ?_, rfl, rfl⟩
    have : Function.update cs l ([] : List (Nat × T)).tail = cs := by
      rw [List.tail_nil, ← hc, Function.update_eq_self]
    rw [this]
    exact hI
  | cons x c =>
    rw [hc] at hsz hch hnd
    obtain ⟨hp, nx, hx, hrest⟩ := hch
    have hxlt : x.1 < s.heap.length := (List.getElem?_eq_some.mp hx).1
    have hxc : x.1 ∉ addrs c := (List.nodup_cons.mp hnd).1
    have hlt : c.length < PTRDIFF_LIM := by
      have := hI.length_lt l
      rw [hc] at this
      simp only [List.length_cons] at this
      omega
    refine ⟨⟨s.lists.set l ⟨nx, (s.lists[l].size_ + SIZE_MOD - 1) % SIZE_MOD⟩,
        s.heap.set x.1 none⟩,
      by simp [PopFront, hL, hsz, hp, hx], ?_, by simp, by simp⟩
    apply hI.updateInv l _ (by simp) (by simp) hl
    · intro k hk
      simp [List.getElem?_set, Ne.symm hk]
    · intro b hb
      left
      by_cases hab : x.1 = b
      · subst hab; rw [hc]; simp [addrs]
      · exact absurd (by simp [List.getElem?_set, hab]) hb
    · intro L1 h1
      simp only [List.getElem?_set_self hl, Option.some.injEq] at h1
      subst h1
      refine ⟨isSeg_set hrest hxc _, ?_⟩
      simp only [List.tail_cons, hsz, List.length_cons]
      exact size_dec hlt
    · simp only [List.tail_cons]
      exact (List.nodup_cons.mp hnd).2
    · intro b hb
      left
      rw [hc]
      simp only [List.tail_cons] at hb
      simp only [addrs, List.map_cons, List.mem_cons]
      exact Or.inr hb

theorem Clear_loop_spec {c : List (Nat × T)} :
    ∀ (fuel : Nat) (s : State T) (p : Option Nat), IsSeg s.heap p c none → (addrs c).Nodup →
      c.length ≤ fuel →
      ∃ h1, Clear.loop fuel s p = .ok ⟨s.lists, h1⟩ () ∧ h1.length = s.heap.length ∧
        (∀ a, a ∉ addrs c → h1[a]? = s.heap[a]?) ∧ (∀ a ∈ addrs c, h1[a]? = some none) := by
  induction c with
  | nil =>
    intro fuel s p hc _ _
    have : p = none := hc
    subst this
    refine ⟨s.heap, ?_, rfl, fun _ _ => rfl, ?_⟩
    · cases fuel <;> rfl
    · intro a ha; simp [addrs] at ha
  | cons x c ih =>
    intro fuel s p hc hnd hf
    obtain ⟨hp, nx, hx, hrest⟩ := hc
    subst hp
    have hxc : x.1 ∉ addrs c := (List.nodup_cons.mp hnd).1
    have hxlt : x.1 < s.heap.length := (List.getElem?_eq_some.mp hx).1
    cases fuel with
    | zero => simp at hf
    | succ f =>
      obtain ⟨h1, hrun, hlen, hout, hin⟩ :=
        ih f { s with heap := s.heap.set x.1 none } nx (isSeg_set hrest hxc _)
          (List.nodup_cons.mp hnd).2 (by simpa using hf)
      refine ⟨h1, ?_, by simpa using hlen, ?_, ?_⟩
      · simp only [Clear.loop, hx]
        exact hrun
      · intro a ha
        simp only [addrs, List.map_cons, List.mem_cons, not_or] at ha
        rw [hout a ha.2]
        simp [List.getElem?_set, Ne.symm ha.1]
      · intro a ha
        simp only [addrs, List.map_cons, List.mem_cons] at ha
        by_cases hax : a = x.1
        · subst hax
          rw [hout _ hxc]
          simp [List.getElem?_set_self hxlt]
        · rcases ha with ha | ha
          · exact absurd ha hax
          · exact hin a ha

theorem Clear_shape {s : State T} {cs : Nat → List (Nat × T)} (hS : Shape s cs) {l : Nat}
    (hl : l < s.lists.length) :
    ∃ h1, Clear s l = .ok ⟨s.lists.set l ⟨none, 0⟩, h1⟩ () ∧
      Shape ⟨s.lists.set l ⟨none, 0⟩, h1⟩ (Function.update cs l []) ∧
      h1.length = s.heap.length := by
  have hL : s.lists[l]? = some s.lists[l] := List.getElem?_eq_getElem hl
  obtain ⟨h1, hrun, hlen, hout, hin⟩ :=
    Clear_loop_spec (s.heap.length + 1) s _ (hS.chain l _ hL) (hS.nodup l)
      (by have := hS.length_le l; omega)
  refine ⟨h1, by simp only [Clear, hL, hrun], ?_, hlen⟩
  apply hS.updateShape l _ (by simpa using hlen) (by simp) hl
  · intro k L1 hk h2
    simp only [List.getElem?_set, Ne.symm hk, if_false] at h2
    exact ⟨L1, h2, rfl⟩
  · intro b hb
    left
    by_contra hnb
    exact hb (hout b hnb)
  · intro L1 h2
    simp only [List.getElem?_set_self hl, Option.some.injEq] at h2
    subst h2
    rfl
  · simp [addrs]
  · intro b hb; simp [addrs] at hb

theorem Clear_spec {s : State T} {cs : Nat → List (Nat × T)} (hI : Inv s cs) {l : Nat}
    (hl : l < s.lists.length) :
    ∃ s1, Clear s l = .ok s1 () ∧ Inv s1 (Function.update cs l []) ∧
      s1.lists = s.lists.set l ⟨none, 0⟩ ∧ s1.heap.length = s.heap.length := by
  obtain ⟨h1, hrun, hS1, hlen⟩ := Clear_shape hI.shape hl
  refine ⟨_, hrun, ⟨hS1, ?_⟩, rfl, hlen⟩
  intro k L1 h2
  by_cases hkl : k = l
  · subst hkl
    simp only [List.getElem?_set_self hl, Option.some.injEq] at h2
    subst h2
    simp
  · simp only [List.getElem?_set, Ne.symm hkl, if_false] at h2
    rw [Function.update_noteq hkl]
    exact hI.size k L1 h2

theorem splitAt_posAt (ch : List (Nat × T)) (l k : Nat) (hk : k ≤ ch.length) :
    ∃ r, (posAt ch l k).node_ = some r ∧ SplitAt l r (ch.take k) := by
  cases k with
  | zero => exact ⟨.head l, rfl, Or.inl ⟨rfl, by simp⟩⟩
  | succ i =>
    have hi : i < ch.length := hk
    refine ⟨.cell (ch[i]).1, ?_, Or.inr ⟨ch.take i, ch[i], ?_, rfl⟩⟩
    · simp [posAt, addrs, List.getElem?_eq_getElem hi]
    · rw [List.take_succ, List.getElem?_eq_getElem hi]
      rfl

theorem nextOf_split {lists : List ListObj} {h : List (Option (Node T))} {l : Nat} {L : ListObj}
    {r : NodeRef} {pre suf : List (Nat × T)} (hL : lists[l]? = some L)
    (hc : IsSeg h L.head_next (pre ++ suf) none) (hsp : SplitAt l r pre) :
    ∃ nx, State.nextOf ⟨lists, h⟩ r = some nx ∧ IsSeg h L.head_next pre nx ∧
      IsSeg h nx suf none := by
  rcases hsp with ⟨rfl, rfl⟩ | ⟨pre0, x, rfl, rfl⟩
  · exact ⟨L.head_next, by simp [State.nextOf, hL], rfl, hc⟩
  · obtain ⟨m, h1, h2⟩ := isSeg_append.mp hc
    obtain ⟨m0, h3, hm, nx, hx, h4⟩ := isSeg_append.mp h1
    have : nx = m := h4
    subst this
    exact ⟨nx, by simp [State.nextOf, hx], h1, h2⟩

theorem setNext_chain {lists : List ListObj} {g : List (Option (Node T))} {l : Nat}
    {L : ListObj} {r : NodeRef} {pre t : List (Nat × T)} {p q : Option Nat}
    (hL : lists[l]? = some L) (hpre : IsSeg g L.head_next pre q) (hsp : SplitAt l r pre)
    (hsuf : IsSeg g p t none) (hdisj : ∀ x ∈ pre, x.1 ∉ addrs t)
    (hnd : (addrs pre).Nodup) :
    ∃ s2, State.setNext ⟨lists, g⟩ r p = some s2 ∧ s2.heap.length = g.length ∧
      s2.lists.length = lists.length ∧ (∀ k, k ≠ l → s2.lists[k]? = lists[k]?) ∧
      (∃ L2, s2.lists[l]? = some L2 ∧ L2.size_ = L.size_ ∧
        IsSeg s2.heap L2.head_next (pre ++ t) none ∧ (r = .head l → L2.head_next = p)) ∧
      (∀ a, s2.heap[a]? ≠ g[a]? → a ∈ addrs pre) ∧
      (∀ b, r = .cell b → ∃ vb, s2.heap[b]? = some (some ⟨vb, p⟩)) := by
  have hl : l < lists.length := (List.getElem?_eq_some.mp hL).1
  rcases hsp with ⟨rfl, rfl⟩ | ⟨pre0, x, rfl, rfl⟩
  · refine ⟨⟨lists.set l { L with head_next := p }, g⟩, by simp [State.setNext, hL], rfl,
      by simp, ?_, ?_, by simp, by simp⟩
    · intro k hk
      simp [List.getElem?_set, Ne.symm hk]
    · exact ⟨{ L with head_next := p }, by simp [List.getElem?_set_self hl], rfl,
        by simpa using hsuf, fun _ => rfl⟩
  · obtain ⟨m0, h3, hm, nx, hx, h4⟩ := isSeg_append.mp hpre
    have hxlt : x.1 < g.length := (List.getElem?_eq_some.mp hx).1
    have hx0 : x.1 ∉ addrs pre0 := by
      have := hnd
      simp only [addrs, List.map_append, List.map_cons, List.map_nil] at this
      have h5 := (List.nodup_append.mp this).2.2
      intro hmem
      exact h5 hmem (by simp)
    have hxs : x.1 ∉ addrs t := hdisj x (by simp)
    refine ⟨⟨lists, g.set x.1 (some ⟨x.2, p⟩)⟩, by simp [State.setNext, hx], by simp,
      rfl, fun _ _ => rfl, ⟨L, hL, rfl, ?_, by simp⟩, ?_, ?_⟩
    · apply isSeg_append.mpr
      refine ⟨p, ?_, isSeg_set hsuf hxs _⟩
      apply isSeg_append.mpr
      exact ⟨m0, isSeg_set h3 hx0 _, hm, p, by simp [List.getElem?_set_self hxlt], rfl⟩
    · intro a ha
      by_cases hax : x.1 = a
      · subst hax; simp [addrs]
      · exact absurd (by simp [List.getElem?_set, hax]) ha
    · intro b hb
      cases hb
      exact ⟨x.2, by simp [List.getElem?_set_self hxlt]⟩

@[simp] theorem addrs_nil : addrs ([] : List (Nat × T)) = [] := rfl

@[simp] theorem addrs_cons (x : Nat × T) (c : List (Nat × T)) :
    addrs (x :: c) = x.1 :: addrs c := rfl

@[simp] theorem addrs_append (c1 c2 : List (Nat × T)) :
    addrs (c1 ++ c2) = addrs c1 ++ addrs c2 := by
  simp [addrs]

theorem InsertAfter_core {s : State T} {cs : Nat → List (Nat × T)} (hI : Inv s cs) {l : Nat}
    (hl : l < s.lists.length) {r : NodeRef} {pre suf : List (Nat × T)}
    (hc : cs l = pre ++ suf) (hsp : SplitAt l r pre) (v : T) {a : Nat}
    (ha : firstFree s.heap = some a) :
    ∃ s1 nx, InsertAfter s l ⟨some r⟩ v = .ok s1 ⟨some (.cell a)⟩ ∧
      Inv s1 (Function.update cs l (pre ++ (a, v) :: suf)) ∧
      s1.lists.length = s.lists.length ∧ s1.heap.length = s.heap.length ∧
      s.nextOf r = some nx ∧ s1.heap[a]? = some (some ⟨v, nx⟩) := by
  obtain ⟨lists, heap⟩ := s
  simp only at hl ha
  have hL : lists[l]? = some lists[l] := List.getElem?_eq_getElem hl
  have hch := hI.shape.chain l _ hL
  have hnd := hI.shape.nodup l
  have hfree := firstFree_spec _ _ ha
  have halt := firstFree_lt _ _ ha
  have hnot := hI.shape.fresh hfree l
  have hsz := hI.size l _ hL
  have hlt := hI.length_lt l
  rw [hc] at hch hnd hnot hsz hlt
  simp only [addrs_append, List.mem_append, not_or] at hnot
  simp only [addrs_append] at hnd
  obtain ⟨nx, hnext, hpre, hsuf⟩ := nextOf_split hL hch hsp
  have hdisj : ∀ x ∈ pre, x.1 ∉ addrs ((a, v) :: suf) := by
    intro x hx hmem
    have hx1 : x.1 ∈ addrs pre := List.mem_map_of_mem _ hx
    simp only [addrs_cons, List.mem_cons] at hmem
    rcases hmem with h1 | h1
    · exact hnot.1 (h1 ▸ hx1)
    · exact (List.nodup_append.mp hnd).2.2 hx1 h1
  obtain ⟨s2, hset, hlen2, hlists2, hother2, ⟨L2, hL2, hsz2, hch2, _⟩, hfr2, _⟩ :=
    setNext_chain (g := heap.set a (some ⟨v, nx⟩)) (p := some a) (t := (a, v) :: suf) hL
      (isSeg_set hpre hnot.1 _) hsp
      ⟨rfl, nx, by simp [List.getElem?_set_self halt], isSeg_set hsuf hnot.2 _⟩ hdisj
      (List.nodup_append.mp hnd).1
  have hl2 : l < s2.lists.length := by rw [hlists2]; exact hl
  have ha2 : s2.heap[a]? = some (some ⟨v, nx⟩) := by
    by_contra hne
    have h1 : (heap.set a (some ⟨v, nx⟩))[a]? = some (some ⟨v, nx⟩) := by
      simp [List.getElem?_set_self halt]
    rw [← h1] at hne
    exact hnot.1 (hfr2 a hne)
  refine ⟨⟨s2.lists.set l { L2 with size_ := (L2.size_ + 1) % SIZE_MOD }, s2.heap⟩, nx, ?_, ?_,
    by simp [hlists2], by simpa using hlen2, hnext, ha2⟩
  · simp only [InsertAfter, hL, ha, hnext, hset, hL2, State.setSize]
  · apply hI.updateInv l _ (by simpa using hlen2) (by simp [hlists2]) hl
    · intro k hk
      simp only [List.getElem?_set, Ne.symm hk, if_false]
      exact hother2 k hk
    · intro b hb
      by_cases hab : a = b
      · subst hab; exact Or.inr hfree
      · left
        rw [hc, addrs_append, List.mem_append]
        left
        apply hfr2
        simpa [List.getElem?_set, hab] using hb
    · intro L1 h1
      simp only [List.getElem?_set_self hl2, Option.some.injEq] at h1
      subst h1
      refine ⟨hch2, ?_⟩
      simp only [hsz2, hsz]
      rw [size_inc hlt]
      simp only [List.length_append, List.length_cons]
      omega
    · simp only [addrs_append, addrs_cons]
      exact List.nodup_middle.mpr (List.nodup_cons.mpr ⟨by simpa using hnot, hnd⟩)
    · intro b hb
      simp only [addrs_append, addrs_cons, List.mem_append, List.mem_cons] at hb
      rw [hc, addrs_append, List.mem_append]
      rcases hb with h1 | rfl | h1
      · exact Or.inl (Or.inl h1)
      · exact Or.inr hfree
      · exact Or.inl (Or.inr h1)

theorem EraseAfter_core {s : State T} {cs : Nat → List (Nat × T)} (hI : Inv s cs) {l : Nat}
    (hl : l < s.lists.length) {r : NodeRef} {pre suf : List (Nat × T)} {x : Nat × T}
    (hc : cs l = pre ++ x :: suf) (hsp : SplitAt l r pre) :
    ∃ s1 nx, EraseAfter s l ⟨some r⟩ = .ok s1 ⟨toRef nx⟩ ∧
      Inv s1 (Function.update cs l (pre ++ suf)) ∧
      s1.lists.length = s.lists.length ∧ s1.heap.length = s.heap.length ∧
      s.heap[x.1]? = some (some ⟨x.2, nx⟩) ∧ s.nextOf r = some (some x.1) := by
  obtain ⟨lists, heap⟩ := s
  simp only at hl
  have hL : lists[l]? = some lists[l] := List.getElem?_eq_getElem hl
  have hch := hI.shape.chain l _ hL
  have hnd := hI.shape.nodup l
  have hsz := hI.size l _ hL
  have hlt := hI.length_lt l
  rw [hc] at hch hnd hsz hlt
  simp only [addrs_append, addrs_cons] at hnd
  have hnd1 := List.nodup_middle.mp hnd
  obtain ⟨hxn, hnd2⟩ := List.nodup_cons.mp hnd1
  simp only [List.mem_append, not_or] at hxn
  obtain ⟨m, hnext, hpre, hm, nx, hx, hsuf⟩ := nextOf_split hL hch hsp
  subst hm
  have hxlt : x.1 < heap.length := (List.getElem?_eq_some.mp hx).1
  have hdisj : ∀ y ∈ pre, y.1 ∉ addrs suf := by
    intro y hy hmem
    exact (List.nodup_append.mp hnd2).2.2 (List.mem_map_of_mem _ hy) hmem
  obtain ⟨s2, hset, hlen2, hlists2, hother2, ⟨L2, hL2, hsz2, hch2, hhead2⟩, hfr2, hcell2⟩ :=
    setNext_chain (g := heap) (p := nx) (t := suf) hL hpre hsp hsuf hdisj
      (List.nodup_append.mp hnd2).1
  have hl2 : l < s2.lists.length := by rw [hlists2]; exact hl
  have hx2 : s2.heap[x.1]? = some (some ⟨x.2, nx⟩) := by
    by_contra hne
    rw [← hx] at hne
    exact hxn.1 (hfr2 _ hne)
  have hpos : 0 < L2.size_ := by rw [hsz2, hsz]; simp
  have hback : State.nextOf ⟨s2.lists.set l { L2 with size_ := (L2.size_ + SIZE_MOD - 1) % SIZE_MOD },
      s2.heap.set x.1 none⟩ r = some nx := by
    cases r with
    | head k =>
      rcases hsp with ⟨hk, _⟩ | ⟨_, _, _, hk⟩
      · cases hk
        simp [State.nextOf, List.getElem?_set_self hl2, hhead2 rfl]
      · cases hk
    | cell b =>
      obtain ⟨vb, hb⟩ := hcell2 b rfl
      have hbx : x.1 ≠ b := by
        intro hxb
        rcases hsp with ⟨hk, _⟩ | ⟨pre0, y, hy, hk⟩
        · cases hk
        · have hyb : b = y.1 := by injection hk
          apply hxn.1
          rw [hy, hxb, hyb]
          simp
      simp [State.nextOf, List.getElem?_set, hbx, hb]
  refine ⟨⟨s2.lists.set l { L2 with size_ := (L2.size_ + SIZE_MOD - 1) % SIZE_MOD },
    s2.heap.set x.1 none⟩, nx, ?_, ?_, by simp [hlists2], by simpa using hlen2, hx, hnext⟩
  · simp only [EraseAfter, hL, hnext, hx, hset, hx2, hL2, hpos, if_true, State.setSize, hback]
  · apply hI.updateInv l _ (by simpa using hlen2) (by simp [hlists2]) hl
    · intro k hk
      simp only [List.getElem?_set, Ne.symm hk, if_false]
      exact hother2 k hk
    · intro b hb
      left
      rw [hc, addrs_append, addrs_cons, List.mem_append, List.mem_cons]
      by_cases hab : x.1 = b
      · exact Or.inr (Or.inl hab.symm)
      · left
        apply hfr2
        simpa [List.getElem?_set, hab] using hb
    · intro L1 h1
      simp only [List.getElem?_set_self hl2, Option.some.injEq] at h1
      subst h1
      refine ⟨isSeg_set hch2 (by simpa using hxn) _, ?_⟩
      simp only [hsz2, hsz, List.length_append, List.length_cons]
      have h3 : pre.length + (suf.length + 1) + SIZE_MOD - 1 =
          pre.length + suf.length + 1 + SIZE_MOD - 1 := by omega
      rw [h3]
      apply size_dec
      simp only [List.length_append, List.length_cons] at hlt
      omega
    · simpa using hnd2
    · intro b hb
      simp only [addrs_append, List.mem_append] at hb
      rw [hc, addrs_append, addrs_cons, List.mem_append, List.mem_cons]
      rcases hb with h1 | h1
      · exact Or.inl (Or.inl h1)
      · exact Or.inl (Or.inr (Or.inr h1))

theorem Shape.of_heads {s s1 : State T} {cs : Nat → List (Nat × T)} (hS : Shape s cs)
    (hheap : s1.heap = s.heap) (hlists : s1.lists.length = s.lists.length)
    (hhead : ∀ (k : Nat) (L1 : ListObj), s1.lists[k]? = some L1 →
      ∃ L, s.lists[k]? = some L ∧ L1.head_next = L.head_next) : Shape s1 cs := by
  refine ⟨by rw [hheap]; exact hS.cap, ?_, hS.nodup, hS.disj, by rw [hlists]; exact hS.out⟩
  intro k L1 h1
  obtain ⟨L, hL, hh⟩ := hhead k L1 h1
  rw [hheap, hh]
  exact hS.chain k L hL

theorem ctor_inv {s : State T} {cs : Nat → List (Nat × T)} (hI : Inv s cs) :
    Inv (ctor s) cs := by
  have hout := hI.shape.out s.lists.length (le_refl _)
  refine ⟨⟨hI.shape.cap, ?_, hI.shape.nodup, hI.shape.disj, ?_⟩, ?_⟩
  · intro k L1 h1
    simp only [ctor, List.getElem?_append] at h1
    split at h1
    · exact hI.shape.chain k L1 h1
    · next hk =>
      have hk1 : k = s.lists.length := by
        by_contra hne
        have h2 : ([({ head_next := none, size_ := 0 } : ListObj)])[k - s.lists.length]? = none :=
          List.getElem?_eq_none (by simp; omega)
        rw [h2] at h1
        cases h1
      subst hk1
      simp only [Nat.sub_self, List.getElem?_cons_zero, Option.some.injEq] at h1
      subst h1
      rw [hout]
      rfl
  · intro k hk
    simp only [ctor, List.length_append, List.length_singleton] at hk
    exact hI.shape.out k (by omega)
  · intro k L1 h1
    simp only [ctor, List.getElem?_append] at h1
    split at h1
    · exact hI.size k L1 h1
    · next hk =>
      have hk1 : k = s.lists.length := by
        by_contra hne
        have h2 : ([({ head_next := none, size_ := 0 } : ListObj)])[k - s.lists.length]? = none :=
          List.getElem?_eq_none (by simp; omega)
        rw [h2] at h1
        cases h1
      subst hk1
      simp only [Nat.sub_self, List.getElem?_cons_zero, Option.some.injEq] at h1
      subst h1
      rw [hout]
      rfl

theorem pop_inv {s : State T} {cs : Nat → List (Nat × T)} (hI : Inv s cs)
    (hlast : cs (s.lists.length - 1) = []) : Inv (pop s) cs := by
  have hget : ∀ (k : Nat) (L1 : ListObj), (pop s).lists[k]? = some L1 →
      s.lists[k]? = some L1 := by
    intro k L1 h1
    simp only [pop, List.getElem?_dropLast] at h1
    split at h1
    · exact h1
    · simp at h1
  refine ⟨⟨hI.shape.cap, fun k L1 h1 => hI.shape.chain k L1 (hget k L1 h1), hI.shape.nodup,
    hI.shape.disj, ?_⟩, fun k L1 h1 => hI.size k L1 (hget k L1 h1)⟩
  intro k hk
  simp only [pop, List.length_dropLast] at hk
  by_cases hk1 : k = s.lists.length - 1
  · rw [hk1]; exact hlast
  · exact hI.shape.out k (by omega)

theorem dropLast_set_last {α : Type} (xs : List α) (x : α) :
    (xs.set (xs.length - 1) x).dropLast = xs.dropLast := by
  apply List.ext_getElem?
  intro k
  simp only [List.getElem?_dropLast, List.length_set, List.getElem?_set]
  split
  · next hk =>
    have : xs.length - 1 ≠ k := by omega
    simp [this]
  · rfl

theorem destroy_spec {s : State T} {cs : Nat → List (Nat × T)} (hS : Shape s cs)
    (hpos : 0 < s.lists.length) :
    ∃ h1, destroy s = .ok ⟨s.lists.dropLast, h1⟩ () ∧
      Shape ⟨s.lists.dropLast, h1⟩ (Function.update cs (s.lists.length - 1) []) ∧
      h1.length = s.heap.length := by
  obtain ⟨h1, hrun, hS1, hlen⟩ := Clear_shape hS (l := s.lists.length - 1) (by omega)
  refine ⟨h1, ?_, ?_, hlen⟩
  · simp only [destroy, hrun, pop, dropLast_set_last]
  · have hget : ∀ (k : Nat) (L1 : ListObj), s.lists.dropLast[k]? = some L1 →
        (s.lists.set (s.lists.length - 1) ⟨none, 0⟩)[k]? = some L1 := by
      intro k L1 h2
      simp only [List.getElem?_dropLast] at h2
      split at h2
      · next hk =>
        have : s.lists.length - 1 ≠ k := by omega
        simpa [List.getElem?_set, this] using h2
      · simp at h2
    refine ⟨hS1.cap, fun k L1 h2 => hS1.chain k L1 (hget k L1 h2), hS1.nodup, hS1.disj, ?_⟩
    intro k hk
    simp only [List.length_dropLast] at hk
    by_cases hk1 : k = s.lists.length - 1
    · rw [hk1]; simp
    · rw [Function.update_noteq hk1]
      exact hS.out k (by omega)

theorem swap_spec {s : State T} {cs : Nat → List (Nat × T)} (hI : Inv s cs) {l o : Nat}
    (hl : l < s.lists.length) (ho : o < s.lists.length) :
    swap s l o = .ok ⟨(s.lists.set l s.lists[o]).set o s.lists[l], s.heap⟩ () ∧
      Inv ⟨(s.lists.set l s.lists[o]).set o s.lists[l], s.heap⟩ (cs ∘ Equiv.swap l o) := by
  have hL : s.lists[l]? = some s.lists[l] := List.getElem?_eq_getElem hl
  have hO : s.lists[o]? = some s.lists[o] := List.getElem?_eq_getElem ho
  refine ⟨by simp only [swap, hL, hO], ?_⟩
  have hget : ∀ (k : Nat) (L1 : ListObj),
      ((s.lists.set l s.lists[o]).set o s.lists[l])[k]? = some L1 →
      s.lists[Equiv.swap l o k]? = some L1 := by
    intro k L1 h1
    by_cases hko : k = o
    · subst hko
      rw [List.getElem?_set_self (by simpa using ho)] at h1
      rw [Equiv.swap_apply_right, hL]
      exact h1
    · rw [List.getElem?_set_ne (Ne.symm hko)] at h1
      by_cases hkl : k = l
      · subst hkl
        rw [List.getElem?_set_self hl] at h1
        rw [Equiv.swap_apply_left, hO]
        exact h1
      · rw [List.getElem?_set_ne (Ne.symm hkl)] at h1
        rw [Equiv.swap_apply_of_ne_of_ne hkl hko]
        exact h1
  refine ⟨⟨hI.shape.cap, fun k L1 h1 => hI.shape.chain _ L1 (hget k L1 h1),
    fun k => hI.shape.nodup _, ?_, ?_⟩, fun k L1 h1 => hI.size _ L1 (hget k L1 h1)⟩
  · intro i j a hi hj
    exact (Equiv.swap l o).injective (hI.shape.disj _ _ a hi hj)
  · intro k hk
    simp only [List.length_set] at hk
    have hkl : k ≠ l := by omega
    have hko : k ≠ o := by omega
    simp only [Function.comp, Equiv.swap_apply_of_ne_of_ne hkl hko]
    exact hI.shape.out k hk

theorem countFree_alloc (h : List (Option (Node T))) (a : Nat) (n : Node T)
    (ha : h[a]? = some none) : countFree (h.set a (some n)) + 1 = countFree h := by
  induction h generalizing a with
  | nil => simp at ha
  | cons x h ih =>
    cases a with
    | zero =>
      simp only [List.getElem?_cons_zero, Option.some.injEq] at ha
      subst ha
      simp [countFree]
    | succ a =>
      simp only [List.getElem?_cons_succ] at ha
      cases x with
      | none => simp only [List.set_cons_succ, countFree]; rw [← ih a ha]
      | some y => simp only [List.set_cons_succ, countFree]; exact ih a ha

theorem countFree_write (h : List (Option (Node T))) (a : Nat) (n m : Node T)
    (ha : h[a]? = some (some m)) : countFree (h.set a (some n)) = countFree h := by
  induction h generalizing a with
  | nil => simp at ha
  | cons x h ih =>
    cases a with
    | zero =>
      simp only [List.getElem?_cons_zero, Option.some.injEq] at ha
      subst ha
      simp [countFree]
    | succ a =>
      simp only [List.getElem?_cons_succ] at ha
      cases x with
      | none => simp only [List.set_cons_succ, countFree]; rw [ih a ha]
      | some y => simp only [List.set_cons_succ, countFree]; exact ih a ha

theorem countFree_full (h : List (Option (Node T))) (hf : firstFree h = none) :
    countFree h = 0 := by
  induction h with
  | nil => rfl
  | cons x h ih =>
    cases x with
    | none => simp [firstFree] at hf
    | some y =>
      simp only [firstFree, Option.map_eq_none'] at hf
      simpa [countFree] using ih hf

theorem countFree_le (h : List (Option (Node T))) : countFree h ≤ h.length := by
  induction h with
  | nil => simp [countFree]
  | cons x h ih =>
    cases x with
    | none => simp only [countFree, List.length_cons]; omega
    | some y => simp only [countFree, List.length_cons]; omega

theorem countFree_setNext {s s2 : State T} {r : NodeRef} {p : Option Nat}
    (h : s.setNext r p = some s2) : countFree s2.heap = countFree s.heap := by
  cases r with
  | head l =>
    simp only [State.setNext] at h
    split at h
    · cases h; rfl
    · cases h
  | cell a =>
    simp only [State.setNext] at h
    split at h
    · next n hn => cases h; exact countFree_write _ _ _ _ hn
    · cases h

/-- The loop of `Copy`, started with the chain of `tmp` built so far: it
appends one node per value, in order, or stops with bad_alloc when the free
cells run out. -/
theorem Copy_loop_spec {It : Type} {io : InputIt T It} {last : It} {F : List Nat}
    {D : List (Option (Node T)) → It → List T → Prop} (hR : Reads io last F D) (tmp : Nat) :
    ∀ (vs : List T) (fuel : Nat) (s : State T) (cs : Nat → List (Nat × T)) (current : NodeRef)
      (first : It), Shape s cs → s.lists.length = tmp + 1 → SplitAt tmp current (cs tmp) →
      D s.heap first vs → (∀ a ∈ F, ∃ k, k ≠ tmp ∧ a ∈ addrs (cs k)) →
      countFree s.heap < fuel →
      ∃ s1 b, ((vs.length ≤ countFree s.heap ∧
            Copy.loop io fuel s current first last = .ok s1 () ∧ vals b = vs) ∨
          (countFree s.heap < vs.length ∧
            Copy.loop io fuel s current first last = .bad_alloc s1)) ∧
        Shape s1 (Function.update cs tmp (cs tmp ++ b)) ∧
        s1.heap.length = s.heap.length ∧ s1.lists.length = s.lists.length ∧
        (∀ k, k ≠ tmp → s1.lists[k]? = s.lists[k]?) ∧
        (∀ L1, s1.lists[tmp]? = some L1 → ∃ L, s.lists[tmp]? = some L ∧ L1.size_ = L.size_) := by
  intro vs
  induction vs with
  | nil =>
    intro fuel s cs current first hS hlen hsp hD hF hfuel
    have hne := hR.done _ _ hD
    refine ⟨s, [], Or.inl ⟨by simp, ?_, rfl⟩, ?_, rfl, rfl, fun _ _ => rfl,
      fun L1 h1 => ⟨L1, h1, rfl⟩⟩
    · cases fuel <;> simp [Copy.loop, hne]
    · simpa using hS
  | cons v vs ih =>
    intro fuel s cs current first hS hlen hsp hD hF hfuel
    obtain ⟨lists, heap⟩ := s
    simp only at hlen hD hfuel
    obtain ⟨hne, hrd⟩ := hR.more _ _ _ _ hD
    cases fuel with
    | zero => omega
    | succ f =>
      cases ha : firstFree heap with
      | none =>
        have h0 := countFree_full heap ha
        refine ⟨⟨lists, heap⟩, [], Or.inr ⟨by rw [h0]; simp, ?_⟩, by simpa using hS, rfl, rfl,
          fun _ _ => rfl, fun L1 h1 => ⟨L1, h1, rfl⟩⟩
        simp [Copy.loop, hne, ha]
      | some a =>
        have hfree := firstFree_spec _ _ ha
        have halt := firstFree_lt _ _ ha
        have htl : tmp < lists.length := by omega
        have hL : lists[tmp]? = some lists[tmp] := List.getElem?_eq_getElem htl
        have hnot := hS.fresh hfree tmp
        have hch := hS.chain tmp _ hL
        obtain ⟨s2, hset, hlen2, hlists2, hother2, ⟨L2, hL2, hsz2, hch2, _⟩, hfr2, _⟩ :=
          setNext_chain (g := heap.set a (some ⟨v, none⟩)) (p := some a) (t := [(a, v)])
            hL (isSeg_set hch hnot _) hsp
            ⟨rfl, none, by simp [List.getElem?_set_self halt], rfl⟩
            (by
              intro x hx hmem
              simp only [addrs_cons, addrs_nil, List.mem_singleton] at hmem
              exact hnot (hmem ▸ List.mem_map_of_mem _ hx))
            (hS.nodup tmp)
        have hframe : ∀ b, s2.heap[b]? ≠ heap[b]? → b ∈ addrs (cs tmp) ∨ heap[b]? = some none := by
          intro b hb
          by_cases hab : a = b
          · subst hab; exact Or.inr hfree
          · left
            apply hfr2
            simpa [List.getElem?_set, hab] using hb
        have hS2 : Shape s2 (Function.update cs tmp (cs tmp ++ [(a, v)])) := by
          apply hS.updateShape tmp _ (by simpa using hlen2) hlists2 htl
          · intro k L1 hk h1
            rw [hother2 k hk] at h1
            exact ⟨L1, h1, rfl⟩
          · exact hframe
          · intro L1 h1
            rw [hL2] at h1
            cases h1
            exact hch2
          · simp only [addrs_append, addrs_cons, addrs_nil]
            rw [List.nodup_append]
            refine ⟨hS.nodup tmp, by simp, ?_⟩
            intro b hb hb1
            simp only [List.mem_singleton] at hb1
            exact hnot (hb1 ▸ hb)
          · intro b hb
            simp only [addrs_append, addrs_cons, addrs_nil, List.mem_append,
              List.mem_singleton] at hb
            rcases hb with h1 | rfl
            · exact Or.inl h1
            · exact Or.inr hfree
        have hFsame : ∀ b ∈ F, s2.heap[b]? = heap[b]? := by
          intro b hb
          by_contra hne2
          obtain ⟨k, hk, hbk⟩ := hF b hb
          rcases hframe b hne2 with h1 | h1
          · exact hk (hS.disj k tmp b hbk h1)
          · exact hS.fresh h1 k hbk
        have hD2 := hR.frame _ _ _ _ hD hFsame
        obtain ⟨it1, hinc, hD3⟩ := ((hR.more _ _ _ _ hD2).2 s2.lists).2
        have hcf : countFree s2.heap + 1 = countFree heap := by
          rw [countFree_setNext hset]
          exact countFree_alloc _ _ _ hfree
        obtain ⟨s1, b, hres, hS1, hlen1, hlists1, hother1, hsz1⟩ :=
          ih f s2 (Function.update cs tmp (cs tmp ++ [(a, v)])) (.cell a) it1 hS2
            (by rw [hlists2]; exact hlen) (Or.inr ⟨cs tmp, (a, v), by simp, rfl⟩) hD3
            (by
              intro b hb
              obtain ⟨k, hk, hbk⟩ := hF b hb
              exact ⟨k, hk, by rw [Function.update_noteq hk]; exact hbk⟩)
            (by omega)
        have hrun : Copy.loop io (f + 1) ⟨lists, heap⟩ current first last =
            Copy.loop io f s2 (.cell a) it1 last := by
          have h1 := (hrd lists).1
          have h2 : io.inc ⟨s2.lists, s2.heap⟩ first = some it1 := hinc
          simp only [Copy.loop, hne, if_true, ha, h1, hset, hinc]
        refine ⟨s1, (a, v) :: b, ?_, ?_, by rw [hlen1]; simpa using hlen2,
          by rw [hlists1, hlists2], ?_, ?_⟩
        · rcases hres with ⟨h1, h2, h3⟩ | ⟨h1, h2⟩
          · left
            refine ⟨by simp only [List.length_cons]; omega, by rw [hrun]; exact h2, ?_⟩
            simp [vals] at h3 ⊢
            exact h3
          · right
            exact ⟨by simp only [List.length_cons]; omega, by rw [hrun]; exact h2⟩
        · have : Function.update (Function.update cs tmp (cs tmp ++ [(a, v)])) tmp
              (Function.update cs tmp (cs tmp ++ [(a, v)]) tmp ++ b) =
              Function.update cs tmp (cs tmp ++ (a, v) :: b) := by
            rw [Function.update_same, Function.update_idem]
            simp
          rw [← this]
          exact hS1
        · intro k hk
          rw [hother1 k hk, hother2 k hk]
        · intro L1 h1
          obtain ⟨L, hL1, hsz⟩ := hsz1 L1 h1
          rw [hL2] at hL1
          cases hL1
          exact ⟨lists[tmp], hL, by rw [hsz, hsz2]⟩

theorem reads_ptrIt : Reads (ptrIt : InputIt T (List T)) [] [] ptrReads := by
  refine ⟨?_, ?_, ?_⟩
  · intro h it hD
    cases hD
    rfl
  · intro h it v vs hD
    cases hD
    exact ⟨by simp [ptrIt], fun ls => ⟨rfl, vs, rfl, rfl⟩⟩
  · intro h h1 it vs hD _
    exact hD

theorem reads_constIt (F : List Nat) :
    Reads (constIt : InputIt T BasicIterator) end_ F (iterReads F) := by
  refine ⟨?_, ?_, ?_⟩
  · rintro h it ⟨p, ch, hit, hch, hv, _⟩
    cases ch with
    | nil =>
      have : p = none := hch
      subst this
      simp [constIt, hit, toRef, end_]
    | cons x ch => simp [vals] at hv
  · rintro h it v vs ⟨p, ch, hit, hch, hv, hF⟩
    cases ch with
    | nil => simp [vals] at hv
    | cons x ch =>
      obtain ⟨hp, nx, hx, hrest⟩ := hch
      subst hp
      simp only [vals, List.map_cons, List.cons.injEq] at hv
      obtain ⟨hv1, hv2⟩ := hv
      refine ⟨by simp [constIt, hit, toRef, end_], fun ls => ⟨?_, ⟨toRef nx⟩, ?_, nx, ch, rfl,
        hrest, hv2, fun a ha => hF a (by simp [ha])⟩⟩
      · simp [constIt, deref, hit, toRef, hx, hv1]
      · simp [constIt, incr, hit, toRef, State.nextOf, hx]
  · rintro h h1 it vs ⟨p, ch, hit, hch, hv, hF⟩ hsame
    exact ⟨p, ch, hit, isSeg_frame hch (fun a ha => hsame a (hF a ha)), hv, hF⟩

theorem distance_spec {m : List ListObj} {h : List (Option (Node T))} {ch : List (Nat × T)} :
    ∀ (fuel : Nat) (p : Option Nat), IsSeg h p ch none → ch.length ≤ fuel →
      distance ⟨m, h⟩ fuel ⟨toRef p⟩ end_ = .ok ch.length := by
  induction ch with
  | nil =>
    intro fuel p hc _
    have : p = none := hc
    subst this
    cases fuel <;> simp [distance, toRef, end_]
  | cons x ch ih =>
    intro fuel p hc hf
    obtain ⟨hp, nx, hx, hrest⟩ := hc
    subst hp
    cases fuel with
    | zero => simp at hf
    | succ f =>
      have h1 := ih f nx hrest (by simpa using hf)
      simp only [distance, toRef, end_, Option.map_some', ne_eq, not_false_eq_true,
        if_true, incr, State.nextOf, hx, reduceCtorEq]
      simp only [toRef, end_] at h1
      rw [h1]
      rfl

theorem update_swap_clear (cs : Nat → List (Nat × T)) {this tmp : Nat} (b : List (Nat × T))
    (hne : this ≠ tmp) (htmp : cs tmp = []) :
    Function.update (Function.update cs tmp b ∘ Equiv.swap this tmp) tmp [] =
      Function.update cs this b := by
  funext k
  by_cases hk : k = tmp
  · subst hk
    rw [Function.update_same, Function.update_noteq (Ne.symm hne), htmp]
  · rw [Function.update_noteq hk]
    by_cases hk2 : k = this
    · subst hk2
      show Function.update cs tmp b ((Equiv.swap k tmp) k) = Function.update cs k b k
      rw [Equiv.swap_apply_left, Function.update_same, Function.update_same]
    · show Function.update cs tmp b ((Equiv.swap this tmp) k) = Function.update cs this b k
      rw [Equiv.swap_apply_of_ne_of_ne hk2 hk, Function.update_noteq hk,
        Function.update_noteq hk2]

theorem destroy_inv {s : State T} {cs : Nat → List (Nat × T)} (hI : Inv s cs)
    (hpos : 0 < s.lists.length) :
    ∃ h1, destroy s = .ok ⟨s.lists.dropLast, h1⟩ () ∧
      Inv ⟨s.lists.dropLast, h1⟩ (Function.update cs (s.lists.length - 1) []) ∧
      h1.length = s.heap.length := by
  obtain ⟨h1, hrun, hS1, hlen⟩ := destroy_spec hI.shape hpos
  refine ⟨h1, hrun, ⟨hS1, ?_⟩, hlen⟩
  intro k L1 h2
  simp only [List.getElem?_dropLast] at h2
  split at h2
  · next hk =>
    have : k ≠ s.lists.length - 1 := by omega
    rw [Function.update_noteq this]
    exact hI.size k L1 h2
  · simp at h2

theorem lists_of_pop {xs ys : List ListObj} {x : ListObj} (hlen : ys.length = xs.length + 1)
    (hsame : ∀ k, k ≠ xs.length → ys[k]? = (xs ++ [x])[k]?) : ys.dropLast = xs := by
  apply List.ext_getElem?
  intro k
  simp only [List.getElem?_dropLast, hlen, Nat.add_sub_cancel]
  split
  · next hk =>
    rw [hsame k (by omega), List.getElem?_append_left hk]
  · next hk =>
    exact (List.getElem?_eq_none (by omega)).symm

/-- Specification of `Copy`: with enough free cells the list `this` becomes a fresh chain holding
the values of the range, in order, with `size_` their number, and its old
nodes are freed; otherwise bad_alloc leaves every list as it was. -/
theorem Copy_spec {It : Type} {io : InputIt T It} {last : It} {F : List Nat}
    {D : List (Option (Node T)) → It → List T → Prop} (hR : Reads io last F D)
    {s : State T} {cs : Nat → List (Nat × T)} (hI : Inv s cs) {this : Nat}
    (hthis : this < s.lists.length) {first : It} {vs : List T} (hD : D s.heap first vs)
    (hF : ∀ a ∈ F, ∃ k, k < s.lists.length ∧ a ∈ addrs (cs k)) :
    (vs.length ≤ countFree s.heap → ∃ s1 b, Copy io s this first last = .ok s1 () ∧
        vals b = vs ∧ Inv s1 (Function.update cs this b) ∧
        s1.lists.length = s.lists.length ∧ s1.heap.length = s.heap.length) ∧
    (countFree s.heap < vs.length → ∃ s1, Copy io s this first last = .bad_alloc s1 ∧
        Inv s1 cs ∧ s1.lists = s.lists ∧ s1.heap.length = s.heap.length) := by
  have hI0 := ctor_inv hI
  have htmp : cs s.lists.length = [] := hI.shape.out _ (le_refl _)
  obtain ⟨s1, b, hres, hS1, hlen1, hlists1, hother1, hsz1⟩ :=
    Copy_loop_spec hR s.lists.length vs ((ctor s).heap.length + 1) (ctor s) cs
      (.head s.lists.length) first hI0.shape (by simp [ctor]) (Or.inl ⟨rfl, htmp⟩) hD
      (fun a ha => by
        obtain ⟨k, hk, hak⟩ := hF a ha
        exact ⟨k, by omega, hak⟩)
      (by have := countFree_le (ctor s).heap; omega)
  rw [htmp, List.nil_append] at hS1
  obtain ⟨lists1, heap1⟩ := s1
  have hlen1a : heap1.length = s.heap.length := hlen1
  have hlists1a : lists1.length = s.lists.length + 1 := by
    simpa [ctor] using hlists1
  constructor
  · intro hle
    rcases hres with ⟨_, hrun, hv⟩ | ⟨hlt, _⟩
    · have htl : s.lists.length < lists1.length := by omega
      have hL1 : lists1[s.lists.length]? = some lists1[s.lists.length] :=
        List.getElem?_eq_getElem htl
      have hch1 := hS1.chain _ _ hL1
      rw [Function.update_same] at hch1
      have hbl : b.length ≤ heap1.length := by
        have := hS1.length_le s.lists.length
        rwa [Function.update_same] at this
      have hdist := distance_spec (m := lists1) (heap1.length + 1) _ hch1 (by omega)
      have hblt : b.length < PTRDIFF_LIM := by
        have := hI.shape.cap
        omega
      have hmod : b.length % SIZE_MOD = b.length :=
        Nat.mod_eq_of_lt (by have := lim_lt_mod hblt; omega)
      have hI2 : Inv ⟨lists1.set s.lists.length
          { lists1[s.lists.length] with size_ := b.length }, heap1⟩
          (Function.update cs s.lists.length b) := by
        refine ⟨hS1.of_heads rfl (by simp) ?_, ?_⟩
        · intro k L2 h2
          by_cases hk : k = s.lists.length
          · subst hk
            simp only [List.getElem?_set_self htl, Option.some.injEq] at h2
            subst h2
            exact ⟨_, hL1, rfl⟩
          · simp only [List.getElem?_set, Ne.symm hk, if_false] at h2
            exact ⟨L2, h2, rfl⟩
        · intro k L2 h2
          by_cases hk : k = s.lists.length
          · subst hk
            simp only [List.getElem?_set_self htl, Option.some.injEq] at h2
            subst h2
            simp
          · simp only [List.getElem?_set, Ne.symm hk, if_false] at h2
            rw [Function.update_noteq hk]
            have h3 := hother1 k hk
            simp only at h3
            rw [h3] at h2
            exact hI0.size k L2 h2
      obtain ⟨hswap, hI3⟩ := swap_spec hI2 (l := this) (o := s.lists.length)
        (by simp; omega) (by simp; omega)
      obtain ⟨h4, hdes, hI4, hlen4⟩ := destroy_inv hI3 (by simp; omega)
      simp only [List.length_set, hlists1a, Nat.add_sub_cancel] at hI4
      rw [update_swap_clear cs b (by omega) htmp] at hI4
      refine ⟨_, b, ?_, hv, hI4, ?_, ?_⟩
      · simp only [Copy]
        rw [hrun]
        simp only [begin, hL1, Option.map_some', hdist, hblt, if_true, State.setSize, hmod,
          hswap, hdes]
      · simp [hlists1a]
      · rw [hlen4]; exact hlen1a
    · simp only [ctor] at hlt
      omega
  · intro hlt
    rcases hres with ⟨hle, _, _⟩ | ⟨_, hrun⟩
    · simp only [ctor] at hle
      omega
    · obtain ⟨h2, hdes, hS2, hlen2⟩ := destroy_spec hS1 (by simp only; omega)
      have hlists : lists1.dropLast = s.lists :=
        lists_of_pop hlists1a (fun k hk => by simpa [ctor] using hother1 k hk)
      simp only [hlists1a, Nat.add_sub_cancel, Function.update_idem] at hS2
      rw [← htmp, Function.update_eq_self] at hS2
      simp only [hlists] at hS2 hdes
      refine ⟨⟨s.lists, h2⟩, ?_, ⟨hS2, fun k L h => hI.size k L h⟩, rfl, ?_⟩
      · simp only [Copy]
        rw [hrun]
        simp only [hdes]
      · simp only; rw [hlen2]; exact hlen1a

theorem ctor_init_spec {s : State T} {cs : Nat → List (Nat × T)} (hI : Inv s cs)
    (values : List T) :
    (values.length ≤ countFree s.heap → ∃ s1 b, ctor_init s values = .ok s1 () ∧
        vals b = values ∧ Inv s1 (Function.update cs s.lists.length b) ∧
        s1.lists.length = s.lists.length + 1 ∧ s1.heap.length = s.heap.length) ∧
    (countFree s.heap < values.length → ∃ s1, ctor_init s values = .bad_alloc s1 ∧
        Inv s1 cs ∧ s1.lists = s.lists ∧ s1.heap.length = s.heap.length) := by
  have hI0 := ctor_inv hI
  have hthis : s.lists.length < (ctor s).lists.length := by simp [ctor]
  have hout : cs s.lists.length = [] := hI.shape.out _ (le_refl _)
  obtain ⟨hok, hbad⟩ := Copy_spec reads_ptrIt hI0 hthis (show ptrReads (ctor s).heap values values from rfl)
    (fun a ha => by simp at ha)
  constructor
  · intro hle
    obtain ⟨s1, b, hrun, hv, hI1, hl1, hh1⟩ := hok hle
    refine ⟨s1, b, ?_, hv, hI1, by simpa [ctor] using hl1, hh1⟩
    simp only [ctor_init, hrun]
  · intro hlt
    obtain ⟨s1, hrun, hI1, hl1, hh1⟩ := hbad hlt
    have hpop : (pop s1).lists = s.lists := by simp [pop, hl1, ctor]
    refine ⟨pop s1, ?_, ?_, hpop, hh1⟩
    · simp only [ctor_init, hrun]
    · apply pop_inv hI1
      rw [hl1]
      simpa [ctor] using hout

theorem ctor_copy_spec {s : State T} {cs : Nat → List (Nat × T)} (hI : Inv s cs)
    {other : Nat} (ho : other < s.lists.length) :
    ((cs other).length ≤ countFree s.heap → ∃ s1 b, ctor_copy s other = .ok s1 () ∧
        vals b = vals (cs other) ∧ Inv s1 (Function.update cs s.lists.length b) ∧
        s1.lists.length = s.lists.length + 1 ∧ s1.heap.length = s.heap.length) ∧
    (countFree s.heap < (cs other).length → ∃ s1, ctor_copy s other = .bad_alloc s1 ∧
        Inv s1 cs ∧ s1.lists = s.lists ∧ s1.heap.length = s.heap.length) := by
  have hI0 := ctor_inv hI
  have hthis : s.lists.length < (ctor s).lists.length := by simp [ctor]
  have hout : cs s.lists.length = [] := hI.shape.out _ (le_refl _)
  have hO : (ctor s).lists[other]? = some s.lists[other] := by
    simp only [ctor]
    rw [List.getElem?_append_left ho]
    exact List.getElem?_eq_getElem ho
  have hbegin : begin (ctor s) other = some ⟨toRef s.lists[other].head_next⟩ := by
    simp [begin, hO]
  have hD : iterReads (addrs (cs other)) (ctor s).heap
      (⟨toRef s.lists[other].head_next⟩ : BasicIterator) (vals (cs other)) :=
    ⟨_, cs other, rfl, hI0.shape.chain other _ hO, rfl, fun _ h => h⟩
  obtain ⟨hok, hbad⟩ := Copy_spec (reads_constIt (addrs (cs other))) hI0 hthis hD
    (fun a ha => ⟨other, by simp [ctor]; omega, ha⟩)
  have hlv : (vals (cs other)).length = (cs other).length := by simp [vals]
  rw [hlv] at hok hbad
  constructor
  · intro hle
    obtain ⟨s1, b, hrun, hv, hI1, hl1, hh1⟩ := hok hle
    refine ⟨s1, b, ?_, hv, hI1, by simpa [ctor] using hl1, hh1⟩
    simp only [ctor_copy, hbegin, hrun]
  · intro hlt
    obtain ⟨s1, hrun, hI1, hl1, hh1⟩ := hbad hlt
    have hpop : (pop s1).lists = s.lists := by simp [pop, hl1, ctor]
    refine ⟨pop s1, ?_, ?_, hpop, hh1⟩
    · simp only [ctor_copy, hbegin, hrun]
    · apply pop_inv hI1
      rw [hl1]
      simpa [ctor] using hout

theorem assign_spec {s : State T} {cs : Nat → List (Nat × T)} (hI : Inv s cs)
    {this rhs : Nat} (hthis : this < s.lists.length) (hrhs : rhs < s.lists.length)
    (hne : this ≠ rhs) :
    ((cs rhs).length ≤ countFree s.heap → ∃ s1 b, assign s this rhs = .ok s1 () ∧
        vals b = vals (cs rhs) ∧ Inv s1 (Function.update cs this b) ∧
        s1.lists.length = s.lists.length ∧ s1.heap.length = s.heap.length) ∧
    (countFree s.heap < (cs rhs).length → ∃ s1, assign s this rhs = .bad_alloc s1 ∧
        Inv s1 cs ∧ s1.lists = s.lists ∧ s1.heap.length = s.heap.length) := by
  have hout : cs s.lists.length = [] := hI.shape.out _ (le_refl _)
  obtain ⟨hok, hbad⟩ := ctor_copy_spec hI hrhs
  constructor
  · intro hle
    obtain ⟨s1, b, hrun, hv, hI1, hl1, hh1⟩ := hok hle
    obtain ⟨hswap, hI2⟩ := swap_spec hI1 (l := this) (o := s.lists.length)
      (by omega) (by omega)
    obtain ⟨h3, hdes, hI3, hlen3⟩ := destroy_inv hI2 (by simp; omega)
    simp only [List.length_set, hl1, Nat.add_sub_cancel] at hI3
    rw [update_swap_clear cs b (by omega) hout] at hI3
    refine ⟨_, b, ?_, hv, hI3, by simp [hl1], by rw [hlen3]; exact hh1⟩
    simp only [assign, hne, ne_eq, not_false_eq_true, if_true, hrun, hswap, hdes]
  · intro hlt
    obtain ⟨s1, hrun, hI1, hl1, hh1⟩ := hbad hlt
    exact ⟨s1, by simp only [assign, hne, ne_eq, not_false_eq_true, if_true, hrun], hI1, hl1,
      hh1⟩

theorem owns_split {s : State T} {cs : Nat → List (Nat × T)} (hS : Shape s cs) {l : Nat}
    (hl : l < s.lists.length) {pos : BasicIterator} (hown : Owns s l pos) :
    ∃ r pre suf, pos = ⟨some r⟩ ∧ cs l = pre ++ suf ∧ SplitAt l r pre := by
  obtain ⟨node⟩ := pos
  cases node with
  | none => simp [Owns] at hown
  | some r =>
    cases r with
    | head k =>
      simp only [Owns] at hown
      subst hown
      exact ⟨.head k, [], cs k, rfl, rfl, Or.inl ⟨rfl, rfl⟩⟩
    | cell a =>
      simp only [Owns, hS.nodes_eq hl] at hown
      obtain ⟨x, hx, hxa⟩ := List.mem_map.mp hown
      obtain ⟨pre0, suf, hsplit⟩ := List.append_of_mem hx
      refine ⟨.cell a, pre0 ++ [x], suf, rfl, by simp [hsplit], Or.inr ⟨pre0, x, rfl, ?_⟩⟩
      rw [hxa]

/-- Every operation called within its precondition keeps the invariant,
whether it returns or throws. -/
theorem step_wf {s s1 : State T} (hwf : WF s) (op : Op T) (hpre : op.pre s)
    (hrun : (op.run s).state? = some s1) : WF s1 := by
  obtain ⟨cs, hI⟩ := hwf
  cases op with
  | ctor =>
    simp only [Op.run, Res.state?, Option.some.injEq] at hrun
    subst hrun
    exact ⟨cs, ctor_inv hI⟩
  | ctor_init values =>
    obtain ⟨hok, hbad⟩ := ctor_init_spec hI values
    by_cases hle : values.length ≤ countFree s.heap
    · obtain ⟨s2, b, h1, _, hI2, _⟩ := hok hle
      simp only [Op.run, h1, Res.state?, Option.some.injEq] at hrun
      subst hrun
      exact ⟨_, hI2⟩
    · obtain ⟨s2, h1, hI2, _⟩ := hbad (by omega)
      simp only [Op.run, h1, Res.state?, Option.some.injEq] at hrun
      subst hrun
      exact ⟨_, hI2⟩
  | ctor_copy other =>
    obtain ⟨hok, hbad⟩ := ctor_copy_spec hI (show other < s.lists.length from hpre)
    by_cases hle : (cs other).length ≤ countFree s.heap
    · obtain ⟨s2, b, h1, _, hI2, _⟩ := hok hle
      simp only [Op.run, h1, Res.state?, Option.some.injEq] at hrun
      subst hrun
      exact ⟨_, hI2⟩
    · obtain ⟨s2, h1, hI2, _⟩ := hbad (by omega)
      simp only [Op.run, h1, Res.state?, Option.some.injEq] at hrun
      subst hrun
      exact ⟨_, hI2⟩
  | PushFront l value =>
    have hl : l < s.lists.length := hpre
    cases ha : firstFree s.heap with
    | none =>
      have hL : s.lists[l]? = some s.lists[l] := List.getElem?_eq_getElem hl
      simp only [Op.run, PushFront, hL, ha, Res.state?, Option.some.injEq] at hrun
      subst hrun
      exact ⟨cs, hI⟩
    | some a =>
      obtain ⟨s2, h1, hI2, _⟩ := PushFront_spec hI hl value ha
      simp only [Op.run, h1, Res.state?, Option.some.injEq] at hrun
      subst hrun
      exact ⟨_, hI2⟩
  | PopFront l =>
    obtain ⟨s2, h1, hI2, _⟩ := PopFront_spec hI (l := l) hpre
    simp only [Op.run, h1, Res.state?, Option.some.injEq] at hrun
    subst hrun
    exact ⟨_, hI2⟩
  | InsertAfter l pos value =>
    obtain ⟨hl, hown⟩ := hpre
    obtain ⟨r, pre, suf, rfl, hc, hsp⟩ := owns_split hI.shape hl hown
    cases ha : firstFree s.heap with
    | none =>
      have hL : s.lists[l]? = some s.lists[l] := List.getElem?_eq_getElem hl
      simp only [Op.run, InsertAfter, hL, ha, Res.void, Res.state?, Option.some.injEq] at hrun
      subst hrun
      exact ⟨cs, hI⟩
    | some a =>
      obtain ⟨s2, nx, h1, hI2, _⟩ := InsertAfter_core hI hl hc hsp value ha
      simp only [Op.run, h1, Res.void, Res.state?, Option.some.injEq] at hrun
      subst hrun
      exact ⟨_, hI2⟩
  | EraseAfter l pos =>
    obtain ⟨hl, hown, hsucc⟩ := hpre
    obtain ⟨r, pre, suf, rfl, hc, hsp⟩ := owns_split hI.shape hl hown
    have hL : s.lists[l]? = some s.lists[l] := List.getElem?_eq_getElem hl
    have hch := hI.shape.chain l _ hL
    rw [hc] at hch
    obtain ⟨nx, hnext, _, hsuf⟩ := nextOf_split hL hch hsp
    cases suf with
    | nil =>
      have : nx = none := hsuf
      subst this
      have hnext1 : s.nextOf r = some none := hnext
      simp [HasSucc, hnext1] at hsucc
    | cons x suf =>
      obtain ⟨s2, nx2, h1, hI2, _⟩ := EraseAfter_core hI hl hc hsp
      simp only [Op.run, h1, Res.void, Res.state?, Option.some.injEq] at hrun
      subst hrun
      exact ⟨_, hI2⟩
  | Clear l =>
    obtain ⟨s2, h1, hI2, _⟩ := Clear_spec hI (l := l) hpre
    simp only [Op.run, h1, Res.state?, Option.some.injEq] at hrun
    subst hrun
    exact ⟨_, hI2⟩
  | assign l rhs =>
    obtain ⟨hl, hr⟩ := hpre
    by_cases hne : l = rhs
    · simp only [Op.run, assign, hne, ne_eq, not_true_eq_false, if_false, Res.state?,
        Option.some.injEq] at hrun
      subst hrun
      exact ⟨cs, hI⟩
    · obtain ⟨hok, hbad⟩ := assign_spec hI hl hr hne
      by_cases hle : (cs rhs).length ≤ countFree s.heap
      · obtain ⟨s2, b, h1, _, hI2, _⟩ := hok hle
        simp only [Op.run, h1, Res.state?, Option.some.injEq] at hrun
        subst hrun
        exact ⟨_, hI2⟩
      · obtain ⟨s2, h1, hI2, _⟩ := hbad (by omega)
        simp only [Op.run, h1, Res.state?, Option.some.injEq] at hrun
        subst hrun
        exact ⟨_, hI2⟩
  | swap l other =>
    obtain ⟨hl, ho⟩ := hpre
    obtain ⟨h1, hI2⟩ := swap_spec hI hl ho
    simp only [Op.run, h1, Res.state?, Option.some.injEq] at hrun
    subst hrun
    exact ⟨_, hI2⟩

theorem init_inv (cap : Nat) (hcap : cap < PTRDIFF_LIM) :
    Inv (State.init T cap) (fun _ => []) := by
  refine ⟨⟨by simpa [State.init] using hcap, ?_, by simp [addrs], ?_, fun _ _ => rfl⟩, ?_⟩
  · intro l L h
    simp [State.init] at h
  · intro i j a h
    simp [addrs] at h
  · intro l L h
    simp [State.init] at h

theorem reachable_wf {s : State T} (h : Reachable s) : WF s := by
  induction h with
  | init cap hcap => exact ⟨_, init_inv cap hcap⟩
  | step op _ hpre hrun ih => exact step_wf ih op hpre hrun

theorem demo_reachable : Reachable demo :=
  Reachable.step (.ctor_init [1, 2])
    (Reachable.step (.ctor_init [1, 2, 4])
      (Reachable.step (.ctor_init [1, 2, 3]) (Reachable.init 8 (by decide)) trivial rfl)
      trivial rfl)
    trivial rfl

theorem demo2_reachable : Reachable demo2 :=
  Reachable.step (.ctor_init [7])
    (Reachable.step (.ctor_init [1, 2, 3]) (Reachable.init 6 (by decide)) trivial rfl)
    trivial rfl

/-! ## The claims -/

/-- C1: in every state reachable from a program start through the constructors
(empty, from a value sequence, by copy), PushFront, PopFront, InsertAfter,
EraseAfter, Clear, copy assignment and swap, each called within its
precondition, following the next links from the sentinel of any list reaches
null, and GetSize() is the number of real nodes met on the way. -/
theorem size_counts_nodes (s : State T) (hs : Reachable s) (l : Nat)
    (hl : l < s.lists.length) :
    ∃ ch, nodes s l = some ch ∧ GetSize s l = some ch.length := by
  obtain ⟨cs, hI⟩ := reachable_wf hs
  have hL : s.lists[l]? = some s.lists[l] := List.getElem?_eq_getElem hl
  exact ⟨cs l, hI.shape.nodes_eq hl, by simp [GetSize, hL, hI.size l _ hL]⟩

theorem size_counts_nodes_witness :
    Reachable demo ∧ 1 < demo.lists.length ∧
      ∃ ch, nodes demo 1 = some ch ∧ GetSize demo 1 = some ch.length :=
  ⟨demo_reachable, by decide, size_counts_nodes demo demo_reachable 1 (by decide)⟩

theorem equal_spec {eq : T → T → Bool} {m : List ListObj} {h : List (Option (Node T))}
    {c1 : List (Nat × T)} :
    ∀ (c2 : List (Nat × T)) (fuel : Nat) (p1 p2 : Option Nat), IsSeg h p1 c1 none →
      IsSeg h p2 c2 none → c1.length = c2.length → c1.length ≤ fuel →
      equal eq ⟨m, h⟩ fuel ⟨toRef p1⟩ end_ ⟨toRef p2⟩ = .ok (pairwiseEq eq (vals c1) (vals c2)) := by
  induction c1 with
  | nil =>
    intro c2 fuel p1 p2 h1 _ _ _
    have : p1 = none := h1
    subst this
    cases fuel <;> simp [equal, toRef, end_, vals, pairwiseEq]
  | cons x c1 ih =>
    intro c2 fuel p1 p2 h1 h2 hlen hf
    cases c2 with
    | nil => simp at hlen
    | cons y c2 =>
      obtain ⟨hp1, n1, hx, hr1⟩ := h1
      obtain ⟨hp2, n2, hy, hr2⟩ := h2
      subst hp1 hp2
      cases fuel with
      | zero => simp at hf
      | succ f =>
        have hrec := ih c2 f n1 n2 hr1 hr2 (by simpa using hlen) (by simpa using hf)
        simp only [end_] at hrec
        simp only [equal, toRef, end_, Option.map_some', ne_eq, reduceCtorEq,
          not_false_eq_true, if_true, deref, hx, hy, incr, State.nextOf, vals, List.map_cons,
          pairwiseEq]
        cases hxy : eq x.2 y.2
        · simp
        · simp only [Bool.not_true, Bool.false_eq_true, if_false, Bool.true_and]
          exact hrec

theorem lex_spec {lt : T → T → Bool} {m : List ListObj} {h : List (Option (Node T))}
    {c1 : List (Nat × T)} :
    ∀ (c2 : List (Nat × T)) (fuel : Nat) (p1 p2 : Option Nat), IsSeg h p1 c1 none →
      IsSeg h p2 c2 none → c1.length ≤ fuel →
      lexicographical_compare lt ⟨m, h⟩ fuel ⟨toRef p1⟩ end_ ⟨toRef p2⟩ end_ =
        .ok (lexLt lt (vals c1) (vals c2)) := by
  induction c1 with
  | nil =>
    intro c2 fuel p1 p2 h1 h2 _
    have : p1 = none := h1
    subst this
    cases c2 with
    | nil =>
      have : p2 = none := h2
      subst this
      cases fuel <;> simp [lexicographical_compare, toRef, end_, vals, lexLt]
    | cons y c2 =>
      obtain ⟨hp2, _⟩ := h2
      subst hp2
      cases fuel <;> simp [lexicographical_compare, toRef, end_, vals, lexLt]
  | cons x c1 ih =>
    intro c2 fuel p1 p2 h1 h2 hf
    obtain ⟨hp1, n1, hx, hr1⟩ := h1
    subst hp1
    cases fuel with
    | zero => simp at hf
    | succ f =>
      cases c2 with
      | nil =>
        have : p2 = none := h2
        subst this
        simp [lexicographical_compare, toRef, end_, vals, lexLt]
      | cons y c2 =>
        obtain ⟨hp2, n2, hy, hr2⟩ := h2
        subst hp2
        have hrec := ih c2 f n1 n2 hr1 hr2 (by simpa using hf)
        simp only [end_] at hrec
        simp only [lexicographical_compare, toRef, end_, Option.map_some', ne_eq, reduceCtorEq,
          not_false_eq_true, and_self, if_true, deref, hx, hy, incr, State.nextOf, vals,
          List.map_cons, lexLt]
        cases hxy : lt x.2 y.2
        · cases hyx : lt y.2 x.2
          · simp only [Bool.false_eq_true, if_false]
            exact hrec
          · simp
        · simp

theorem op_eq_spec {eq : T → T → Bool} {s : State T} {cs : Nat → List (Nat × T)}
    (hI : Inv s cs) {l1 l2 : Nat} (h1 : l1 < s.lists.length) (h2 : l2 < s.lists.length)
    (hne : l1 ≠ l2) :
    op_eq eq s l1 l2 = .ok (decide ((cs l1).length = (cs l2).length) &&
      pairwiseEq eq (vals (cs l1)) (vals (cs l2))) := by
  obtain ⟨lists, heap⟩ := s
  have hL1 : lists[l1]? = some lists[l1] := List.getElem?_eq_getElem h1
  have hL2 : lists[l2]? = some lists[l2] := List.getElem?_eq_getElem h2
  have hs1 := hI.size l1 _ hL1
  have hs2 := hI.size l2 _ hL2
  simp only [op_eq, hne, if_false, hL1, hL2, hs1, hs2]
  by_cases hlen : (cs l1).length = (cs l2).length
  · simp only [hlen, ne_eq, not_true_eq_false, if_false, decide_True, Bool.true_and]
    exact equal_spec (cs l2) _ _ _ (hI.shape.chain l1 _ hL1) (hI.shape.chain l2 _ hL2) hlen
      (by have := hI.shape.length_le l1; simp only at this; omega)
  · simp [hlen]

theorem op_lt_spec {lt : T → T → Bool} {s : State T} {cs : Nat → List (Nat × T)}
    (hI : Inv s cs) {l1 l2 : Nat} (h1 : l1 < s.lists.length) (h2 : l2 < s.lists.length) :
    op_lt lt s l1 l2 = .ok (lexLt lt (vals (cs l1)) (vals (cs l2))) := by
  obtain ⟨lists, heap⟩ := s
  have hL1 : lists[l1]? = some lists[l1] := List.getElem?_eq_getElem h1
  have hL2 : lists[l2]? = some lists[l2] := List.getElem?_eq_getElem h2
  simp only [op_lt, hL1, hL2]
  exact lex_spec (cs l2) _ _ _ (hI.shape.chain l1 _ hL1) (hI.shape.chain l2 _ hL2)
    (by have := hI.shape.length_le l1; simp only at this; omega)

theorem pairwiseEq_iff (eq : T → T → Bool) (xs ys : List T) :
    pairwiseEq eq xs ys = true ↔
      ∀ (i : Nat) (x y : T), xs[i]? = some x → ys[i]? = some y → eq x y = true := by
  induction xs generalizing ys with
  | nil => simp [pairwiseEq]
  | cons a xs ih =>
    cases ys with
    | nil => simp [pairwiseEq]
    | cons b ys =>
      simp only [pairwiseEq, Bool.and_eq_true, ih]
      constructor
      · rintro ⟨h0, hrest⟩ i x y hx hy
        cases i with
        | zero =>
          simp only [List.getElem?_cons_zero, Option.some.injEq] at hx hy
          subst hx hy
          exact h0
        | succ i =>
          simp only [List.getElem?_cons_succ] at hx hy
          exact hrest i x y hx hy
      · intro hall
        exact ⟨hall 0 a b (by simp) (by simp), fun i x y hx hy => hall (i + 1) x y (by simpa using hx)
          (by simpa using hy)⟩

theorem equivUpTo_cons (lt : T → T → Bool) (x y : T) (xs ys : List T) (i : Nat) :
    EquivUpTo lt (x :: xs) (y :: ys) (i + 1) ↔
      (lt x y = false ∧ lt y x = false) ∧ EquivUpTo lt xs ys i := by
  constructor
  · intro h
    refine ⟨h 0 (by omega) x y (by simp) (by simp), ?_⟩
    intro j hj c d hc hd
    exact h (j + 1) (by omega) c d (by simpa using hc) (by simpa using hd)
  · rintro ⟨h0, hrest⟩ j hj c d hc hd
    cases j with
    | zero =>
      simp only [List.getElem?_cons_zero, Option.some.injEq] at hc hd
      subst hc hd
      exact h0
    | succ j =>
      simp only [List.getElem?_cons_succ] at hc hd
      exact hrest j (by omega) c d hc hd

theorem lexLt_iff (lt : T → T → Bool) (xs ys : List T) :
    lexLt lt xs ys = true ↔
      (xs.length < ys.length ∧ EquivUpTo lt xs ys xs.length) ∨
      ∃ i a b, xs[i]? = some a ∧ ys[i]? = some b ∧ lt a b = true ∧ EquivUpTo lt xs ys i := by
  induction xs generalizing ys with
  | nil =>
    cases ys with
    | nil => simp [lexLt]
    | cons y ys =>
      simp only [lexLt, List.length_nil, List.length_cons, true_iff]
      exact Or.inl ⟨by omega, fun j hj => absurd hj (by omega)⟩
  | cons x xs ih =>
    cases ys with
    | nil => simp [lexLt]
    | cons y ys =>
      simp only [lexLt, List.length_cons]
      by_cases hxy : lt x y = true
      · simp only [hxy, if_true, true_iff]
        exact Or.inr ⟨0, x, y, by simp, by simp, hxy, fun j hj => absurd hj (by omega)⟩
      · have hxy1 : lt x y = false := by simpa using hxy
        by_cases hyx : lt y x = true
        · simp only [hxy1, Bool.false_eq_true, if_false, hyx, if_true, false_iff, not_or,
            not_and, not_exists]
          constructor
          · intro _ h
            have := (h 0 (by omega) x y (by simp) (by simp)).2
            rw [hyx] at this
            cases this
          · intro i a b ha hb hab h
            cases i with
            | zero =>
              simp only [List.getElem?_cons_zero, Option.some.injEq] at ha hb
              subst ha hb
              rw [hxy1] at hab
              cases hab
            | succ i =>
              have := (h 0 (by omega) x y (by simp) (by simp)).2
              rw [hyx] at this
              cases this
        · have hyx1 : lt y x = false := by simpa using hyx
          simp only [hxy1, hyx1, Bool.false_eq_true, if_false, ih]
          constructor
          · rintro (⟨hlen, heq⟩ | ⟨i, a, b, ha, hb, hab, heq⟩)
            · exact Or.inl ⟨by omega, (equivUpTo_cons lt x y xs ys _).mpr ⟨⟨hxy1, hyx1⟩, heq⟩⟩
            · exact Or.inr ⟨i + 1, a, b, by simpa using ha, by simpa using hb, hab,
                (equivUpTo_cons lt x y xs ys _).mpr ⟨⟨hxy1, hyx1⟩, heq⟩⟩
          · rintro (⟨hlen, heq⟩ | ⟨i, a, b, ha, hb, hab, heq⟩)
            · exact Or.inl ⟨by omega, ((equivUpTo_cons lt x y xs ys _).mp heq).2⟩
            · cases i with
              | zero =>
                simp only [List.getElem?_cons_zero, Option.some.injEq] at ha hb
                subst ha hb
                rw [hxy1] at hab
                cases hab
              | succ i =>
                exact Or.inr ⟨i, a, b, by simpa using ha, by simpa using hb, hab,
                  ((equivUpTo_cons lt x y xs ys _).mp heq).2⟩

theorem demoNan_reachable : Reachable demoNan :=
  Reachable.step (.ctor_init [none])
    (Reachable.step (.ctor_init [none]) (Reachable.init 2 (by decide)) trivial rfl)
    trivial rfl

theorem demoNan3_reachable : Reachable demoNan3 :=
  Reachable.step (.ctor_init [some 1, some 1, some 1])
    (Reachable.step (.ctor_init [none, none])
      (Reachable.step (.ctor_init [some 2]) (Reachable.init 6 (by decide)) trivial rfl)
      trivial rfl)
    trivial rfl

theorem getSize_eq {s : State T} {cs : Nat → List (Nat × T)} (hI : Inv s cs) {l : Nat}
    (hl : l < s.lists.length) : GetSize s l = some (cs l).length := by
  have hL : s.lists[l]? = some s.lists[l] := List.getElem?_eq_getElem hl
  simp [GetSize, hL, hI.size l _ hL]

/-- C2 (amended): for all lists L1 and L2 of the same element type,
operator==(L1, L2) returns, and returns true if and only if L1 and L2 are the
same object, or GetSize(L1) == GetSize(L2) and, at every index below that
size, the element of L1 is == to the element of L2 (first part).  So a list
compared with itself is always equal, whatever its elements: the identity
check returns true without looking at them (second part).  And when L1 and L2
are distinct objects, or the element type's == is reflexive, operator==
returns true if and only if the sizes are equal and the elements at every
index below the size are == (third part). -/
theorem op_eq_iff_sizes_and_elements (eq : T → T → Bool) (s : State T) (hwf : WF s)
    (l1 l2 : Nat) (h1 : l1 < s.lists.length) (h2 : l2 < s.lists.length) :
    (∃ xs ys n1 n2 b, toList s l1 = some xs ∧ toList s l2 = some ys ∧
      GetSize s l1 = some n1 ∧ GetSize s l2 = some n2 ∧ op_eq eq s l1 l2 = .ok b ∧
      (b = true ↔ l1 = l2 ∨ (n1 = n2 ∧
        ∀ i, i < n1 → ∀ x y, xs[i]? = some x → ys[i]? = some y → eq x y = true))) ∧
    op_eq eq s l1 l1 = .ok true ∧
    ((l1 ≠ l2 ∨ ∀ x, eq x x = true) → EqClaim eq s l1 l2) := by
  obtain ⟨cs, hI⟩ := hwf
  have hsame : ∀ l, op_eq eq s l l = .ok true := by
    intro l
    simp [op_eq]
  have hdiff : l1 ≠ l2 → ∃ b, op_eq eq s l1 l2 = .ok b ∧ (b = true ↔ (cs l1).length = (cs l2).length ∧
      ∀ i, i < (cs l1).length → ∀ x y, (vals (cs l1))[i]? = some x →
        (vals (cs l2))[i]? = some y → eq x y = true) := by
    intro hne
    refine ⟨_, op_eq_spec hI h1 h2 hne, ?_⟩
    simp only [Bool.and_eq_true, decide_eq_true_eq, pairwiseEq_iff]
    constructor
    · rintro ⟨hl, hall⟩
      exact ⟨hl, fun i _ x y hx hy => hall i x y hx hy⟩
    · rintro ⟨hl, hall⟩
      refine ⟨hl, fun i x y hx hy => hall i ?_ x y hx hy⟩
      have := (List.getElem?_eq_some.mp hx).1
      simpa [vals] using this
  refine ⟨?_, hsame l1, ?_⟩
  · by_cases hne : l1 = l2
    · subst hne
      exact ⟨vals (cs l1), vals (cs l1), (cs l1).length, (cs l1).length, true,
        hI.shape.toList_eq h1, hI.shape.toList_eq h1, getSize_eq hI h1, getSize_eq hI h1,
        hsame l1, by simp⟩
    · obtain ⟨b, hb, hiff⟩ := hdiff hne
      refine ⟨vals (cs l1), vals (cs l2), (cs l1).length, (cs l2).length, b,
        hI.shape.toList_eq h1, hI.shape.toList_eq h2, getSize_eq hI h1, getSize_eq hI h2,
        hb, ?_⟩
      rw [hiff]
      constructor
      · intro h
        exact Or.inr h
      · rintro (h | h)
        · exact absurd h hne
        · exact h
  · intro hd
    by_cases hne : l1 = l2
    · subst hne
      have hrefl : ∀ x, eq x x = true := by
        rcases hd with h | h
        · exact absurd rfl h
        · exact h
      refine ⟨vals (cs l1), vals (cs l1), (cs l1).length, (cs l1).length, true,
        hI.shape.toList_eq h1, hI.shape.toList_eq h1, getSize_eq hI h1, getSize_eq hI h1,
        hsame l1, ?_⟩
      simp only [true_iff, true_and]
      intro i _ x y hx hy
      rw [hx] at hy
      cases hy
      exact hrefl x
    · obtain ⟨b, hb, hiff⟩ := hdiff hne
      exact ⟨vals (cs l1), vals (cs l2), (cs l1).length, (cs l2).length, b,
        hI.shape.toList_eq h1, hI.shape.toList_eq h2, getSize_eq hI h1, getSize_eq hI h2,
        hb, hiff⟩

theorem op_eq_iff_sizes_and_elements_witness :
    (WF demo ∧ 0 < demo.lists.length ∧ 1 < demo.lists.length ∧
      ((0 : Nat) ≠ 1 ∨ ∀ x : Nat, (x == x) = true) ∧
      EqClaim (fun a b : Nat => a == b) demo 0 1) ∧
    (WF demoNan ∧ 0 < demoNan.lists.length ∧ op_eq nanEq demoNan 0 0 = .ok true ∧
      ∃ xs ys n1 n2 b, toList demoNan 0 = some xs ∧ toList demoNan 0 = some ys ∧
        GetSize demoNan 0 = some n1 ∧ GetSize demoNan 0 = some n2 ∧
        op_eq nanEq demoNan 0 0 = .ok b ∧
        (b = true ↔ (0 : Nat) = 0 ∨ (n1 = n2 ∧
          ∀ i, i < n1 → ∀ x y, xs[i]? = some x → ys[i]? = some y → nanEq x y = true))) :=
  ⟨⟨reachable_wf demo_reachable, by decide, by decide, Or.inl (by decide),
      (op_eq_iff_sizes_and_elements (fun a b : Nat => a == b) demo
        (reachable_wf demo_reachable) 0 1 (by decide) (by decide)).2.2 (Or.inl (by decide))⟩,
    ⟨reachable_wf demoNan_reachable, by decide,
      (op_eq_iff_sizes_and_elements nanEq demoNan (reachable_wf demoNan_reachable) 0 0
        (by decide) (by decide)).2.1,
      (op_eq_iff_sizes_and_elements nanEq demoNan (reachable_wf demoNan_reachable) 0 0
        (by decide) (by decide)).1⟩⟩

/-- C2, as stated, fails when a list is compared with itself and an element is
not == to itself: the list holding the one value NaN is == to itself by the
identity check, although its element at index 0 is not == to itself. -/
theorem op_eq_same_object_counterexample :
    Reachable demoNan ∧ op_eq nanEq demoNan 0 0 = .ok true ∧ ¬ EqClaim nanEq demoNan 0 0 := by
  refine ⟨demoNan_reachable, rfl, ?_⟩
  rintro ⟨xs, ys, n1, n2, b, hx, hy, hn1, hn2, hb, hiff⟩
  have hx1 : toList demoNan 0 = some [none] := rfl
  have hn : GetSize demoNan 0 = some 1 := rfl
  have hb1 : op_eq nanEq demoNan 0 0 = .ok true := rfl
  rw [hx1] at hx hy
  rw [hn] at hn1 hn2
  rw [hb1] at hb
  cases hx
  cases hy
  cases hn1
  cases hn2
  cases hb
  have := (hiff.mp rfl).2 0 (by decide) none none rfl rfl
  simp [nanEq] at this

theorem prefix_iff_index (xs ys : List T) :
    (xs.length < ys.length ∧
      ∀ j, j < xs.length → ∀ c d, xs[j]? = some c → ys[j]? = some d → c = d) ↔
      (xs <+: ys ∧ xs ≠ ys) := by
  constructor
  · rintro ⟨hlen, hall⟩
    refine ⟨?_, ?_⟩
    · rw [List.prefix_iff_eq_take]
      apply List.ext_getElem?
      intro j
      rw [List.getElem?_take]
      split
      · next hj =>
        have hj2 : j < ys.length := by omega
        rw [List.getElem?_eq_getElem hj, List.getElem?_eq_getElem hj2]
        congr 1
        exact hall j hj _ _ (List.getElem?_eq_getElem hj) (List.getElem?_eq_getElem hj2)
      · next hj => exact List.getElem?_eq_none (by omega)
    · intro h
      rw [h] at hlen
      omega
  · rintro ⟨⟨t, ht⟩, hne⟩
    subst ht
    refine ⟨?_, ?_⟩
    · cases t with
      | nil => simp at hne
      | cons a t => simp
    · intro j hj c d hc hd
      rw [List.getElem?_append_left hj, hc] at hd
      exact Option.some.inj hd

/-- C3 (amended): for all lists L1 and L2, operator<(L1, L2) returns, and
returns true iff L1's sequence is shorter than L2's and at no index of L1 is
one of the two elements less than the other, or at the first index where one
of the two elements is less than the other it is L1's element that is less
(first part: std::lexicographical_compare consults the element type's < only).
For an element type whose < is total, two elements being unordered by <
exactly when they are equal, this is the strict lexicographic comparison of the
traversal sequences: operator<(L1, L2) returns true iff L1's sequence is a
proper prefix of L2's, or at the first index where the two differ L1's element
is less than L2's (second part).  In particular [1,2,3] < [1,2,4] is true with
[1,2,3] == [1,2,4] false, and [1,2] < [1,2,3] is true (third part, on the
lists 0, 1 and 2 of `demo`). -/
theorem op_lt_is_lexicographic (lt : T → T → Bool) (s : State T) (hwf : WF s)
    (l1 l2 : Nat) (h1 : l1 < s.lists.length) (h2 : l2 < s.lists.length) :
    (∃ xs ys r, toList s l1 = some xs ∧ toList s l2 = some ys ∧ op_lt lt s l1 l2 = .ok r ∧
      (r = true ↔
        (xs.length < ys.length ∧ ∀ j : Nat, j < xs.length → ∀ c d : T, xs[j]? = some c →
          ys[j]? = some d → lt c d = false ∧ lt d c = false) ∨
        ∃ (i : Nat) (a b : T), xs[i]? = some a ∧ ys[i]? = some b ∧ lt a b = true ∧
          ∀ j : Nat, j < i → ∀ c d : T, xs[j]? = some c → ys[j]? = some d →
            lt c d = false ∧ lt d c = false)) ∧
    ((∀ a b, (lt a b = false ∧ lt b a = false) ↔ a = b) → LexClaim lt s l1 l2) ∧
    (toList demo 0 = some [1, 2, 3] ∧ toList demo 1 = some [1, 2, 4] ∧
      toList demo 2 = some [1, 2] ∧
      op_lt (fun a b : Nat => decide (a < b)) demo 0 1 = .ok true ∧
      op_eq (fun a b : Nat => a == b) demo 0 1 = .ok false ∧
      op_lt (fun a b : Nat => decide (a < b)) demo 2 0 = .ok true) := by
  obtain ⟨cs, hI⟩ := hwf
  refine ⟨⟨vals (cs l1), vals (cs l2), _, hI.shape.toList_eq h1, hI.shape.toList_eq h2,
    op_lt_spec hI h1 h2, lexLt_iff lt _ _⟩, ?_, rfl, rfl, rfl, rfl, rfl, rfl⟩
  intro hto
  refine ⟨vals (cs l1), vals (cs l2), _, hI.shape.toList_eq h1, hI.shape.toList_eq h2,
    op_lt_spec hI h1 h2, ?_⟩
  rw [lexLt_iff, ← prefix_iff_index]
  have hequiv : ∀ i, EquivUpTo lt (vals (cs l1)) (vals (cs l2)) i ↔
      ∀ j, j < i → ∀ c d, (vals (cs l1))[j]? = some c → (vals (cs l2))[j]? = some d → c = d := by
    intro i
    constructor
    · intro h j hj c d hc hd
      exact (hto c d).mp (h j hj c d hc hd)
    · intro h j hj c d hc hd
      exact (hto c d).mpr (h j hj c d hc hd)
  rw [hequiv]
  apply or_congr Iff.rfl
  constructor
  · rintro ⟨i, a, b, ha, hb, hab, heq⟩
    refine ⟨i, a, b, ha, hb, ?_, hab, ?_⟩
    · intro he
      have := ((hto a b).mpr he).1
      rw [hab] at this
      cases this
    · intro j hj
      have hj1 : j < (vals (cs l1)).length := by
        have := (List.getElem?_eq_some.mp ha).1
        omega
      have hj2 : j < (vals (cs l2)).length := by
        have := (List.getElem?_eq_some.mp hb).1
        omega
      rw [List.getElem?_eq_getElem hj1, List.getElem?_eq_getElem hj2]
      congr 1
      exact (hequiv i).mp heq j hj _ _ (List.getElem?_eq_getElem hj1)
        (List.getElem?_eq_getElem hj2)
  · rintro ⟨i, a, b, ha, hb, _, hab, heq⟩
    refine ⟨i, a, b, ha, hb, hab, (hequiv i).mpr ?_⟩
    intro j hj c d hc hd
    rw [← heq j hj, hc] at hd
    exact Option.some.inj hd

theorem op_lt_is_lexicographic_witness :
    WF demo ∧ 2 < demo.lists.length ∧ 0 < demo.lists.length ∧
      (∀ a b : Nat, (decide (a < b) = false ∧ decide (b < a) = false) ↔ a = b) ∧
      LexClaim (fun a b : Nat => decide (a < b)) demo 2 0 :=
  have hto : ∀ a b : Nat, (decide (a < b) = false ∧ decide (b < a) = false) ↔ a = b := by
    intro a b
    simp only [decide_eq_false_iff_not]
    omega
  ⟨reachable_wf demo_reachable, by decide, by decide, hto,
    (op_lt_is_lexicographic (fun a b : Nat => decide (a < b)) demo
      (reachable_wf demo_reachable) 2 0 (by decide) (by decide)).2.1 hto⟩

/-- C3, as stated for every element type, fails for an element type with an
unordered value (as NaN for `double`): [2] < [NaN, NaN] is true, the first
elements being unordered and [2] the shorter, although [2] is not a prefix of
[NaN, NaN] and at index 0, the first where the two differ, 2 is not less than
NaN. -/
theorem op_lt_lexicographic_counterexample :
    Reachable demoNan3 ∧ toList demoNan3 0 = some [some 2] ∧
      toList demoNan3 1 = some [none, none] ∧ op_lt nanLt demoNan3 0 1 = .ok true ∧
      ¬ LexClaim nanLt demoNan3 0 1 := by
  refine ⟨demoNan3_reachable, rfl, rfl, rfl, ?_⟩
  rintro ⟨xs, ys, r, hx, hy, hr, hiff⟩
  have hx1 : toList demoNan3 0 = some [some 2] := rfl
  have hy1 : toList demoNan3 1 = some [none, none] := rfl
  have hr1 : op_lt nanLt demoNan3 0 1 = .ok true := rfl
  rw [hx1] at hx
  rw [hy1] at hy
  rw [hr1] at hr
  cases hx
  cases hy
  cases hr
  rcases hiff.mp rfl with ⟨hpre, _⟩ | ⟨i, a, b, ha, hb, _, hab, _⟩
  · obtain ⟨t, ht⟩ := hpre
    simp at ht
  · cases i with
    | zero =>
      simp only [List.getElem?_cons_zero, Option.some.injEq] at ha hb
      subst ha hb
      simp [nanLt] at hab
    | succ i => simp at ha

theorem lex_trichotomy (eq lt : T → T → Bool)
    (htri : ∀ a b, ExactlyOne (lt a b) (eq a b) (lt b a)) (xs ys : List T) :
    ExactlyOne (lexLt lt xs ys) (decide (xs.length = ys.length) && pairwiseEq eq xs ys)
      (lexLt lt ys xs) := by
  induction xs generalizing ys with
  | nil =>
    cases ys with
    | nil => simp [ExactlyOne, lexLt, pairwiseEq]
    | cons y ys => simp [ExactlyOne, lexLt, pairwiseEq]
  | cons x xs ih =>
    cases ys with
    | nil => simp [ExactlyOne, lexLt, pairwiseEq]
    | cons y ys =>
      have hrec := ih ys
      rcases htri x y with ⟨h1, h2, h3⟩ | ⟨h1, h2, h3⟩ | ⟨h1, h2, h3⟩
      · simp [ExactlyOne, lexLt, pairwiseEq, h1, h2, h3]
      · simpa [ExactlyOne, lexLt, pairwiseEq, h1, h2, h3] using hrec
      · simp [ExactlyOne, lexLt, pairwiseEq, h1, h2, h3]

theorem lexLt_irrefl (lt : T → T → Bool) (hirr : ∀ a, lt a a = false) (xs : List T) :
    lexLt lt xs xs = false := by
  induction xs with
  | nil => rfl
  | cons x xs ih => simp [lexLt, hirr, ih]

/-- C4 (amended): for all lists L1 and L2 of an element type on which exactly
one of a < b, a == b, b < a holds for all values a and b, the comparisons
L1 < L2, L1 == L2 and L2 < L1 return and exactly one of them is true. -/
theorem comparison_trichotomy (eq lt : T → T → Bool) (s : State T) (hwf : WF s)
    (l1 l2 : Nat) (h1 : l1 < s.lists.length) (h2 : l2 < s.lists.length)
    (htri : ∀ a b, ExactlyOne (lt a b) (eq a b) (lt b a)) : Trichotomy eq lt s l1 l2 := by
  obtain ⟨cs, hI⟩ := hwf
  by_cases hne : l1 = l2
  · subst hne
    have hirr : ∀ a, lt a a = false := by
      intro a
      rcases htri a a with ⟨h, _, h3⟩ | ⟨h, _, _⟩ | ⟨h, _, _⟩
      · rw [h] at h3; cases h3
      · exact h
      · exact h
    refine ⟨false, true, false, ?_, show op_eq eq s l1 l1 = .ok true by simp [op_eq], ?_,
      Or.inr (Or.inl ⟨rfl, rfl, rfl⟩)⟩
    · rw [op_lt_spec hI h1 h1, lexLt_irrefl lt hirr]
    · rw [op_lt_spec hI h1 h1, lexLt_irrefl lt hirr]
  · refine ⟨_, _, _, op_lt_spec hI h1 h2, op_eq_spec hI h1 h2 hne, op_lt_spec hI h2 h1, ?_⟩
    have := lex_trichotomy eq lt htri (vals (cs l1)) (vals (cs l2))
    simpa [vals] using this

theorem comparison_trichotomy_witness :
    WF demo ∧ 0 < demo.lists.length ∧ 2 < demo.lists.length ∧
      (∀ a b : Nat, ExactlyOne (decide (a < b)) (a == b) (decide (b < a))) ∧
      Trichotomy (fun a b : Nat => a == b) (fun a b : Nat => decide (a < b)) demo 0 2 :=
  have htri : ∀ a b : Nat, ExactlyOne (decide (a < b)) (a == b) (decide (b < a)) := by
    intro a b
    rcases Nat.lt_trichotomy a b with h | h | h
    · exact Or.inl ⟨by simp [h], by simp; omega, by simp; omega⟩
    · exact Or.inr (Or.inl ⟨by simp; omega, by simp [h], by simp; omega⟩)
    · exact Or.inr (Or.inr ⟨by simp; omega, by simp; omega, by simp [h]⟩)
  ⟨reachable_wf demo_reachable, by decide, by decide, htri,
    comparison_trichotomy (fun a b : Nat => a == b) (fun a b : Nat => decide (a < b)) demo
      (reachable_wf demo_reachable) 0 2 (by decide) (by decide) htri⟩

/-- C4, as stated for every element type, fails for an element type with a
value that is neither less than, nor == to, nor greater than itself (as NaN
for `double`): of two lists holding that one value, none of L1 < L2, L1 == L2,
L2 < L1 is true. -/
theorem comparison_trichotomy_counterexample :
    Reachable demoNan ∧ op_lt nanLt demoNan 0 1 = .ok false ∧
      op_eq nanEq demoNan 0 1 = .ok false ∧ op_lt nanLt demoNan 1 0 = .ok false ∧
      ¬ Trichotomy nanEq nanLt demoNan 0 1 := by
  refine ⟨demoNan_reachable, rfl, rfl, rfl, ?_⟩
  rintro ⟨a, b, c, ha, hb, hc, hone⟩
  have ha1 : op_lt nanLt demoNan 0 1 = .ok false := rfl
  have hb1 : op_eq nanEq demoNan 0 1 = .ok false := rfl
  have hc1 : op_lt nanLt demoNan 1 0 = .ok false := rfl
  rw [ha1] at ha
  rw [hb1] at hb
  rw [hc1] at hc
  cases ha
  cases hb
  cases hc
  simp [ExactlyOne] at hone

theorem seg_head {h : List (Option (Node T))} {p : Option Nat} {ch : List (Nat × T)}
    (hc : IsSeg h p ch none) : toRef p = (addrs ch).head?.map NodeRef.cell := by
  cases ch with
  | nil =>
    have : p = none := hc
    subst this
    rfl
  | cons x ch =>
    obtain ⟨hp, _⟩ := hc
    subst hp
    rfl

theorem posAt_succ (ch : List (Nat × T)) (l k : Nat) :
    posAt ch l (k + 1) = ⟨(addrs (ch.drop k)).head?.map NodeRef.cell⟩ := by
  simp [posAt, addrs, List.head?_drop]

theorem nodes_unique {s : State T} {cs : Nat → List (Nat × T)} (hS : Shape s cs) {l : Nat}
    (hl : l < s.lists.length) {ch : List (Nat × T)} (hch : nodes s l = some ch) : ch = cs l := by
  rw [hS.nodes_eq hl] at hch
  exact (Option.some.inj hch).symm

/-- C5: for a list with nodes `ch` (values `vals ch`), the position `p` after
`k` of its nodes (`before_begin()` for `k = 0`, the `k`-th node otherwise) and a
value `v`, InsertAfter(p, v), when a node can be allocated, returns; the
sequence becomes the old one with `v` inserted right after `p`'s node, every
other element in place; GetSize() grows by exactly 1; the iterator returned
references the new node (a cell that was free): dereferencing it yields `v`,
and advancing it yields what advancing `p` yielded before the call, `p`'s
former successor or end(). -/
theorem InsertAfter_inserts (s : State T) (hwf : WF s) (l : Nat) (hl : l < s.lists.length)
    (ch : List (Nat × T)) (hch : nodes s l = some ch) (k : Nat) (hk : k ≤ ch.length) (v : T)
    (hfree : firstFree s.heap ≠ none) :
    ∃ s1 it n, InsertAfter s l (posAt ch l k) v = .ok s1 it ∧
      toList s1 l = some ((vals ch).take k ++ v :: (vals ch).drop k) ∧
      GetSize s l = some n ∧ GetSize s1 l = some (n + 1) ∧
      (∃ a, it.node_ = some (.cell a) ∧ s.heap[a]? = some none) ∧
      deref s1 it = some v ∧
      incr s1 it = incr s (posAt ch l k) ∧ incr s1 it = some (posAt ch l (k + 1)) := by
  obtain ⟨cs, hI⟩ := hwf
  have hcs := nodes_unique hI.shape hl hch
  subst hcs
  obtain ⟨r, hr, hsp⟩ := splitAt_posAt (cs l) l k hk
  have hpos : posAt (cs l) l k = ⟨some r⟩ := by
    cases hp : posAt (cs l) l k with
    | mk node => rw [hp] at hr; simp only at hr; rw [hr]
  have hc : cs l = (cs l).take k ++ (cs l).drop k := (List.take_append_drop k _).symm
  cases ha : firstFree s.heap with
  | none => exact absurd ha hfree
  | some a =>
    obtain ⟨s1, nx, hrun, hI1, hl1, hh1, hnext, ha1⟩ := InsertAfter_core hI hl hc hsp v ha
    have hL : s.lists[l]? = some s.lists[l] := List.getElem?_eq_getElem hl
    have hchain := hI.shape.chain l _ hL
    rw [hc] at hchain
    obtain ⟨nx2, hnext2, _, hsuf⟩ := nextOf_split hL hchain hsp
    have hnx : nx2 = nx := by
      have h3 : s.nextOf r = some nx2 := hnext2
      rw [hnext] at h3
      exact (Option.some.inj h3).symm
    subst hnx
    have hl1a : l < s1.lists.length := by rw [hl1]; exact hl
    have hincr : incr s1 ⟨some (.cell a)⟩ = some ⟨toRef nx2⟩ := by
      simp [incr, State.nextOf, ha1]
    refine ⟨s1, ⟨some (.cell a)⟩, (cs l).length, by rw [hpos]; exact hrun, ?_,
      getSize_eq hI hl, ?_, ⟨a, rfl, firstFree_spec _ _ ha⟩, by simp [deref, ha1], ?_, ?_⟩
    · rw [hI1.shape.toList_eq hl1a, Function.update_same]
      simp [vals, List.map_take, List.map_drop]
    · rw [getSize_eq hI1 hl1a, Function.update_same]
      congr 1
      simp only [List.length_append, List.length_cons, List.length_take, List.length_drop]
      omega
    · rw [hincr, hpos]
      simp [incr, hnext]
    · rw [hincr, posAt_succ, seg_head hsuf]

theorem InsertAfter_inserts_witness :
    WF demo2 ∧ 0 < demo2.lists.length ∧ nodes demo2 0 = some [(0, 1), (1, 2), (2, 3)] ∧
      1 ≤ [(0, 1), (1, 2), (2, 3)].length ∧ firstFree demo2.heap ≠ none ∧
      ∃ s1 it n, InsertAfter demo2 0 (posAt [(0, 1), (1, 2), (2, 3)] 0 1) 10 = .ok s1 it ∧
        toList s1 0 = some [1, 10, 2, 3] ∧ GetSize demo2 0 = some n ∧
        GetSize s1 0 = some (n + 1) :=
  ⟨reachable_wf demo2_reachable, by decide, rfl, by decide, by decide,
    match InsertAfter_inserts demo2 (reachable_wf demo2_reachable) 0 (by decide)
      [(0, 1), (1, 2), (2, 3)] rfl 1 (by decide) 10 (by decide) with
    | ⟨s1, it, n, h1, h2, h3, h4, _⟩ => ⟨s1, it, n, h1, h2, h3, h4⟩⟩

/-- C6: for a list with nodes `ch` and the position `p` after `k` of its nodes,
`p`'s node having a successor (`k < ch.length`), EraseAfter(p) returns; the
sequence becomes the old one without the element directly after `p`, every
other element in place; GetSize() shrinks by exactly 1; the iterator returned
references the node that followed the removed one, and equals end() when the
removed node was the last; it is what advancing `p` now yields. -/
theorem EraseAfter_erases (s : State T) (hwf : WF s) (l : Nat) (hl : l < s.lists.length)
    (ch : List (Nat × T)) (hch : nodes s l = some ch) (k : Nat) (hk : k < ch.length) :
    ∃ s1 it n, EraseAfter s l (posAt ch l k) = .ok s1 it ∧
      toList s1 l = some ((vals ch).take k ++ (vals ch).drop (k + 1)) ∧
      GetSize s l = some (n + 1) ∧ GetSize s1 l = some n ∧
      it = ⟨(addrs ch)[k + 1]?.map NodeRef.cell⟩ ∧ (k + 1 = ch.length → it = end_) ∧
      incr s1 (posAt ch l k) = some it := by
  obtain ⟨cs, hI⟩ := hwf
  have hcs := nodes_unique hI.shape hl hch
  subst hcs
  obtain ⟨r, hr, hsp⟩ := splitAt_posAt (cs l) l k (by omega)
  have hpos : posAt (cs l) l k = ⟨some r⟩ := by
    cases hp : posAt (cs l) l k with
    | mk node => rw [hp] at hr; simp only at hr; rw [hr]
  have hc : cs l = (cs l).take k ++ (cs l)[k] :: (cs l).drop (k + 1) := by
    rw [← List.drop_eq_getElem_cons hk, List.take_append_drop]
  obtain ⟨s1, nx, hrun, hI1, hl1, hh1, hx, hnext⟩ := EraseAfter_core hI hl hc hsp
  have hL : s.lists[l]? = some s.lists[l] := List.getElem?_eq_getElem hl
  have hchain := hI.shape.chain l _ hL
  rw [hc] at hchain
  obtain ⟨m, _, hm, nx2, hx2, hsuf⟩ := isSeg_append.mp hchain
  have hnx : nx2 = nx := by
    rw [hx] at hx2
    simp only [Option.some.injEq, Node.mk.injEq, true_and] at hx2
    exact hx2.symm
  subst hnx
  have hl1a : l < s1.lists.length := by rw [hl1]; exact hl
  have hit : (⟨toRef nx2⟩ : BasicIterator) = ⟨(addrs (cs l))[k + 1]?.map NodeRef.cell⟩ := by
    rw [seg_head hsuf]
    simp [addrs, List.head?_drop]
  have hL1 : s1.lists[l]? = some s1.lists[l] := List.getElem?_eq_getElem hl1a
  have hchain1 := hI1.shape.chain l _ hL1
  rw [Function.update_same] at hchain1
  obtain ⟨nx3, hnext3, _, hsuf3⟩ := nextOf_split hL1 hchain1 hsp
  have hnext3a : s1.nextOf r = some nx3 := hnext3
  refine ⟨s1, ⟨toRef nx2⟩, (cs l).length - 1, by rw [hpos]; exact hrun, ?_, ?_, ?_, hit, ?_, ?_⟩
  · rw [hI1.shape.toList_eq hl1a, Function.update_same]
    simp [vals, List.map_take, List.map_drop]
  · rw [getSize_eq hI hl]
    congr 1
    omega
  · rw [getSize_eq hI1 hl1a, Function.update_same]
    congr 1
    simp only [List.length_append, List.length_take, List.length_drop]
    omega
  · intro hlast
    rw [hit]
    have : (addrs (cs l))[k + 1]? = none :=
      List.getElem?_eq_none (by simp [addrs]; omega)
    rw [this]
    rfl
  · rw [hpos]
    simp only [incr, hnext3a, Option.map_some']
    rw [seg_head hsuf3, seg_head hsuf]

theorem EraseAfter_erases_witness :
    WF demo2 ∧ 0 < demo2.lists.length ∧ nodes demo2 0 = some [(0, 1), (1, 2), (2, 3)] ∧
      1 < [(0, 1), (1, 2), (2, 3)].length ∧
      ∃ s1 it n, EraseAfter demo2 0 (posAt [(0, 1), (1, 2), (2, 3)] 0 1) = .ok s1 it ∧
        toList s1 0 = some [1, 3] ∧ GetSize demo2 0 = some (n + 1) ∧ GetSize s1 0 = some n :=
  ⟨reachable_wf demo2_reachable, by decide, rfl, by decide,
    match EraseAfter_erases demo2 (reachable_wf demo2_reachable) 0 (by decide)
      [(0, 1), (1, 2), (2, 3)] rfl 1 (by decide) with
    | ⟨s1, it, n, h1, h2, h3, h4, _⟩ => ⟨s1, it, n, h1, h2, h3, h4⟩⟩

/-- The traversal that recomputes the size in `Copy` counts one per copied
element. -/
theorem Copy_recount {It : Type} {io : InputIt T It} {last : It} {F : List Nat}
    {D : List (Option (Node T)) → It → List T → Prop} (hR : Reads io last F D)
    {s : State T} {cs : Nat → List (Nat × T)} (hI : Inv s cs)
    {f : It} {v : List T} (hD : D s.heap f v)
    (hF : ∀ a ∈ F, ∃ k, k < s.lists.length ∧ a ∈ addrs (cs k))
    (hle : v.length ≤ countFree s.heap) :
    ∃ s1 b, Copy.loop io ((ctor s).heap.length + 1) (ctor s) (.head s.lists.length) f last =
        .ok s1 () ∧ begin s1 s.lists.length = some b ∧
      distance s1 (s1.heap.length + 1) b end_ = .ok v.length := by
  have hI0 := ctor_inv hI
  have htmp : cs s.lists.length = [] := hI.shape.out _ (le_refl _)
  obtain ⟨s1, b, hres, hS1, hlen1, hlists1, hother1, hsz1⟩ :=
    Copy_loop_spec hR s.lists.length v ((ctor s).heap.length + 1) (ctor s) cs
      (.head s.lists.length) f hI0.shape (by simp [ctor]) (Or.inl ⟨rfl, htmp⟩) hD
      (fun a ha => by
        obtain ⟨k, hk, hak⟩ := hF a ha
        exact ⟨k, by omega, hak⟩)
      (by have := countFree_le (ctor s).heap; omega)
  rw [htmp, List.nil_append] at hS1
  obtain ⟨lists1, heap1⟩ := s1
  have hlists1a : lists1.length = s.lists.length + 1 := by
    simpa [ctor] using hlists1
  rcases hres with ⟨_, hrun, hv⟩ | ⟨hlt, _⟩
  · have htl : s.lists.length < lists1.length := by omega
    have hL1 : lists1[s.lists.length]? = some lists1[s.lists.length] :=
      List.getElem?_eq_getElem htl
    have hch1 := hS1.chain _ _ hL1
    rw [Function.update_same] at hch1
    have hbl : b.length ≤ heap1.length := by
      have := hS1.length_le s.lists.length
      rwa [Function.update_same] at this
    have hdist := distance_spec (m := lists1) (heap1.length + 1) _ hch1 (by omega)
    have hbv : b.length = v.length := by rw [← hv]; simp [vals]
    rw [hbv] at hdist
    exact ⟨_, _, hrun, by simp [begin, hL1], hdist⟩
  · simp only [ctor] at hlt
    omega

/-- C7: for every sequence of values, empty or not, the initializer-list
constructor, when the free cells suffice, returns a new list object whose
traversal sequence is exactly that sequence, in order, and whose GetSize() is
its length; and the size recomputed inside `Copy`, by std::distance over the
temporary chain after the loop, is the number of elements the loop copied. -/
theorem ctor_init_builds (s : State T) (hwf : WF s) (values : List T)
    (hmem : values.length ≤ countFree s.heap) :
    (∃ s1, ctor_init s values = .ok s1 () ∧ s1.lists.length = s.lists.length + 1 ∧
      toList s1 s.lists.length = some values ∧
      GetSize s1 s.lists.length = some values.length) ∧
    (∃ s2 b, Copy.loop ptrIt ((ctor (ctor s)).heap.length + 1) (ctor (ctor s))
        (.head (ctor s).lists.length) values [] = .ok s2 () ∧
      begin s2 (ctor s).lists.length = some b ∧
      distance s2 (s2.heap.length + 1) b end_ = .ok values.length) := by
  obtain ⟨cs, hI⟩ := hwf
  constructor
  · obtain ⟨s1, b, hrun, hv, hI1, hl1, _⟩ := (ctor_init_spec hI values).1 hmem
    have hlt : s.lists.length < s1.lists.length := by omega
    refine ⟨s1, hrun, hl1, ?_, ?_⟩
    · rw [hI1.shape.toList_eq hlt, Function.update_same, hv]
    · rw [getSize_eq hI1 hlt, Function.update_same, ← hv]
      simp [vals]
  · exact Copy_recount reads_ptrIt (ctor_inv hI) (show ptrReads (ctor s).heap values values from rfl)
      (fun a ha => by simp at ha) hmem

theorem ctor_init_builds_witness :
    WF (State.init Nat 4) ∧ [5, 6, 7].length ≤ countFree (State.init Nat 4).heap ∧
      ∃ s1, ctor_init (State.init Nat 4) [5, 6, 7] = .ok s1 () ∧
        s1.lists.length = (State.init Nat 4).lists.length + 1 ∧
        toList s1 (State.init Nat 4).lists.length = some [5, 6, 7] ∧
        GetSize s1 (State.init Nat 4).lists.length = some [5, 6, 7].length :=
  ⟨reachable_wf (Reachable.init 4 (by decide)), by decide,
    (ctor_init_builds (State.init Nat 4) (reachable_wf (Reachable.init 4 (by decide))) [5, 6, 7]
      (by decide)).1⟩

/-- C8: for lists A and B, distinct objects, the copy assignment A = B, when the
free cells suffice for the copy, returns; afterwards A has the traversal
sequence and the size B had before, and B's sequence and size are unchanged.
The self-assignment L = L returns and leaves the whole state, so L's size and
sequence, unchanged. -/
theorem assign_copies (s : State T) (hwf : WF s) (a b : Nat) (ha : a < s.lists.length)
    (hb : b < s.lists.length) :
    (a ≠ b → (∃ n, GetSize s b = some n ∧ n ≤ countFree s.heap) →
      ∃ s1 xs n, assign s a b = .ok s1 () ∧ toList s b = some xs ∧ GetSize s b = some n ∧
        toList s1 a = some xs ∧ GetSize s1 a = some n ∧
        toList s1 b = some xs ∧ GetSize s1 b = some n) ∧
    assign s a a = .ok s () := by
  obtain ⟨cs, hI⟩ := hwf
  refine ⟨?_, by simp [assign]⟩
  rintro hne ⟨n, hn, hle⟩
  rw [getSize_eq hI hb] at hn
  cases hn
  obtain ⟨s1, c, hrun, hv, hI1, hl1, _⟩ := (assign_spec hI ha hb hne).1 hle
  have ha1 : a < s1.lists.length := by rw [hl1]; exact ha
  have hb1 : b < s1.lists.length := by rw [hl1]; exact hb
  refine ⟨s1, vals (cs b), (cs b).length, hrun, hI.shape.toList_eq hb, getSize_eq hI hb, ?_, ?_,
    ?_, ?_⟩
  · rw [hI1.shape.toList_eq ha1, Function.update_same, hv]
  · rw [getSize_eq hI1 ha1, Function.update_same]
    congr 1
    have := congrArg List.length hv
    simpa [vals] using this
  · rw [hI1.shape.toList_eq hb1, Function.update_noteq (Ne.symm hne)]
  · rw [getSize_eq hI1 hb1, Function.update_noteq (Ne.symm hne)]

theorem assign_copies_witness :
    WF demo2 ∧ 0 < demo2.lists.length ∧ 1 < demo2.lists.length ∧ (0 : Nat) ≠ 1 ∧
      (∃ n, GetSize demo2 1 = some n ∧ n ≤ countFree demo2.heap) ∧
      (∃ s1 xs n, assign demo2 0 1 = .ok s1 () ∧ toList demo2 1 = some xs ∧
        GetSize demo2 1 = some n ∧ toList s1 0 = some xs ∧ GetSize s1 0 = some n ∧
        toList s1 1 = some xs ∧ GetSize s1 1 = some n) ∧
      assign demo2 0 0 = .ok demo2 () :=
  ⟨reachable_wf demo2_reachable, by decide, by decide, by decide, ⟨1, rfl, by decide⟩,
    (assign_copies demo2 (reachable_wf demo2_reachable) 0 1 (by decide) (by decide)).1
      (by decide) ⟨1, rfl, by decide⟩,
    (assign_copies demo2 (reachable_wf demo2_reachable) 0 1 (by decide) (by decide)).2⟩

/-- A call on list `l` changes the chain of `l` only. -/
theorem step_frame {s s1 : State T} {cs : Nat → List (Nat × T)} (hI : Inv s cs) {l : Nat}
    (op : Op T) (hon : op.mutates l) (hpre : op.pre s)
    (hrun : (op.run s).state? = some s1) :
    ∃ c1, Inv s1 (Function.update cs l c1) ∧ s1.lists.length = s.lists.length := by
  have hsame : Inv s (Function.update cs l (cs l)) := by
    rw [Function.update_eq_self]; exact hI
  cases op with
  | ctor => exact absurd hon (by simp [Op.mutates])
  | ctor_init values => exact absurd hon (by simp [Op.mutates])
  | ctor_copy other => exact absurd hon (by simp [Op.mutates])
  | assign k rhs => exact absurd hon (by simp [Op.mutates])
  | swap k other => exact absurd hon (by simp [Op.mutates])
  | PushFront k value =>
    have hk : k = l := hon
    subst hk
    have hl : k < s.lists.length := hpre
    cases ha : firstFree s.heap with
    | none =>
      have hL : s.lists[k]? = some s.lists[k] := List.getElem?_eq_getElem hl
      simp only [Op.run, PushFront, hL, ha, Res.state?, Option.some.injEq] at hrun
      subst hrun
      exact ⟨_, hsame, rfl⟩
    | some a =>
      obtain ⟨s2, h1, hI2, hl2, _⟩ := PushFront_spec hI hl value ha
      simp only [Op.run, h1, Res.state?, Option.some.injEq] at hrun
      subst hrun
      exact ⟨_, hI2, hl2⟩
  | PopFront k =>
    have hk : k = l := hon
    subst hk
    obtain ⟨s2, h1, hI2, hl2, _⟩ := PopFront_spec hI (l := k) hpre
    simp only [Op.run, h1, Res.state?, Option.some.injEq] at hrun
    subst hrun
    exact ⟨_, hI2, hl2⟩
  | InsertAfter k pos value =>
    have hk : k = l := hon
    subst hk
    obtain ⟨hl, hown⟩ := hpre
    obtain ⟨r, pre, suf, rfl, hc, hsp⟩ := owns_split hI.shape hl hown
    cases ha : firstFree s.heap with
    | none =>
      have hL : s.lists[k]? = some s.lists[k] := List.getElem?_eq_getElem hl
      simp only [Op.run, InsertAfter, hL, ha, Res.void, Res.state?, Option.some.injEq] at hrun
      subst hrun
      exact ⟨_, hsame, rfl⟩
    | some a =>
      obtain ⟨s2, nx, h1, hI2, hl2, _⟩ := InsertAfter_core hI hl hc hsp value ha
      simp only [Op.run, h1, Res.void, Res.state?, Option.some.injEq] at hrun
      subst hrun
      exact ⟨_, hI2, hl2⟩
  | EraseAfter k pos =>
    have hk : k = l := hon
    subst hk
    obtain ⟨hl, hown, hsucc⟩ := hpre
    obtain ⟨r, pre, suf, rfl, hc, hsp⟩ := owns_split hI.shape hl hown
    have hL : s.lists[k]? = some s.lists[k] := List.getElem?_eq_getElem hl
    have hch := hI.shape.chain k _ hL
    rw [hc] at hch
    obtain ⟨nx, hnext, _, hsuf⟩ := nextOf_split hL hch hsp
    cases suf with
    | nil =>
      have : nx = none := hsuf
      subst this
      have hnext1 : s.nextOf r = some none := hnext
      simp [HasSucc, hnext1] at hsucc
    | cons x suf =>
      obtain ⟨s2, nx2, h1, hI2, hl2, _⟩ := EraseAfter_core hI hl hc hsp
      simp only [Op.run, h1, Res.void, Res.state?, Option.some.injEq] at hrun
      subst hrun
      exact ⟨_, hI2, hl2⟩
  | Clear k =>
    have hk : k = l := hon
    subst hk
    obtain ⟨s2, h1, hI2, hl2, _⟩ := Clear_spec hI (l := k) hpre
    simp only [Op.run, h1, Res.state?, Option.some.injEq] at hrun
    subst hrun
    exact ⟨_, hI2, by rw [hl2]; simp⟩

theorem mutated_frame {l : Nat} {s s1 : State T} (hm : Mutated l s s1) :
    ∀ cs : Nat → List (Nat × T), Inv s cs →
      ∃ c1, Inv s1 (Function.update cs l c1) ∧ s1.lists.length = s.lists.length := by
  induction hm with
  | refl s =>
    intro cs hI
    exact ⟨cs l, by rw [Function.update_eq_self]; exact hI, rfl⟩
  | step op hon hpre hrun _ ih =>
    intro cs hI
    obtain ⟨c1, hI1, hl1⟩ := step_frame hI op hon hpre hrun
    obtain ⟨c2, hI2, hl2⟩ := ih _ hI1
    rw [Function.update_idem] at hI2
    exact ⟨c2, hI2, by rw [hl2, hl1]⟩

/-- C9: if L2 is copy-constructed from L1 (the constructor returns) and L2 is
then changed by any sequence of PushFront, PopFront, InsertAfter, EraseAfter
(at positions of L2, EraseAfter's with a successor) and Clear, the traversal
sequence and the size of L1 are what they were before the copy.  Right after
the copy L2 holds L1's sequence, and no node of L1 is a node of L2. -/
theorem copy_is_independent (s : State T) (hwf : WF s) (l1 : Nat) (hl1 : l1 < s.lists.length)
    (s1 : State T) (hcopy : ctor_copy s l1 = .ok s1 ()) (s2 : State T)
    (hmut : Mutated s.lists.length s1 s2) :
    (∃ xs n, toList s l1 = some xs ∧ GetSize s l1 = some n ∧
      toList s2 l1 = some xs ∧ GetSize s2 l1 = some n ∧
      toList s1 s.lists.length = some xs) ∧
    (∃ c1 c2, nodes s1 l1 = some c1 ∧ nodes s1 s.lists.length = some c2 ∧
      ∀ a ∈ addrs c1, a ∉ addrs c2) := by
  obtain ⟨cs, hI⟩ := hwf
  obtain ⟨hok, hbad⟩ := ctor_copy_spec hI hl1
  by_cases hle : (cs l1).length ≤ countFree s.heap
  · obtain ⟨s1a, b, hrun, hv, hI1, hlen1, _⟩ := hok hle
    rw [hrun] at hcopy
    have hs : s1 = s1a := by
      injection hcopy with h1 _
      exact h1.symm
    subst hs
    obtain ⟨c2, hI2, hlen2⟩ := mutated_frame hmut _ hI1
    rw [Function.update_idem] at hI2
    have hne : l1 ≠ s.lists.length := by omega
    have h1a : l1 < s1.lists.length := by omega
    have h1b : s.lists.length < s1.lists.length := by omega
    have h2a : l1 < s2.lists.length := by omega
    refine ⟨⟨vals (cs l1), (cs l1).length, hI.shape.toList_eq hl1, getSize_eq hI hl1, ?_, ?_, ?_⟩,
      cs l1, b, ?_, ?_, ?_⟩
    · rw [hI2.shape.toList_eq h2a, Function.update_noteq hne]
    · rw [getSize_eq hI2 h2a, Function.update_noteq hne]
    · rw [hI1.shape.toList_eq h1b, Function.update_same, hv]
    · rw [hI1.shape.nodes_eq h1a, Function.update_noteq hne]
    · rw [hI1.shape.nodes_eq h1b, Function.update_same]
    · intro a ha hab
      apply hne
      apply hI1.shape.disj l1 s.lists.length a
      · rw [Function.update_noteq hne]; exact ha
      · rw [Function.update_same]; exact hab
  · obtain ⟨s1a, hrun, _⟩ := hbad (by omega)
    rw [hrun] at hcopy
    cases hcopy

theorem copy_is_independent_witness :
    WF demo2 ∧ 1 < demo2.lists.length ∧ ctor_copy demo2 1 = .ok demo2Copy () ∧
      Mutated demo2.lists.length demo2Copy demo2Mut ∧
      ∃ xs n, toList demo2 1 = some xs ∧ GetSize demo2 1 = some n ∧
        toList demo2Mut 1 = some xs ∧ GetSize demo2Mut 1 = some n ∧
        toList demo2Copy demo2.lists.length = some xs :=
  have hmut : Mutated demo2.lists.length demo2Copy demo2Mut :=
    Mutated.step (.PushFront 2 9) rfl (by decide) rfl
      (Mutated.step (.Clear 2) rfl (by decide) rfl (Mutated.refl _))
  ⟨reachable_wf demo2_reachable, by decide, rfl, hmut,
    (copy_is_independent demo2 (reachable_wf demo2_reachable) 1 (by decide) demo2Copy rfl
      demo2Mut hmut).1⟩

theorem swap_lists {s : State T} {a b : Nat} (ha : a < s.lists.length)
    (hb : b < s.lists.length) :
    ∃ s1, swap s a b = .ok s1 () ∧ s1.heap = s.heap ∧
      s1.lists[a]? = s.lists[b]? ∧ s1.lists[b]? = s.lists[a]? ∧
      ∀ k, s1.lists[k]? = s.lists[Equiv.swap a b k]? := by
  have hA : s.lists[a]? = some s.lists[a] := List.getElem?_eq_getElem ha
  have hB : s.lists[b]? = some s.lists[b] := List.getElem?_eq_getElem hb
  have hget : ∀ k, ((s.lists.set a s.lists[b]).set b s.lists[a])[k]? =
      s.lists[Equiv.swap a b k]? := by
    intro k
    by_cases hkb : k = b
    · subst hkb
      rw [List.getElem?_set_self (by simpa using hb), Equiv.swap_apply_right, hA]
    · rw [List.getElem?_set_ne (Ne.symm hkb)]
      by_cases hka : k = a
      · subst hka
        rw [List.getElem?_set_self ha, Equiv.swap_apply_left, hB]
      · rw [List.getElem?_set_ne (Ne.symm hka), Equiv.swap_apply_of_ne_of_ne hka hkb]
  refine ⟨⟨(s.lists.set a s.lists[b]).set b s.lists[a], s.heap⟩, by simp only [swap, hA, hB],
    rfl, ?_, ?_, hget⟩
  · rw [hget, Equiv.swap_apply_left]
  · rw [hget, Equiv.swap_apply_right]

/-- C10: for lists A and B, swap(A, B), the free function that calls the
member swap, returns and leaves A with the traversal sequence and the size B
had, and B with those A had; a second swap(A, B) returns the state the first
one started from, so the sequence and the size of both lists are restored. -/
theorem swap_exchanges_and_restores (s : State T) (a b : Nat) (ha : a < s.lists.length)
    (hb : b < s.lists.length) :
    ∃ s1, free_swap s a b = .ok s1 () ∧
      toList s1 a = toList s b ∧ GetSize s1 a = GetSize s b ∧
      toList s1 b = toList s a ∧ GetSize s1 b = GetSize s a ∧
      free_swap s1 a b = .ok s () ∧
      free_swap s a b = swap s a b := by
  obtain ⟨s1, hrun, hheap, hA, hB, hall⟩ := swap_lists ha hb
  have hlen : s1.lists.length = s.lists.length := by
    have h1 : s1.lists[s.lists.length]? = none := by
      rw [hall, Equiv.swap_apply_of_ne_of_ne (by omega) (by omega)]
      exact List.getElem?_eq_none (le_refl _)
    have h2 := List.getElem?_eq_none_iff.mp h1
    by_contra hne
    have hlt : s1.lists.length < s.lists.length := by omega
    have h4 : s1.lists[s1.lists.length]? = none := List.getElem?_eq_none (le_refl _)
    rw [hall] at h4
    have h5 : (Equiv.swap a b) s1.lists.length < s.lists.length := by
      by_cases h6 : s1.lists.length = a
      · rw [h6, Equiv.swap_apply_left]; exact hb
      · by_cases h7 : s1.lists.length = b
        · rw [h7, Equiv.swap_apply_right]; exact ha
        · rw [Equiv.swap_apply_of_ne_of_ne h6 h7]; exact hlt
    rw [List.getElem?_eq_getElem h5] at h4
    cases h4
  obtain ⟨s2, hrun2, hheap2, _, _, hall2⟩ :=
    swap_lists (s := s1) (a := a) (b := b) (by omega) (by omega)
  have hs2 : s2 = s := by
    obtain ⟨l2, h2⟩ := s2
    obtain ⟨l0, h0⟩ := s
    simp only at hheap hheap2 hall hall2
    have hl : l2 = l0 := by
      apply List.ext_getElem?
      intro k
      rw [hall2, hall, Equiv.swap_apply_self]
    rw [hl, hheap2, hheap]
  rw [hs2] at hrun2
  refine ⟨s1, hrun, ?_, ?_, ?_, ?_, hrun2, rfl⟩
  · simp only [toList, nodes, hA, hheap]
  · simp only [GetSize, hA]
  · simp only [toList, nodes, hB, hheap]
  · simp only [GetSize, hB]

theorem swap_exchanges_and_restores_witness :
    0 < demo2.lists.length ∧ 1 < demo2.lists.length ∧
      ∃ s1, free_swap demo2 0 1 = .ok s1 () ∧
        toList s1 0 = toList demo2 1 ∧ GetSize s1 0 = GetSize demo2 1 ∧
        toList s1 1 = toList demo2 0 ∧ GetSize s1 1 = GetSize demo2 0 ∧
        free_swap s1 0 1 = .ok demo2 () ∧ free_swap demo2 0 1 = swap demo2 0 1 :=
  ⟨by decide, by decide, swap_exchanges_and_restores demo2 0 1 (by decide) (by decide)⟩

/-! ## The fuel of the loops is never what stops them -/

theorem countLive_free (h : List (Option (Node T))) (a : Nat) (n : Node T)
    (ha : h[a]? = some (some n)) : countLive (h.set a none) + 1 = countLive h := by
  induction h generalizing a with
  | nil => simp at ha
  | cons x h ih =>
    cases a with
    | zero =>
      simp only [List.getElem?_cons_zero, Option.some.injEq] at ha
      subst ha
      simp [countLive]
    | succ a =>
      simp only [List.getElem?_cons_succ] at ha
      cases x with
      | none => simp only [List.set_cons_succ, countLive]; exact ih a ha
      | some y => simp only [List.set_cons_succ, countLive]; rw [← ih a ha]

theorem countLive_le (h : List (Option (Node T))) : countLive h ≤ h.length := by
  induction h with
  | nil => simp [countLive]
  | cons x h ih =>
    cases x with
    | none => simp only [countLive, List.length_cons]; omega
    | some y => simp only [countLive, List.length_cons]; omega

theorem Clear_loop_total :
    ∀ (fuel : Nat) (s : State T) (p : Option Nat), countLive s.heap < fuel →
      Clear.loop fuel s p ≠ .timeout := by
  intro fuel
  induction fuel with
  | zero => intro s p h; omega
  | succ f ih =>
    intro s p h
    cases p with
    | none => simp [Clear.loop]
    | some cur =>
      simp only [Clear.loop]
      split
      · next n hn =>
        apply ih
        have := countLive_free s.heap cur n hn
        simp only
        omega
      · simp

/-- In every state `Clear` returns or runs into undefined behaviour: its loop
is not cut short by the fuel. -/
theorem Clear_total (s : State T) (l : Nat) : Clear s l ≠ .timeout := by
  simp only [Clear]
  cases hL : s.lists[l]? with
  | none => simp
  | some L =>
    have h := Clear_loop_total (s.heap.length + 1) s L.head_next
      (by have := countLive_le s.heap; omega)
    cases hr : Clear.loop (s.heap.length + 1) s L.head_next with
    | ok s1 r => simp [hr]
    | bad_alloc s1 => simp [hr]
    | ub => simp [hr]
    | timeout => exact absurd hr h

/-- In every state the loop of `Copy` returns, throws or runs into undefined
behaviour: it is not cut short by the fuel `Copy` gives it. -/
theorem Copy_loop_total {It : Type} (io : InputIt T It) :
    ∀ (fuel : Nat) (s : State T) (current : NodeRef) (first last : It),
      countFree s.heap < fuel → Copy.loop io fuel s current first last ≠ .timeout := by
  intro fuel
  induction fuel with
  | zero => intro s current first last h; omega
  | succ f ih =>
    intro s current first last h
    simp only [Copy.loop]
    split
    · split
      · simp
      · next a ha =>
        split
        · simp
        · next v hv =>
          split
          · simp
          · next s2 hs2 =>
            split
            · simp
            · next first1 hf =>
              apply ih
              have h1 := countFree_setNext hs2
              have h2 := countFree_alloc s.heap a ⟨v, none⟩ (firstFree_spec _ _ ha)
              simp only at h1
              omega
    · simp

/-! ## The claims, continued -/

theorem set_same {α : Type} (xs : List α) (i : Nat) (x : α) (h : xs[i]? = some x) :
    xs.set i x = xs := by
  apply List.ext_getElem?
  intro k
  by_cases hk : i = k
  · subst hk
    rw [List.getElem?_set_self (List.getElem?_eq_some.mp h).1, h]
  · rw [List.getElem?_set_ne hk]

/-- C11: for every list L, empty or not, and every value v, PushFront(v), when
a node can be allocated, followed by PopFront() returns L to its prior state:
the whole program state is the one before the PushFront, so GetSize() and the
traversal sequence are the same as before. -/
theorem PushFront_PopFront_restores (s : State T) (hwf : WF s) (l : Nat)
    (hl : l < s.lists.length) (v : T) (hfree : firstFree s.heap ≠ none) :
    ∃ s1 s2, PushFront s l v = .ok s1 () ∧ PopFront s1 l = .ok s2 () ∧ s2 = s ∧
      GetSize s2 l = GetSize s l ∧ toList s2 l = toList s l := by
  obtain ⟨cs, hI⟩ := hwf
  obtain ⟨lists, heap⟩ := s
  simp only at hl hfree
  have hL : lists[l]? = some lists[l] := List.getElem?_eq_getElem hl
  have hsz := hI.size l _ hL
  have hlt := hI.length_lt l
  cases ha : firstFree heap with
  | none => exact absurd ha hfree
  | some a =>
    have hfr := firstFree_spec _ _ ha
    have halt := firstFree_lt _ _ ha
    have hinc : (lists[l].size_ + 1) % SIZE_MOD = (cs l).length + 1 := by
      rw [hsz]; exact size_inc hlt
    have hdec : ((cs l).length + 1 + SIZE_MOD - 1) % SIZE_MOD = lists[l].size_ := by
      rw [hsz]; exact size_dec hlt
    have hheap : (heap.set a (some ⟨v, lists[l].head_next⟩)).set a none = heap := by
      rw [List.set_set]
      exact set_same heap a none hfr
    have hlists : (lists.set l ⟨some a, (cs l).length + 1⟩).set l
        ⟨lists[l].head_next, lists[l].size_⟩ = lists := by
      rw [List.set_set]
      exact set_same lists l _ hL
    refine ⟨⟨lists.set l ⟨some a, (lists[l].size_ + 1) % SIZE_MOD⟩,
      heap.set a (some ⟨v, lists[l].head_next⟩)⟩, ⟨lists, heap⟩, ?_, ?_, rfl, rfl, rfl⟩
    · simp only [PushFront, hL, ha]
    · simp only [PopFront, List.getElem?_set_self hl, hinc, ne_eq, Nat.add_one_ne_zero,
        not_false_eq_true, if_true, List.getElem?_set_self halt, hdec, hheap, hlists]

theorem PushFront_PopFront_restores_witness :
    WF demo2 ∧ 1 < demo2.lists.length ∧ firstFree demo2.heap ≠ none ∧
      ∃ s1 s2, PushFront demo2 1 5 = .ok s1 () ∧ PopFront s1 1 = .ok s2 () ∧ s2 = demo2 ∧
        GetSize s2 1 = GetSize demo2 1 ∧ toList s2 1 = toList demo2 1 :=
  ⟨reachable_wf demo2_reachable, by decide, by decide,
    PushFront_PopFront_restores demo2 (reachable_wf demo2_reachable) 1 (by decide) 5 (by decide)⟩

/-- In every state, InsertAfter at `before_begin()` and PushFront have the same
outcome: the same new state, or both bad_alloc. -/
theorem InsertAfter_head_void (s : State T) (l : Nat) (v : T) :
    (InsertAfter s l (before_begin l) v).void = PushFront s l v := by
  cases hL : s.lists[l]? with
  | none => simp [InsertAfter, PushFront, hL, Res.void]
  | some L =>
    have hl : l < s.lists.length := (List.getElem?_eq_some.mp hL).1
    cases ha : firstFree s.heap with
    | none => simp [InsertAfter, PushFront, hL, ha, before_begin, Res.void]
    | some a =>
      simp only [InsertAfter, hL, before_begin, ha, State.nextOf, Option.map_some',
        State.setNext, State.setSize, List.getElem?_set_self hl, List.set_set, PushFront,
        Res.void]

/-- C12: for every list L and every value v, InsertAfter(before_begin(), v) and
PushFront(v) applied to L have the same outcome; when a node can be allocated
both return the same state, in which the traversal sequence is v followed by
L's former sequence and GetSize() is one more than before. -/
theorem InsertAfter_before_begin_is_PushFront (s : State T) (hwf : WF s) (l : Nat)
    (hl : l < s.lists.length) (v : T) (hfree : firstFree s.heap ≠ none) :
    (InsertAfter s l (before_begin l) v).void = PushFront s l v ∧
    ∃ s1 it xs n, InsertAfter s l (before_begin l) v = .ok s1 it ∧
      PushFront s l v = .ok s1 () ∧ toList s l = some xs ∧ GetSize s l = some n ∧
      toList s1 l = some (v :: xs) ∧ GetSize s1 l = some (n + 1) := by
  obtain ⟨cs, hI⟩ := hwf
  have hL : s.lists[l]? = some s.lists[l] := List.getElem?_eq_getElem hl
  cases ha : firstFree s.heap with
  | none => exact absurd ha hfree
  | some a =>
    obtain ⟨s1, hrun, hI1, hl1, _⟩ := PushFront_spec hI hl v ha
    have hl1a : l < s1.lists.length := by rw [hl1]; exact hl
    have hins : InsertAfter s l (before_begin l) v = .ok s1 ⟨some (.cell a)⟩ := by
      simp only [PushFront, hL, ha, Res.ok.injEq, and_true] at hrun
      subst hrun
      simp only [InsertAfter, hL, before_begin, ha, State.nextOf, Option.map_some',
        State.setNext, State.setSize, List.getElem?_set_self hl, List.set_set]
    refine ⟨InsertAfter_head_void s l v, s1, _, vals (cs l), (cs l).length, hins, hrun,
      hI.shape.toList_eq hl, getSize_eq hI hl, ?_, ?_⟩
    · rw [hI1.shape.toList_eq hl1a, Function.update_same]
      rfl
    · rw [getSize_eq hI1 hl1a, Function.update_same]
      rfl

theorem InsertAfter_before_begin_is_PushFront_witness :
    WF demo2 ∧ 0 < demo2.lists.length ∧ firstFree demo2.heap ≠ none ∧
      (InsertAfter demo2 0 (before_begin 0) 9).void = PushFront demo2 0 9 ∧
      ∃ s1 it xs n, InsertAfter demo2 0 (before_begin 0) 9 = .ok s1 it ∧
        PushFront demo2 0 9 = .ok s1 () ∧ toList demo2 0 = some xs ∧
        GetSize demo2 0 = some n ∧ toList s1 0 = some (9 :: xs) ∧
        GetSize s1 0 = some (n + 1) :=
  ⟨reachable_wf demo2_reachable, by decide, by decide,
    InsertAfter_before_begin_is_PushFront demo2 (reachable_wf demo2_reachable) 0 (by decide) 9
      (by decide)⟩

/-- C13: for a list L with nodes `ch`, the position `p` after `k` of its nodes
(`before_begin()` or a real node) and a value v, InsertAfter(p, v), when a
node can be allocated, followed at once by EraseAfter(p): both calls return,
the size and the traversal sequence of L are the ones before the two calls, and
the iterator EraseAfter returns references `p`'s original successor (what
advancing `p` yielded before the calls), which is end() when `p` was the last
node. -/
theorem InsertAfter_EraseAfter_roundtrip (s : State T) (hwf : WF s) (l : Nat)
    (hl : l < s.lists.length) (ch : List (Nat × T)) (hch : nodes s l = some ch) (k : Nat)
    (hk : k ≤ ch.length) (v : T) (hfree : firstFree s.heap ≠ none) :
    ∃ s1 it s2 it2, InsertAfter s l (posAt ch l k) v = .ok s1 it ∧
      EraseAfter s1 l (posAt ch l k) = .ok s2 it2 ∧
      toList s2 l = toList s l ∧ GetSize s2 l = GetSize s l ∧
      incr s (posAt ch l k) = some it2 ∧ it2 = posAt ch l (k + 1) ∧
      (k = ch.length → it2 = end_) := by
  obtain ⟨cs, hI⟩ := hwf
  have hcs := nodes_unique hI.shape hl hch
  subst hcs
  obtain ⟨r, hr, hsp⟩ := splitAt_posAt (cs l) l k hk
  have hpos : posAt (cs l) l k = ⟨some r⟩ := by
    cases hp : posAt (cs l) l k with
    | mk node => rw [hp] at hr; simp only at hr; rw [hr]
  have hc : cs l = (cs l).take k ++ (cs l).drop k := (List.take_append_drop k _).symm
  cases ha : firstFree s.heap with
  | none => exact absurd ha hfree
  | some a =>
    obtain ⟨s1, nx, hrun, hI1, hl1, hh1, hnext, ha1⟩ := InsertAfter_core hI hl hc hsp v ha
    have hl1a : l < s1.lists.length := by rw [hl1]; exact hl
    obtain ⟨s2, nx2, hrun2, hI2, hl2, _, hx2, _⟩ :=
      EraseAfter_core hI1 hl1a (Function.update_same l _ cs) hsp
    have hnx : nx2 = nx := by
      have h3 : s1.heap[a]? = some (some ⟨v, nx2⟩) := hx2
      rw [ha1] at h3
      simp only [Option.some.injEq, Node.mk.injEq, true_and] at h3
      exact h3.symm
    subst hnx
    rw [Function.update_idem, ← hc, Function.update_eq_self] at hI2
    have hl2a : l < s2.lists.length := by rw [hl2]; exact hl1a
    have hL : s.lists[l]? = some s.lists[l] := List.getElem?_eq_getElem hl
    have hchain := hI.shape.chain l _ hL
    rw [hc] at hchain
    obtain ⟨nx3, hnext3, _, hsuf⟩ := nextOf_split hL hchain hsp
    have hnx3 : nx3 = nx2 := by
      have h3 : s.nextOf r = some nx3 := hnext3
      rw [hnext] at h3
      exact (Option.some.inj h3).symm
    subst hnx3
    have hit : (⟨toRef nx3⟩ : BasicIterator) = posAt (cs l) l (k + 1) := by
      rw [posAt_succ, seg_head hsuf]
    refine ⟨s1, _, s2, ⟨toRef nx3⟩, by rw [hpos]; exact hrun, by rw [hpos]; exact hrun2, ?_, ?_,
      ?_, hit, ?_⟩
    · rw [hI2.shape.toList_eq hl2a, hI.shape.toList_eq hl]
    · rw [getSize_eq hI2 hl2a, getSize_eq hI hl]
    · rw [hpos]
      simp [incr, hnext]
    · intro hlast
      rw [hit]
      have : (addrs (cs l))[k]? = none := List.getElem?_eq_none (by simp [addrs]; omega)
      simp only [posAt, this]
      rfl

theorem InsertAfter_EraseAfter_roundtrip_witness :
    WF demo2 ∧ 0 < demo2.lists.length ∧ nodes demo2 0 = some [(0, 1), (1, 2), (2, 3)] ∧
      3 ≤ [(0, 1), (1, 2), (2, 3)].length ∧ firstFree demo2.heap ≠ none ∧
      ∃ s1 it s2 it2, InsertAfter demo2 0 (posAt [(0, 1), (1, 2), (2, 3)] 0 3) 8 = .ok s1 it ∧
        EraseAfter s1 0 (posAt [(0, 1), (1, 2), (2, 3)] 0 3) = .ok s2 it2 ∧
        toList s2 0 = toList demo2 0 ∧ GetSize s2 0 = GetSize demo2 0 ∧
        incr demo2 (posAt [(0, 1), (1, 2), (2, 3)] 0 3) = some it2 ∧
        it2 = posAt [(0, 1), (1, 2), (2, 3)] 0 (3 + 1) ∧
        (3 = [(0, 1), (1, 2), (2, 3)].length → it2 = end_) :=
  ⟨reachable_wf demo2_reachable, by decide, rfl, by decide, by decide,
    InsertAfter_EraseAfter_roundtrip demo2 (reachable_wf demo2_reachable) 0 (by decide)
      [(0, 1), (1, 2), (2, 3)] rfl 3 (by decide) 8 (by decide)⟩

theorem firstFree_of_countFree (h : List (Option (Node T))) (hpos : 0 < countFree h) :
    firstFree h ≠ none := by
  intro hf
  have := countFree_full h hf
  omega

theorem PushFront_step {s : State T} {cs : Nat → List (Nat × T)} (hI : Inv s cs) {l : Nat}
    (hl : l < s.lists.length) (v : T) (hpos : 0 < countFree s.heap) :
    ∃ s1 a, PushFront s l v = .ok s1 () ∧ Inv s1 (Function.update cs l ((a, v) :: cs l)) ∧
      s1.lists.length = s.lists.length ∧ countFree s1.heap + 1 = countFree s.heap := by
  cases ha : firstFree s.heap with
  | none => exact absurd ha (firstFree_of_countFree _ hpos)
  | some a =>
    obtain ⟨s1, hrun, hI1, hl1, _⟩ := PushFront_spec hI hl v ha
    refine ⟨s1, a, hrun, hI1, hl1, ?_⟩
    have hL : s.lists[l]? = some s.lists[l] := List.getElem?_eq_getElem hl
    simp only [PushFront, hL, ha, Res.ok.injEq, and_true] at hrun
    subst hrun
    exact countFree_alloc _ _ _ (firstFree_spec _ _ ha)

theorem begin_eq_posAt {s : State T} {cs : Nat → List (Nat × T)} (hS : Shape s cs) {l : Nat}
    (hl : l < s.lists.length) : begin s l = some (posAt (cs l) l 1) := by
  have hL : s.lists[l]? = some s.lists[l] := List.getElem?_eq_getElem hl
  simp only [begin, hL, Option.map_some', posAt_succ, List.drop_zero]
  rw [seg_head (hS.chain l _ hL)]

theorem isEmpty_eq {s : State T} {cs : Nat → List (Nat × T)} (hI : Inv s cs) {l : Nat}
    (hl : l < s.lists.length) : IsEmpty s l = some ((cs l).length == 0) := by
  have hL : s.lists[l]? = some s.lists[l] := List.getElem?_eq_getElem hl
  simp [IsEmpty, hL, hI.size l _ hL]

/-- C14: starting from an empty list of integers, with four free heap cells:
after PushFront(3), PushFront(2), PushFront(1) the sequence is [1,2,3] with
size 3; after InsertAfter(begin(), 10) it is [1,10,2,3] with size 4; after
EraseAfter(begin()) it is [1,2,3] with size 3; after Clear() it is [] with
size 0 and IsEmpty() is true.  Every call returns. -/
theorem scenario_push_insert_erase_clear (s : State Int) (hwf : WF s) (l : Nat)
    (hl : l < s.lists.length) (hempty : toList s l = some []) (hmem : 4 ≤ countFree s.heap) :
    ∃ s1 s2 s3 b3 s4 it4 b4 s5 it5 s6,
      PushFront s l 3 = .ok s1 () ∧ PushFront s1 l 2 = .ok s2 () ∧
      PushFront s2 l 1 = .ok s3 () ∧
      toList s3 l = some [1, 2, 3] ∧ GetSize s3 l = some 3 ∧
      begin s3 l = some b3 ∧ InsertAfter s3 l b3 10 = .ok s4 it4 ∧
      toList s4 l = some [1, 10, 2, 3] ∧ GetSize s4 l = some 4 ∧
      begin s4 l = some b4 ∧ EraseAfter s4 l b4 = .ok s5 it5 ∧
      toList s5 l = some [1, 2, 3] ∧ GetSize s5 l = some 3 ∧
      Clear s5 l = .ok s6 () ∧
      toList s6 l = some [] ∧ GetSize s6 l = some 0 ∧ IsEmpty s6 l = some true := by
  obtain ⟨cs, hI⟩ := hwf
  have hnil : cs l = [] := by
    rw [hI.shape.toList_eq hl] at hempty
    simpa [vals] using hempty
  obtain ⟨s1, a1, hr1, hI1, hl1, hc1⟩ := PushFront_step hI hl 3 (by omega)
  rw [hnil] at hI1
  have hl1a : l < s1.lists.length := by omega
  obtain ⟨s2, a2, hr2, hI2, hl2, hc2⟩ := PushFront_step hI1 hl1a 2 (by omega)
  rw [Function.update_same, Function.update_idem] at hI2
  have hl2a : l < s2.lists.length := by omega
  obtain ⟨s3, a3, hr3, hI3, hl3, hc3⟩ := PushFront_step hI2 hl2a 1 (by omega)
  rw [Function.update_same, Function.update_idem] at hI3
  have hl3a : l < s3.lists.length := by omega
  have hsp : SplitAt l (.cell a3) [((a3, 1) : Nat × Int)] := Or.inr ⟨[], (a3, 1), rfl, rfl⟩
  have hb3 := begin_eq_posAt hI3.shape hl3a
  rw [Function.update_same] at hb3
  cases ha4 : firstFree s3.heap with
  | none => exact absurd ha4 (firstFree_of_countFree _ (by omega))
  | some a4 =>
    obtain ⟨s4, nx4, hr4, hI4, hl4, _⟩ :=
      InsertAfter_core hI3 hl3a
        (show Function.update cs l [(a3, 1), (a2, 2), (a1, 3)] l =
          [(a3, 1)] ++ [(a2, 2), (a1, 3)] by rw [Function.update_same]; rfl) hsp 10 ha4
    rw [Function.update_idem] at hI4
    have hl4a : l < s4.lists.length := by omega
    have hb4 := begin_eq_posAt hI4.shape hl4a
    rw [Function.update_same] at hb4
    obtain ⟨s5, nx5, hr5, hI5, hl5, _⟩ :=
      EraseAfter_core hI4 hl4a
        (show Function.update cs l ([(a3, 1)] ++ (a4, 10) :: [(a2, 2), (a1, 3)]) l =
          [(a3, 1)] ++ (a4, 10) :: [(a2, 2), (a1, 3)] by rw [Function.update_same]) hsp
    rw [Function.update_idem] at hI5
    have hl5a : l < s5.lists.length := by omega
    obtain ⟨s6, hr6, hI6, hl6, _⟩ := Clear_spec hI5 hl5a
    rw [Function.update_idem] at hI6
    have hl6a : l < s6.lists.length := by rw [hl6]; simpa using hl5a
    refine ⟨s1, s2, s3, _, s4, _, _, s5, _, s6, hr1, hr2, hr3, ?_, ?_, hb3, hr4, ?_, ?_, hb4,
      hr5, ?_, ?_, hr6, ?_, ?_, ?_⟩
    · rw [hI3.shape.toList_eq hl3a, Function.update_same]; rfl
    · rw [getSize_eq hI3 hl3a, Function.update_same]; rfl
    · rw [hI4.shape.toList_eq hl4a, Function.update_same]; rfl
    · rw [getSize_eq hI4 hl4a, Function.update_same]; rfl
    · rw [hI5.shape.toList_eq hl5a, Function.update_same]; rfl
    · rw [getSize_eq hI5 hl5a, Function.update_same]; rfl
    · rw [hI6.shape.toList_eq hl6a, Function.update_same]; rfl
    · rw [getSize_eq hI6 hl6a, Function.update_same]; rfl
    · rw [isEmpty_eq hI6 hl6a, Function.update_same]; rfl

theorem scenario_push_insert_erase_clear_witness :
    WF (ctor (State.init Int 4)) ∧ 0 < (ctor (State.init Int 4)).lists.length ∧
      toList (ctor (State.init Int 4)) 0 = some [] ∧
      4 ≤ countFree (ctor (State.init Int 4)).heap ∧
      ∃ s1 s2 s3 b3 s4 it4 b4 s5 it5 s6,
        PushFront (ctor (State.init Int 4)) 0 3 = .ok s1 () ∧ PushFront s1 0 2 = .ok s2 () ∧
        PushFront s2 0 1 = .ok s3 () ∧
        toList s3 0 = some [1, 2, 3] ∧ GetSize s3 0 = some 3 ∧
        begin s3 0 = some b3 ∧ InsertAfter s3 0 b3 10 = .ok s4 it4 ∧
        toList s4 0 = some [1, 10, 2, 3] ∧ GetSize s4 0 = some 4 ∧
        begin s4 0 = some b4 ∧ EraseAfter s4 0 b4 = .ok s5 it5 ∧
        toList s5 0 = some [1, 2, 3] ∧ GetSize s5 0 = some 3 ∧
        Clear s5 0 = .ok s6 () ∧
        toList s6 0 = some [] ∧ GetSize s6 0 = some 0 ∧ IsEmpty s6 0 = some true :=
  have hwf : WF (ctor (State.init Int 4)) :=
    reachable_wf (Reachable.step .ctor (Reachable.init 4 (by decide)) trivial rfl)
  ⟨hwf, by decide, rfl, by decide,
    scenario_push_insert_erase_clear (ctor (State.init Int 4)) hwf 0 (by decide) rfl
      (by decide)⟩

/-- C15 (amended): on an empty list PopFront() is a defined no-op: it returns
and leaves the state as it was, the list empty with GetSize() == 0.
EraseAfter(before_begin()) on an empty list is not: the position has no
successor, the assertion `pos.node_->next_node != nullptr` fails, and the call
is a precondition violation with undefined behaviour. -/
theorem PopFront_noop_EraseAfter_undefined (s : State T) (hwf : WF s) (l : Nat)
    (hl : l < s.lists.length) (hempty : GetSize s l = some 0) :
    PopFront s l = .ok s () ∧ toList s l = some [] ∧
      EraseAfter s l (before_begin l) = .ub ∧ ¬ HasSucc s (before_begin l) := by
  obtain ⟨cs, hI⟩ := hwf
  have hL : s.lists[l]? = some s.lists[l] := List.getElem?_eq_getElem hl
  have hnil : cs l = [] := by
    rw [getSize_eq hI hl] at hempty
    simpa using hempty
  have hsz : s.lists[l].size_ = 0 := by rw [hI.size l _ hL, hnil]; rfl
  have hhead : s.lists[l].head_next = none := by
    have := hI.shape.chain l _ hL
    rw [hnil] at this
    exact this
  refine ⟨?_, ?_, ?_, ?_⟩
  · simp [PopFront, hL, hsz]
  · rw [hI.shape.toList_eq hl, hnil]; rfl
  · simp [EraseAfter, hL, before_begin, State.nextOf, hhead]
  · simp [HasSucc, before_begin, State.nextOf, hL, hhead]

theorem PopFront_noop_EraseAfter_undefined_witness :
    WF (ctor (State.init Nat 2)) ∧ 0 < (ctor (State.init Nat 2)).lists.length ∧
      GetSize (ctor (State.init Nat 2)) 0 = some 0 ∧
      PopFront (ctor (State.init Nat 2)) 0 = .ok (ctor (State.init Nat 2)) () ∧
      toList (ctor (State.init Nat 2)) 0 = some [] ∧
      EraseAfter (ctor (State.init Nat 2)) 0 (before_begin 0) = .ub ∧
      ¬ HasSucc (ctor (State.init Nat 2)) (before_begin 0) :=
  have hwf : WF (ctor (State.init Nat 2)) :=
    reachable_wf (Reachable.step .ctor (Reachable.init 2 (by decide)) trivial rfl)
  ⟨hwf, by decide, rfl,
    PopFront_noop_EraseAfter_undefined (ctor (State.init Nat 2)) hwf 0 (by decide) rfl⟩

/-- C15, as stated, fails: on the empty list of a fresh program
EraseAfter(before_begin()) does not complete, it fails its assertion, while
PopFront() does return with the list still empty. -/
theorem EraseAfter_empty_counterexample :
    Reachable (ctor (State.init Nat 2)) ∧ GetSize (ctor (State.init Nat 2)) 0 = some 0 ∧
      PopFront (ctor (State.init Nat 2)) 0 = .ok (ctor (State.init Nat 2)) () ∧
      EraseAfter (ctor (State.init Nat 2)) 0 (before_begin 0) = .ub ∧
      ¬ EraseNoOp (ctor (State.init Nat 2)) 0 := by
  refine ⟨Reachable.step .ctor (Reachable.init 2 (by decide)) trivial rfl, rfl, rfl, rfl, ?_⟩
  rintro ⟨_, s1, it, h, _⟩
  have hub : EraseAfter (ctor (State.init Nat 2)) 0 (before_begin 0) = .ub := rfl
  rw [hub] at h
  cases h

/-- C16: in every state reachable through the public operations called within
their preconditions, for every list: begin() equals end() if and only if
IsEmpty() is true; advancing before_begin() once yields begin(); PopFront()
returns; and whenever PopFront's guard `size_ != 0` passes (IsEmpty() is
false) begin() references a live first node, so PopFront reads `cur->next_node`
through a non-null pointer to a live node. -/
theorem begin_is_end_iff_empty (s : State T) (hs : Reachable s) (l : Nat)
    (hl : l < s.lists.length) :
    ∃ b e, begin s l = some b ∧ IsEmpty s l = some e ∧ (b = end_ ↔ e = true) ∧
      incr s (before_begin l) = some b ∧
      (∃ s1, PopFront s l = .ok s1 ()) ∧
      (e = false → ∃ a n, b.node_ = some (.cell a) ∧ s.heap[a]? = some (some n)) := by
  obtain ⟨cs, hI⟩ := reachable_wf hs
  have hL : s.lists[l]? = some s.lists[l] := List.getElem?_eq_getElem hl
  have hch := hI.shape.chain l _ hL
  obtain ⟨s1, hpop, _⟩ := PopFront_spec hI hl
  refine ⟨⟨toRef s.lists[l].head_next⟩, (cs l).length == 0, by simp [begin, hL],
    isEmpty_eq hI hl, ?_, by simp [incr, before_begin, State.nextOf, hL], ⟨s1, hpop⟩, ?_⟩
  · cases hc : cs l with
    | nil =>
      rw [hc] at hch
      have : s.lists[l].head_next = none := hch
      simp [this, toRef, end_]
    | cons x c =>
      rw [hc] at hch
      obtain ⟨hp, _⟩ := hch
      simp [hp, toRef, end_]
  · intro he
    cases hc : cs l with
    | nil => simp [hc] at he
    | cons x c =>
      rw [hc] at hch
      obtain ⟨hp, nx, hx, _⟩ := hch
      exact ⟨x.1, _, by simp [hp, toRef], hx⟩

theorem begin_is_end_iff_empty_witness :
    Reachable demo2 ∧ 1 < demo2.lists.length ∧
      ∃ b e, begin demo2 1 = some b ∧ IsEmpty demo2 1 = some e ∧ (b = end_ ↔ e = true) ∧
        incr demo2 (before_begin 1) = some b ∧
        (∃ s1, PopFront demo2 1 = .ok s1 ()) ∧
        (e = false → ∃ a n, b.node_ = some (.cell a) ∧ demo2.heap[a]? = some (some n)) :=
  ⟨demo2_reachable, by decide, begin_is_end_iff_empty demo2 demo2_reachable 1 (by decide)⟩

/-- When the loop of `Copy` leaves by bad_alloc, it has copied as many elements
as there were free cells. -/
theorem Copy_built_of_bad_alloc {It : Type} (io : InputIt T It) :
    ∀ (fuel : Nat) (s : State T) (current : NodeRef) (first last : It) (s1 : State T),
      Copy.loop io fuel s current first last = .bad_alloc s1 →
      Copy.built io fuel s current first last = countFree s.heap := by
  intro fuel
  induction fuel with
  | zero =>
    intro s current first last s1 h
    simp only [Copy.loop] at h
    split at h <;> cases h
  | succ f ih =>
    intro s current first last s1 h
    simp only [Copy.loop] at h
    simp only [Copy.built]
    split at h
    · next hne =>
      simp only [hne, if_true]
      split at h
      · next ha =>
        exact (countFree_full _ ha).symm
      · next a ha =>
        split at h
        · cases h
        · next v hv =>
          split at h
          · cases h
          · next s2 hs2 =>
            split at h
            · cases h
            · next first1 hf =>
              rw [ih s2 (.cell a) first1 last s1 h]
              have h1 := countFree_setNext hs2
              have h2 := countFree_alloc s.heap a ⟨v, none⟩ (firstFree_spec _ _ ha)
              simp only at h1
              omega
    · cases h

/-- With fewer free cells than elements to copy, the loop of `Copy` leaves by
bad_alloc after copying as many elements as there were free cells. -/
theorem Copy_loop_fails {It : Type} {io : InputIt T It} {last : It} {F : List Nat}
    {D : List (Option (Node T)) → It → List T → Prop} (hR : Reads io last F D)
    {s : State T} {cs : Nat → List (Nat × T)} (hI : Inv s cs)
    {f : It} {v : List T} (hD : D s.heap f v)
    (hF : ∀ a ∈ F, ∃ k, k < s.lists.length ∧ a ∈ addrs (cs k))
    (hlt : countFree s.heap < v.length) :
    ∃ s1, Copy.loop io ((ctor s).heap.length + 1) (ctor s) (.head s.lists.length) f last =
        .bad_alloc s1 ∧
      Copy.built io ((ctor s).heap.length + 1) (ctor s) (.head s.lists.length) f last =
        countFree s.heap := by
  have hI0 := ctor_inv hI
  have htmp : cs s.lists.length = [] := hI.shape.out _ (le_refl _)
  obtain ⟨s1, b, hres, _⟩ :=
    Copy_loop_spec hR s.lists.length v ((ctor s).heap.length + 1) (ctor s) cs
      (.head s.lists.length) f hI0.shape (by simp [ctor]) (Or.inl ⟨rfl, htmp⟩) hD
      (fun a ha => by
        obtain ⟨k, hk, hak⟩ := hF a ha
        exact ⟨k, by omega, hak⟩)
      (by have := countFree_le (ctor s).heap; omega)
  rcases hres with ⟨hle, _, _⟩ | ⟨_, hrun⟩
  · simp only [ctor] at hle
    omega
  · exact ⟨s1, hrun, Copy_built_of_bad_alloc io _ _ _ _ _ s1 hrun⟩

/-- C17: for lists A and B, distinct objects, and every k below B's size: when
the allocation of the node for the k-th element of B (counting from 0) fails
during the copy assignment A = B, that is, when k cells are free, so that the
loop of `Copy` run for the temporary copies k elements and then leaves by
std::bad_alloc, the assignment leaves by std::bad_alloc, and the traversal
sequence and the size of A, as of every list, are exactly what they were
before the assignment. -/
theorem assign_failure_keeps_target (s : State T) (hwf : WF s) (a b : Nat)
    (ha : a < s.lists.length) (hb : b < s.lists.length) (hne : a ≠ b) (n k : Nat)
    (hn : GetSize s b = some n) (hk : k < n) (hfail : countFree s.heap = k) :
    (∃ first s2, begin (ctor s) b = some first ∧
      Copy.loop constIt ((ctor (ctor s)).heap.length + 1) (ctor (ctor s))
        (.head (ctor s).lists.length) first end_ = .bad_alloc s2 ∧
      Copy.built constIt ((ctor (ctor s)).heap.length + 1) (ctor (ctor s))
        (.head (ctor s).lists.length) first end_ = k) ∧
    ∃ s1, assign s a b = .bad_alloc s1 ∧ toList s1 a = toList s a ∧
      GetSize s1 a = GetSize s a ∧ s1.lists.length = s.lists.length ∧
      ∀ l, l < s.lists.length → toList s1 l = toList s l ∧ GetSize s1 l = GetSize s l := by
  obtain ⟨cs, hI⟩ := hwf
  rw [getSize_eq hI hb] at hn
  cases hn
  constructor
  · have hI0 := ctor_inv hI
    have hO : (ctor s).lists[b]? = some s.lists[b] := by
      simp only [ctor]
      rw [List.getElem?_append_left hb]
      exact List.getElem?_eq_getElem hb
    have hD : iterReads (addrs (cs b)) (ctor s).heap
        (⟨toRef s.lists[b].head_next⟩ : BasicIterator) (vals (cs b)) :=
      ⟨_, cs b, rfl, hI0.shape.chain b _ hO, rfl, fun _ h => h⟩
    obtain ⟨s2, hrun, hbuilt⟩ := Copy_loop_fails (reads_constIt (addrs (cs b))) hI0 hD
      (fun x hx => ⟨b, by simp [ctor]; omega, hx⟩)
      (by simp only [ctor, vals, List.length_map]; omega)
    exact ⟨_, s2, by simp [begin, hO], hrun, by rw [hbuilt]; exact hfail⟩
  · obtain ⟨s1, hrun, hI1, hlists, _⟩ := (assign_spec hI ha hb hne).2 (by omega)
    have hlen : s1.lists.length = s.lists.length := by rw [hlists]
    have hall : ∀ l, l < s.lists.length →
        toList s1 l = toList s l ∧ GetSize s1 l = GetSize s l := by
      intro l hl
      have hl1 : l < s1.lists.length := by rw [hlen]; exact hl
      exact ⟨by rw [hI1.shape.toList_eq hl1, hI.shape.toList_eq hl],
        by rw [getSize_eq hI1 hl1, getSize_eq hI hl]⟩
    exact ⟨s1, hrun, (hall a ha).1, (hall a ha).2, hlen, hall⟩

theorem assign_failure_keeps_target_witness :
    WF demo2 ∧ 1 < demo2.lists.length ∧ 0 < demo2.lists.length ∧ (1 : Nat) ≠ 0 ∧
      GetSize demo2 0 = some 3 ∧ 2 < 3 ∧ countFree demo2.heap = 2 ∧
      ∃ s1, assign demo2 1 0 = .bad_alloc s1 ∧ toList s1 1 = toList demo2 1 ∧
        GetSize s1 1 = GetSize demo2 1 ∧ s1.lists.length = demo2.lists.length ∧
        ∀ l, l < demo2.lists.length →
          toList s1 l = toList demo2 l ∧ GetSize s1 l = GetSize demo2 l :=
  ⟨reachable_wf demo2_reachable, by decide, by decide, by decide, rfl, by decide, rfl,
    (assign_failure_keeps_target demo2 (reachable_wf demo2_reachable) 1 0 (by decide)
      (by decide) (by decide) 3 2 rfl (by decide) rfl).2⟩

theorem trichotomy_core {eq lt : T → T → Bool} {s : State T} {cs : Nat → List (Nat × T)}
    (hI : Inv s cs) {l1 l2 : Nat} (h1 : l1 < s.lists.length) (h2 : l2 < s.lists.length)
    (htri : ∀ a b, ExactlyOne (lt a b) (eq a b) (lt b a)) :
    ∃ a b c, op_lt lt s l1 l2 = .ok a ∧ op_eq eq s l1 l2 = .ok b ∧ op_lt lt s l2 l1 = .ok c ∧
      ExactlyOne a b c := by
  by_cases hne : l1 = l2
  · subst hne
    have hirr : ∀ a, lt a a = false := by
      intro a
      rcases htri a a with ⟨h, _, h3⟩ | ⟨h, _, _⟩ | ⟨h, _, _⟩
      · rw [h] at h3; cases h3
      · exact h
      · exact h
    refine ⟨false, true, false, ?_, show op_eq eq s l1 l1 = .ok true by simp [op_eq], ?_,
      Or.inr (Or.inl ⟨rfl, rfl, rfl⟩)⟩
    · rw [op_lt_spec hI h1 h1, lexLt_irrefl lt hirr]
    · rw [op_lt_spec hI h1 h1, lexLt_irrefl lt hirr]
  · refine ⟨_, _, _, op_lt_spec hI h1 h2, op_eq_spec hI h1 h2 hne, op_lt_spec hI h2 h1, ?_⟩
    have := lex_trichotomy eq lt htri (vals (cs l1)) (vals (cs l2))
    simpa [vals] using this

/-- C18 (amended): for all lists L1 and L2, L1 > L2 holds iff L2 < L1; and for
an element type on which exactly one of a < b, a == b, b < a holds for all
values a and b, all the derived operators are consistent with < and ==:
L1 <= L2 holds iff L1 < L2 or L1 == L2; L1 > L2 holds iff L2 < L1; L1 >= L2
holds iff L1 > L2 or L1 == L2. -/
theorem derived_operators_consistent (eq lt : T → T → Bool) (s : State T) (hwf : WF s)
    (l1 l2 : Nat) (h1 : l1 < s.lists.length) (h2 : l2 < s.lists.length) :
    (∃ lt21 gt, op_lt lt s l2 l1 = .ok lt21 ∧ op_gt lt s l1 l2 = .ok gt ∧
      (gt = true ↔ lt21 = true)) ∧
    ((∀ a b, ExactlyOne (lt a b) (eq a b) (lt b a)) → DerivedClaim eq lt s l1 l2) := by
  obtain ⟨cs, hI⟩ := hwf
  refine ⟨⟨_, _, op_lt_spec hI h2 h1, by simp only [op_gt]; exact op_lt_spec hI h2 h1,
    Iff.rfl⟩, ?_⟩
  intro htri
  obtain ⟨a, b, c, ha, hb, hc, hone⟩ := trichotomy_core hI h1 h2 htri
  refine ⟨a, c, b, !c, c, !a, ha, hc, hb, by simp [op_le, hc], by simp [op_gt, hc],
    by simp [op_ge, ha], ?_, Iff.rfl, ?_⟩
  · rcases hone with ⟨h, h', h''⟩ | ⟨h, h', h''⟩ | ⟨h, h', h''⟩ <;> simp [h, h', h'']
  · rcases hone with ⟨h, h', h''⟩ | ⟨h, h', h''⟩ | ⟨h, h', h''⟩ <;> simp [h, h', h'']

theorem nat_trichotomy (a b : Nat) : ExactlyOne (decide (a < b)) (a == b) (decide (b < a)) := by
  rcases Nat.lt_trichotomy a b with h | h | h
  · exact Or.inl ⟨by simp [h], by simp; omega, by simp; omega⟩
  · exact Or.inr (Or.inl ⟨by simp; omega, by simp [h], by simp; omega⟩)
  · exact Or.inr (Or.inr ⟨by simp; omega, by simp; omega, by simp [h]⟩)

theorem derived_operators_consistent_witness :
    WF demo ∧ 2 < demo.lists.length ∧ 0 < demo.lists.length ∧
      (∀ a b : Nat, ExactlyOne (decide (a < b)) (a == b) (decide (b < a))) ∧
      (∃ lt21 gt, op_lt (fun a b : Nat => decide (a < b)) demo 0 2 = .ok lt21 ∧
        op_gt (fun a b : Nat => decide (a < b)) demo 2 0 = .ok gt ∧
        (gt = true ↔ lt21 = true)) ∧
      DerivedClaim (fun a b : Nat => a == b) (fun a b : Nat => decide (a < b)) demo 2 0 :=
  ⟨reachable_wf demo_reachable, by decide, by decide, nat_trichotomy,
    (derived_operators_consistent (fun a b : Nat => a == b) (fun a b : Nat => decide (a < b))
      demo (reachable_wf demo_reachable) 2 0 (by decide) (by decide)).1,
    (derived_operators_consistent (fun a b : Nat => a == b) (fun a b : Nat => decide (a < b))
      demo (reachable_wf demo_reachable) 2 0 (by decide) (by decide)).2 nat_trichotomy⟩

/-- C18, as stated for every element type, fails for an element type with a
value that is neither less than, nor == to, nor greater than itself (as NaN
for `double`): for two lists holding that one value, L1 <= L2 is true, being
`!(L2 < L1)`, although neither L1 < L2 nor L1 == L2 is. -/
theorem derived_operators_counterexample :
    Reachable demoNan ∧ op_le nanLt demoNan 0 1 = .ok true ∧
      op_lt nanLt demoNan 0 1 = .ok false ∧ op_eq nanEq demoNan 0 1 = .ok false ∧
      ¬ DerivedClaim nanEq nanLt demoNan 0 1 := by
  refine ⟨demoNan_reachable, rfl, rfl, rfl, ?_⟩
  rintro ⟨lt12, lt21, e, le, gt, ge, h1, _, h3, h4, _, _, hle, _, _⟩
  have h1a : op_lt nanLt demoNan 0 1 = .ok false := rfl
  have h3a : op_eq nanEq demoNan 0 1 = .ok false := rfl
  have h4a : op_le nanLt demoNan 0 1 = .ok true := rfl
  rw [h1a] at h1
  rw [h3a] at h3
  rw [h4a] at h4
  cases h1
  cases h3
  cases h4
  simp at hle

/-- C19: in every state reachable through the public operations called within
their preconditions, whenever EraseAfter's preconditions hold (the position
references a live node of this list and that node has a successor), the size
is positive when EraseAfter is entered, all three assertions of EraseAfter
pass, `size_ > 0` among them (the call returns), and the size afterwards is
exactly one less: the unsigned counter does not wrap around. -/
theorem EraseAfter_size_positive (s : State T) (hs : Reachable s) (l : Nat)
    (hl : l < s.lists.length) (pos : BasicIterator) (hown : Owns s l pos)
    (hsucc : HasSucc s pos) :
    ∃ n s1 it, GetSize s l = some (n + 1) ∧ EraseAfter s l pos = .ok s1 it ∧
      GetSize s1 l = some n ∧ n + 1 < SIZE_MOD := by
  obtain ⟨cs, hI⟩ := reachable_wf hs
  obtain ⟨r, pre, suf, rfl, hc, hsp⟩ := owns_split hI.shape hl hown
  have hL : s.lists[l]? = some s.lists[l] := List.getElem?_eq_getElem hl
  have hch := hI.shape.chain l _ hL
  rw [hc] at hch
  obtain ⟨nx, hnext, _, hsuf⟩ := nextOf_split hL hch hsp
  cases suf with
  | nil =>
    have : nx = none := hsuf
    subst this
    have hnext1 : s.nextOf r = some none := hnext
    simp [HasSucc, hnext1] at hsucc
  | cons x suf =>
    obtain ⟨s1, nx2, hrun, hI1, hl1, _⟩ := EraseAfter_core hI hl hc hsp
    have hl1a : l < s1.lists.length := by rw [hl1]; exact hl
    have hlim := hI.length_lt l
    rw [hc] at hlim
    simp only [List.length_append, List.length_cons] at hlim
    refine ⟨pre.length + suf.length, s1, _, ?_, hrun, ?_, ?_⟩
    · rw [getSize_eq hI hl, hc]
      simp only [List.length_append, List.length_cons]
      rfl
    · rw [getSize_eq hI1 hl1a, Function.update_same]
      simp
    · exact lim_lt_mod (by omega)

theorem EraseAfter_size_positive_witness :
    Reachable demo2 ∧ 0 < demo2.lists.length ∧ Owns demo2 0 ⟨some (.cell 1)⟩ ∧
      HasSucc demo2 ⟨some (.cell 1)⟩ ∧
      ∃ n s1 it, GetSize demo2 0 = some (n + 1) ∧
        EraseAfter demo2 0 ⟨some (.cell 1)⟩ = .ok s1 it ∧ GetSize s1 0 = some n ∧
        n + 1 < SIZE_MOD :=
  ⟨demo2_reachable, by decide, by decide, by decide,
    EraseAfter_size_positive demo2 demo2_reachable 0 (by decide) ⟨some (.cell 1)⟩ (by decide)
      (by decide)⟩

theorem lt_of_lt_of_unordered {lt : T → T → Bool}
    (htr : ∀ a b c, lt a b = true → lt b c = true → lt a c = true)
    (hinc : ∀ a b c, lt a b = false → lt b a = false → lt b c = false → lt c b = false →
      lt a c = false ∧ lt c a = false)
    {x y z : T} (hxy : lt x y = true) (hyz : lt y z = false) (hzy : lt z y = false) :
    lt x z = true := by
  cases hxz : lt x z with
  | true => rfl
  | false =>
    cases hzx : lt z x with
    | true =>
      have := htr z x y hzx hxy
      rw [hzy] at this
      cases this
    | false =>
      have := (hinc x z y hxz hzx hzy hyz).1
      rw [hxy] at this
      cases this

theorem lt_of_unordered_of_lt {lt : T → T → Bool}
    (htr : ∀ a b c, lt a b = true → lt b c = true → lt a c = true)
    (hinc : ∀ a b c, lt a b = false → lt b a = false → lt b c = false → lt c b = false →
      lt a c = false ∧ lt c a = false)
    {x y z : T} (hxy : lt x y = false) (hyx : lt y x = false) (hyz : lt y z = true) :
    lt x z = true := by
  cases hxz : lt x z with
  | true => rfl
  | false =>
    cases hzx : lt z x with
    | true =>
      have := htr y z x hyz hzx
      rw [hyx] at this
      cases this
    | false =>
      have := (hinc y x z hyx hxy hxz hzx).1
      rw [hyz] at this
      cases this

theorem lexLt_trans (lt : T → T → Bool)
    (htr : ∀ a b c, lt a b = true → lt b c = true → lt a c = true)
    (hinc : ∀ a b c, lt a b = false → lt b a = false → lt b c = false → lt c b = false →
      lt a c = false ∧ lt c a = false) :
    ∀ xs ys zs : List T, lexLt lt xs ys = true → lexLt lt ys zs = true →
      lexLt lt xs zs = true := by
  intro xs
  induction xs with
  | nil =>
    intro ys zs h1 h2
    cases ys with
    | nil => simp [lexLt] at h1
    | cons y ys =>
      cases zs with
      | nil => simp [lexLt] at h2
      | cons z zs => rfl
  | cons x xs ih =>
    intro ys zs h1 h2
    cases ys with
    | nil => simp [lexLt] at h1
    | cons y ys =>
      cases zs with
      | nil => simp [lexLt] at h2
      | cons z zs =>
        simp only [lexLt] at h1 h2 ⊢
        have hyz_cases : lt y z = true ∨
            (lt y z = false ∧ lt z y = false ∧ lexLt lt ys zs = true) := by
          cases hyz : lt y z with
          | true => exact Or.inl rfl
          | false =>
            cases hzy : lt z y with
            | true => simp [hyz, hzy] at h2
            | false =>
              simp only [hyz, hzy, Bool.false_eq_true, if_false] at h2
              exact Or.inr ⟨rfl, rfl, h2⟩
        cases hxy : lt x y with
        | true =>
          have hxz : lt x z = true := by
            rcases hyz_cases with hyz | ⟨hyz, hzy, _⟩
            · exact htr x y z hxy hyz
            · exact lt_of_lt_of_unordered htr hinc hxy hyz hzy
          simp [hxz]
        | false =>
          cases hyx : lt y x with
          | true => simp [hxy, hyx] at h1
          | false =>
            simp only [hxy, hyx, Bool.false_eq_true, if_false] at h1
            rcases hyz_cases with hyz | ⟨hyz, hzy, hrest⟩
            · have hxz := lt_of_unordered_of_lt htr hinc hxy hyx hyz
              simp [hxz]
            · obtain ⟨hxz, hzx⟩ := hinc x y z hxy hyx hyz hzy
              simp only [hxz, hzx, Bool.false_eq_true, if_false]
              exact ih ys zs h1 hrest

/-- C20 (amended): operator< on lists is a strict order whenever the element
type's < is a strict order (irreflexive and transitive) in which, moreover,
being unordered is transitive (if neither of a, b is less than the other, nor
of b, c, then neither of a, c is): for all lists L1, L2, L3, not (L1 < L1), and
if L1 < L2 and L2 < L3 then L1 < L3. -/
theorem op_lt_strict_order (lt : T → T → Bool) (s : State T) (hwf : WF s) (l1 l2 l3 : Nat)
    (h1 : l1 < s.lists.length) (h2 : l2 < s.lists.length) (h3 : l3 < s.lists.length)
    (hirr : ∀ a, lt a a = false)
    (htr : ∀ a b c, lt a b = true → lt b c = true → lt a c = true)
    (hinc : ∀ a b c, lt a b = false → lt b a = false → lt b c = false → lt c b = false →
      lt a c = false ∧ lt c a = false) :
    LtStrict lt s l1 l2 l3 := by
  obtain ⟨cs, hI⟩ := hwf
  refine ⟨by rw [op_lt_spec hI h1 h1, lexLt_irrefl lt hirr], ?_⟩
  rw [op_lt_spec hI h1 h2, op_lt_spec hI h2 h3, op_lt_spec hI h1 h3]
  intro h12 h23
  have h12a : lexLt lt (vals (cs l1)) (vals (cs l2)) = true := by injection h12
  have h23a : lexLt lt (vals (cs l2)) (vals (cs l3)) = true := by injection h23
  rw [lexLt_trans lt htr hinc _ _ _ h12a h23a]

theorem op_lt_strict_order_witness :
    WF demo ∧ 2 < demo.lists.length ∧ 0 < demo.lists.length ∧ 1 < demo.lists.length ∧
      (∀ a : Nat, decide (a < a) = false) ∧
      (∀ a b c : Nat, decide (a < b) = true → decide (b < c) = true → decide (a < c) = true) ∧
      (∀ a b c : Nat, decide (a < b) = false → decide (b < a) = false →
        decide (b < c) = false → decide (c < b) = false →
        decide (a < c) = false ∧ decide (c < a) = false) ∧
      LtStrict (fun a b : Nat => decide (a < b)) demo 2 0 1 :=
  have hirr : ∀ a : Nat, decide (a < a) = false := by intro a; simp
  have htr : ∀ a b c : Nat, decide (a < b) = true → decide (b < c) = true →
      decide (a < c) = true := by
    intro a b c h1 h2
    simp only [decide_eq_true_eq] at h1 h2 ⊢
    omega
  have hinc : ∀ a b c : Nat, decide (a < b) = false → decide (b < a) = false →
      decide (b < c) = false → decide (c < b) = false →
      decide (a < c) = false ∧ decide (c < a) = false := by
    intro a b c h1 h2 h3 h4
    simp only [decide_eq_false_iff_not] at h1 h2 h3 h4 ⊢
    omega
  ⟨reachable_wf demo_reachable, by decide, by decide, by decide, hirr, htr, hinc,
    op_lt_strict_order (fun a b : Nat => decide (a < b)) demo (reachable_wf demo_reachable)
      2 0 1 (by decide) (by decide) (by decide) hirr htr hinc⟩

/-- C20, as stated, fails: the < of an element type with an unordered value
(as NaN for `double`) is a strict order, irreflexive and transitive, yet on the
lists [2], [NaN, NaN] and [1, 1, 1] operator< gives [2] < [NaN, NaN] and
[NaN, NaN] < [1, 1, 1] but not [2] < [1, 1, 1]. -/
theorem op_lt_transitivity_counterexample :
    Reachable demoNan3 ∧ (∀ a, nanLt a a = false) ∧
      (∀ a b c, nanLt a b = true → nanLt b c = true → nanLt a c = true) ∧
      op_lt nanLt demoNan3 0 1 = .ok true ∧ op_lt nanLt demoNan3 1 2 = .ok true ∧
      op_lt nanLt demoNan3 0 2 = .ok false ∧ ¬ LtStrict nanLt demoNan3 0 1 2 := by
  refine ⟨demoNan3_reachable, ?_, ?_, rfl, rfl, rfl, ?_⟩
  · intro a
    cases a <;> simp [nanLt]
  · intro a b c h1 h2
    cases a <;> cases b <;> cases c <;> simp [nanLt] at h1 h2 ⊢
    omega
  · rintro ⟨_, h⟩
    have h02 : op_lt nanLt demoNan3 0 2 = .ok false := rfl
    have := h rfl rfl
    rw [h02] at this
    cases this

end SingleLinkedList
